import Mathlib

/-!
# nmon2series: a shallow embedding

The Go package `nmon2series` turns an nmon report (comma separated, section
tagged text) into named time series.  This file embeds the package as pure
Lean functions and proves properties of the embedding.

Conventions of the embedding

* A Go `string` is a `List Char` (one element per byte of the Go string).
* A Go `map[string]T` is an association list `List (Str × T)`; a key is looked
  up at its first entry, `delete` drops every entry of the key, and a new key
  is added at the end.  Go leaves the enumeration order of a map unspecified:
  `for ... range m` is embedded as a traversal in list order, so every
  permutation of the list stands for one possible enumeration.
* A call either returns normally, returns an `error` value, or stops with a
  run-time panic (nil pointer dereference, index or slice bound out of range):
  see `Outcome`.
* `time.Parse`, `strconv.ParseFloat` and `time.Now` belong to the Go standard
  library, not to the package: they enter as parameters `parseTime`,
  `parseFloat` and `now`.
-/

namespace Nmon2series

/-- A Go string. -/
abbrev Str := List Char

/-- The two run-time panics the package can raise. -/
inductive Panic where
  | nilDereference
  | outOfRange
  deriving DecidableEq, Repr

/-- Result of a call: normal return, returned `error`, or run-time panic. -/
inductive Outcome (α : Type) where
  | ok (a : α)
  | err (msg : Str)
  | panic (p : Panic)
  deriving DecidableEq, Repr

namespace Outcome

/-- Sequencing: the first error or panic stops the computation. -/
def bind {α β : Type} (x : Outcome α) (f : α → Outcome β) : Outcome β :=
  match x with
  | ok a => f a
  | err m => err m
  | panic p => panic p

end Outcome

/-! ## Strings -/

/-- The line separator, the byte 10. -/
def newline : Char := Char.ofNat 10

/-- Go `strings.Split(s, sep)` for a one byte separator. -/
def split (sep : Char) : Str → List Str
  | [] => [[]]
  | c :: cs =>
    if c = sep then [] :: split sep cs
    else
      match split sep cs with
      | [] => [[c]]
      | w :: ws => (c :: w) :: ws

/-- Go `strings.SplitN(s, sep, n)` for a one byte separator and `n ≥ 0`. -/
def splitN (sep : Char) : Nat → Str → List Str
  | 0, _ => []
  | 1, s => [s]
  | _ + 2, [] => [[]]
  | n + 2, c :: cs =>
    if c = sep then [] :: splitN sep (n + 1) cs
    else
      match splitN sep (n + 2) cs with
      | [] => [[c]]
      | w :: ws => (c :: w) :: ws

/-- Go `strings.Replace(data, "%", "Percent", -1)`. -/
def replacePercent : Str → Str
  | [] => []
  | c :: cs => if c = '%' then "Percent".toList ++ replacePercent cs else c :: replacePercent cs

/-- Go `strings.Join(parts, sep)`. -/
def join (sep : Str) : List Str → Str
  | [] => []
  | [a] => a
  | a :: b :: rest => a ++ sep ++ join sep (b :: rest)

/-! ## Data model -/

/-- Go `Section`. -/
structure Section where
  Header : List Str
  Body : List (List Str)
  deriving DecidableEq, Repr

/-- Go `time.Time`, as the number of nanoseconds since the Unix epoch. -/
structure Time where
  ns : Int
  deriving DecidableEq, Repr

/-- Go `Time.Unix`: whole seconds since the Unix epoch. -/
def Time.Unix (t : Time) : Int := t.ns / 1000000000

/-- Go `Time.Before`. -/
def Time.Before (t u : Time) : Bool := decide (t.ns < u.ns)

/-- The zero value of `time.Time`: January 1 of year 1, 00:00:00 UTC. -/
def zeroTime : Time := ⟨-62135596800 * 1000000000⟩

/-- Two's complement wrap of an `int64` result. -/
def wrapInt64 (x : Int) : Int := (x + 2 ^ 63) % 2 ^ 64 - 2 ^ 63

/-- The expression `t.Unix() * 1000` on `int64`. -/
def millis (t : Time) : Int := wrapInt64 (t.Unix * 1000)

/-- Go `Nmon`. -/
structure Nmon where
  Sections : List (Str × Section)
  Messages : List (Str × Str)
  Snapshots : List (Str × Time)
  Hostname : Str
  deriving DecidableEq, Repr

/-! ## Maps -/

/-- Map read `m[k]` with the comma-ok flag: `none` when the key is absent. -/
def mapGet {β : Type} (k : Str) : List (Str × β) → Option β
  | [] => none
  | (k', v) :: rest => if k' = k then some v else mapGet k rest

/-- Go `delete(m, k)`. -/
def mapDelete {β : Type} (k : Str) (m : List (Str × β)) : List (Str × β) :=
  m.filter (fun e => decide (e.1 ≠ k))

/-- Rewrites the value stored under an existing key. -/
def mapModify {β : Type} (k : Str) (f : β → β) : List (Str × β) → List (Str × β)
  | [] => []
  | (k', v) :: rest => if k' = k then (k', f v) :: rest else (k', v) :: mapModify k f rest

/-- Map write `m[k] = v`. -/
def mapSet {β : Type} (k : Str) (v : β) (m : List (Str × β)) : List (Str × β) :=
  match mapGet k m with
  | some _ => mapModify k (fun _ => v) m
  | none => m ++ [(k, v)]

/-- The statement `m[k] += s` on a `map[string]string`. -/
def mapAppend (k : Str) (s : Str) (m : List (Str × Str)) : List (Str × Str) :=
  match mapGet k m with
  | some old => mapSet k (old ++ s) m
  | none => mapSet k s m

/-- The statement `sec[name].Body = append(sec[name].Body, row)`. -/
def appendRow (name : Str) (row : List Str) (secs : List (Str × Section)) :
    List (Str × Section) :=
  mapModify name (fun s => { s with Body := s.Body ++ [row] }) secs

/-! ## Section Builder -/

/-- Go `Nmon.readLine`. -/
def readLine (line : Str) : Outcome (Str × List Str) :=
  match splitN ',' 2 line with
  | [name, row] =>
    if name = "AAA".toList ∨ name = "ZZZZ".toList then .ok (name, splitN ',' 2 row)
    else if name = "BBBP".toList then .ok (name, splitN ',' 3 row)
    else .ok (name, split ',' row)
  | _ => .err "Empty line".toList

/-- Go `Nmon.getHeader`: the header of a new section and, for the three
key/value sections, the first body row. -/
def getHeader (name : Str) (row : List Str) : List Str × Option (List Str) :=
  if name = "AAA".toList then (["key".toList, "value".toList], some row)
  else if name = "BBBP".toList then
    (["line".toList, "source".toList, "value".toList], some row)
  else if name = "ZZZZ".toList then (["snapshot".toList, "time".toList], some row)
  else (row, none)

/-- One iteration of the loop of `getSections`. -/
def addLine (sec : List (Str × Section)) (line : Str) : List (Str × Section) :=
  match readLine line with
  | .ok (name, row) =>
    match mapGet name sec with
    | none =>
      match getHeader name row with
      | (header, some body) => sec ++ [(name, { Header := header, Body := [body] })]
      | (header, none) => sec ++ [(name, { Header := header, Body := [] })]
    | some _ => appendRow name row sec
  | _ => sec

/-- Go `Nmon.getSections`. -/
def getSections (data : Str) : List (Str × Section) :=
  (split newline data).foldl addLine []

/-! ## Metadata Extractor and Snapshot Resolver -/

/-- The loop body of `getHostname`. -/
def hostStep (hostname : Str) (row : List Str) : Str :=
  match row with
  | k :: v :: _ => if k = "host".toList then v else hostname
  | _ => hostname

/-- Go `Nmon.getHostname`.  The read `nmon.Sections["AAA"].Body` dereferences
the nil pointer the map returns for an absent key. -/
def getHostname (secs : List (Str × Section)) : Outcome Str :=
  match mapGet "AAA".toList secs with
  | none => .panic .nilDereference
  | some aaa => .ok (aaa.Body.foldl hostStep [])

/-- The loop body of `convertSnapshots`. -/
def snapshotStep (parseTime : Str → Option Time) (snapshots : List (Str × Time))
    (row : List Str) : List (Str × Time) :=
  match row with
  | id :: text :: _ =>
    match parseTime text with
    | some t => mapSet id t snapshots
    | none => snapshots
  | _ => snapshots

/-- Go `Nmon.convertSnapshots`: the snapshot map and the sections without
`ZZZZ`.  `parseTime s` is `time.Parse(timePattern, s)`, `none` on an error. -/
def convertSnapshots (parseTime : Str → Option Time) (secs : List (Str × Section)) :
    Outcome (List (Str × Time) × List (Str × Section)) :=
  match mapGet "ZZZZ".toList secs with
  | none => .panic .nilDereference
  | some zzzz =>
    .ok (zzzz.Body.foldl (snapshotStep parseTime) [], mapDelete "ZZZZ".toList secs)

/-! ## Table Normalizer -/

/-- One pass of the loop of `remove`: `append(out[:item], out[item+1:]...)`. -/
def removeAt {α : Type} (out : List α) (item : Nat) : Outcome (List α) :=
  if item < out.length then .ok (out.eraseIdx item) else .panic .outOfRange

/-- The loop of `remove` over the sorted items. -/
def removeAll {α : Type} (out : List α) : List Nat → Outcome (List α)
  | [] => .ok out
  | item :: items => (removeAt out item).bind (fun tmp => removeAll tmp items)

/-- Go `remove(s, items...)`: the items are sorted in descending order first. -/
def remove {α : Type} (s : List α) (items : List Nat) : Outcome (List α) :=
  removeAll s (items.insertionSort (fun a b => b ≤ a))

/-- Go `Nmon.fixTop`. -/
def fixTop (secs : List (Str × Section)) : Outcome (List (Str × Section)) :=
  match mapGet "TOP".toList secs with
  | none => .ok secs
  | some top =>
    match top.Header with
    | [] => .panic .outOfRange
    | h :: _ =>
      if h = "PercentCPU Utilisation".toList then
        match top.Body with
        | [] => .ok secs
        | first :: rest =>
          .ok (mapModify "TOP".toList (fun _ => { Header := first, Body := rest }) secs)
      else .ok secs

/-- The loop of `convertTop` that finds `pidPos` and `commandPos`; `i` is the
index of the first column of `header`. -/
def topPositions (header : List Str) (i pidPos commandPos : Nat) : Nat × Nat :=
  match header with
  | [] => (pidPos, commandPos)
  | column :: rest =>
    if column = "+PID".toList then topPositions rest (i + 1) i commandPos
    else if column = "Command".toList then topPositions rest (i + 1) pidPos i
    else topPositions rest (i + 1) pidPos commandPos

/-- The body of the loop of `convertTop` over the rows of `TOP`. -/
def topRow (header : List Str) (pidPos commandPos : Nat) (secs : List (Str × Section))
    (row : List Str) : Outcome (List (Str × Section)) :=
  match row.get? commandPos with
  | none => .panic .outOfRange
  | some command =>
    let name := "TOP.".toList ++ command
    let secs1 :=
      match mapGet name secs with
      | none => secs ++ [(name, { Header := header, Body := [] })]
      | some _ => secs
    (remove row [pidPos, commandPos]).bind (fun r => .ok (appendRow name r secs1))

/-- The loop of `convertTop` over the rows of `TOP`. -/
def topRows (header : List Str) (pidPos commandPos : Nat) (secs : List (Str × Section)) :
    List (List Str) → Outcome (List (Str × Section))
  | [] => .ok secs
  | row :: rows =>
    (topRow header pidPos commandPos secs row).bind
      (fun secs1 => topRows header pidPos commandPos secs1 rows)

/-- Go `Nmon.convertTop`. -/
def convertTop (secs : List (Str × Section)) : Outcome (List (Str × Section)) :=
  (fixTop secs).bind (fun secs1 =>
    match mapGet "TOP".toList secs1 with
    | none => .ok (mapDelete "TOP".toList secs1)
    | some top =>
      let pos := topPositions top.Header 0 0 0
      (remove top.Header [pos.1, pos.2]).bind (fun header =>
        (topRows header pos.1 pos.2 secs1 top.Body).bind (fun secs2 =>
          .ok (mapDelete "TOP".toList secs2))))

/-! ## Message Aggregator -/

/-- The loop of the `AAA` case of `convertMessages`. -/
def aaaStep (messages : List (Str × Str)) (row : List Str) : List (Str × Str) :=
  mapAppend "AAA".toList (join ": ".toList row ++ [newline]) messages

/-- The loop of the `BBBP` case of `convertMessages`. -/
def bbbpStep (messages : List (Str × Str)) (row : List Str) : List (Str × Str) :=
  match row with
  | _ :: source :: value :: _ =>
    mapAppend ("BBBP_".toList ++ source) (value ++ [newline]) messages
  | _ => messages

/-- The body of the loop of `convertMessages` over the sections. -/
def messageStep (messages : List (Str × Str)) (entry : Str × Section) : List (Str × Str) :=
  if entry.1 = "AAA".toList then entry.2.Body.foldl aaaStep messages
  else if entry.1 = "BBBP".toList then entry.2.Body.foldl bbbpStep messages
  else messages

/-- Go `Nmon.convertMessages`: the messages and the sections without `AAA` and
`BBBP`. -/
def convertMessages (secs : List (Str × Section)) :
    List (Str × Str) × List (Str × Section) :=
  (secs.foldl messageStep [], mapDelete "BBBP".toList (mapDelete "AAA".toList secs))

/-! ## Report construction -/

/-- Go `NewNmon`. -/
def NewNmon (parseTime : Str → Option Time) (data : Str) : Outcome Nmon :=
  let secs := getSections (replacePercent data)
  if secs.length < 1 then .err "No valid data recieved".toList
  else
    (getHostname secs).bind (fun hostname =>
      (convertSnapshots parseTime secs).bind (fun snap =>
        (convertTop snap.2).bind (fun secs2 =>
          let msg := convertMessages secs2
          .ok { Sections := msg.2, Messages := msg.1, Snapshots := snap.1,
                Hostname := hostname })))

/-! ## Series Emitter -/

/-- The second component of a point: a `float64` or a `string`. -/
inductive Value (F : Type) where
  | num (v : F)
  | text (s : Str)
  deriving DecidableEq, Repr

/-- Go `influxdb.Series`, with every point a pair of a time and a value. -/
structure Series (F : Type) where
  Name : Str
  Columns : List Str
  Points : List (Int × Value F)
  deriving DecidableEq, Repr

/-- The columns of every series built by the package. -/
def timeValue : List Str := ["time".toList, "value".toList]

/-- The map read `nmon.Snapshots[id]`: the zero time for an absent key. -/
def snapshotOf (snapshots : List (Str × Time)) (id : Str) : Time :=
  match mapGet id snapshots with
  | some t => t
  | none => zeroTime

/-- The body of the loop over the rows in `getSectionsAsSeries`: the point the
row adds to the series of column `i`, if any.  `parseFloat s` is
`strconv.ParseFloat(s, 64)`, `none` on an error. -/
def rowPoint {F : Type} (parseFloat : Str → Option F) (snapshots : List (Str × Time))
    (i : Nat) (row : List Str) : Outcome (Option (Int × Value F)) :=
  match row with
  | [] => .panic .outOfRange
  | id :: _ =>
    let t := millis (snapshotOf snapshots id)
    match row.get? i with
    | none => .panic .outOfRange
    | some cell =>
      match parseFloat cell with
      | some value => .ok (some (t, .num value))
      | none => .ok none

/-- The loop over the rows in `getSectionsAsSeries`: the points of column `i`. -/
def columnPoints {F : Type} (parseFloat : Str → Option F) (snapshots : List (Str × Time))
    (i : Nat) : List (List Str) → Outcome (List (Int × Value F))
  | [] => .ok []
  | row :: rows =>
    (rowPoint parseFloat snapshots i row).bind (fun p =>
      (columnPoints parseFloat snapshots i rows).bind (fun ps => .ok (p.toList ++ ps)))

/-- The loop over the header in `getSectionsAsSeries`; `i` is the index of the
first field of `fields`. -/
def fieldSeries {F : Type} (parseFloat : Str → Option F) (snapshots : List (Str × Time))
    (pfx name : Str) (body : List (List Str)) (i : Nat) :
    List Str → Outcome (List (Series F))
  | [] => .ok []
  | field :: fields =>
    if 0 < i then
      (columnPoints parseFloat snapshots i body).bind (fun points =>
        (fieldSeries parseFloat snapshots pfx name body (i + 1) fields).bind (fun later =>
          let out : Series F :=
            { Name := join ".".toList [pfx, name, field], Columns := timeValue,
              Points := points }
          .ok (if 0 < points.length then out :: later else later)))
    else fieldSeries parseFloat snapshots pfx name body (i + 1) fields

/-- The loop over the sections in `getSectionsAsSeries`. -/
def sectionsSeries {F : Type} (parseFloat : Str → Option F) (snapshots : List (Str × Time))
    (pfx : Str) : List (Str × Section) → Outcome (List (Series F))
  | [] => .ok []
  | (name, sec) :: rest =>
    (fieldSeries parseFloat snapshots pfx name sec.Body 0 sec.Header).bind (fun first =>
      (sectionsSeries parseFloat snapshots pfx rest).bind (fun later =>
        .ok (first ++ later)))

/-- Go `Nmon.getSectionsAsSeries`. -/
def getSectionsAsSeries {F : Type} (parseFloat : Str → Option F) (nmon : Nmon)
    (pfx : Str) : Outcome (List (Series F)) :=
  sectionsSeries parseFloat nmon.Snapshots pfx nmon.Sections

/-- The loop of `getMessagesAsSeries` over the snapshots. -/
def earliest (t : Time) : List (Str × Time) → Time
  | [] => t
  | (_, snapshot) :: rest =>
    if snapshot.Before t then earliest snapshot rest else earliest t rest

/-- Go `Nmon.getMessagesAsSeries`; `now` is the value of `time.Now()`. -/
def getMessagesAsSeries {F : Type} (now : Time) (nmon : Nmon) (pfx : Str) :
    List (Series F) :=
  let timestamp := millis (earliest now nmon.Snapshots)
  nmon.Messages.map (fun m =>
    { Name := join ".".toList [pfx, "MESSAGES".toList, m.1], Columns := timeValue,
      Points := [(timestamp, .text m.2)] })

/-- The prefix computed at the start of `GetAsSeries`. -/
def effectivePfx (nmon : Nmon) (pfx : Str) : Str :=
  if pfx = [] then nmon.Hostname else pfx ++ ".".toList ++ nmon.Hostname

/-- Go `Nmon.GetAsSeries`. -/
def GetAsSeries {F : Type} (parseFloat : Str → Option F) (now : Time) (nmon : Nmon)
    (pfx : Str) (ignoreText : Bool) : Outcome (List (Series F)) :=
  (getSectionsAsSeries parseFloat nmon (effectivePfx nmon pfx)).bind (fun series =>
    if ignoreText then .ok series
    else .ok (series ++ getMessagesAsSeries now nmon (effectivePfx nmon pfx)))

/-! ## Reference readings of the library functions

The properties below hold for every `parseTime` and `parseFloat`.  The two
functions of this section serve to evaluate the embedding on concrete reports.
`refParseTime` follows `time.Parse` of Go 1.17 and later, where a comma or a
period followed by a digit after the seconds starts a fractional second. -/

/-- The value of a decimal digit. -/
def digit (c : Char) : Option Nat :=
  if 48 ≤ c.toNat ∧ c.toNat ≤ 57 then some (c.toNat - 48) else none

/-- The number written by a list of decimal digits. -/
def digits (acc : Nat) : Str → Option Nat
  | [] => some acc
  | c :: cs =>
    match digit c with
    | some d => digits (acc * 10 + d) cs
    | none => none

/-- Go `getnum(s, fixed)` of package `time`: one or two leading digits, two
being required when `fixed`. -/
def getnum (fixed : Bool) (s : Str) : Option (Nat × Str) :=
  match s with
  | [] => none
  | c1 :: rest =>
    match digit c1 with
    | none => none
    | some d1 =>
      match rest with
      | [] => if fixed then none else some (d1, [])
      | c2 :: rest2 =>
        match digit c2 with
        | some d2 => some (d1 * 10 + d2, rest2)
        | none => if fixed then none else some (d1, rest)

/-- Go `skip(value, prefix)` of package `time` for a one byte prefix. -/
def skipByte (c : Char) (s : Str) : Option Str :=
  match s with
  | [] => none
  | x :: rest => if x = c then some rest else none

/-- The values of the leading decimal digits of a text, and the rest. -/
def leadingDigits : Str → List Nat × Str
  | [] => ([], [])
  | c :: cs =>
    match digit c with
    | some d => (d :: (leadingDigits cs).1, (leadingDigits cs).2)
    | none => ([], c :: cs)

/-- Go `parseNanoseconds` on the digits of a fractional second: the first nine
digits, scaled to nanoseconds. -/
def nanoseconds (ds : List Nat) : Nat :=
  (ds.take 9).foldl (fun acc d => acc * 10 + d) 0 * 10 ^ (9 - (ds.take 9).length)

/-- The special case of `time.Parse` after the seconds: a comma or a period
followed by a digit is read as a fractional second, though the layout has
none. -/
def fractionalSecond (s : Str) : Nat × Str :=
  match s with
  | sep :: c :: rest =>
    if (sep = ',' ∨ sep = '.') ∧ (digit c).isSome then
      (nanoseconds (leadingDigits (c :: rest)).1, (leadingDigits (c :: rest)).2)
    else (0, s)
  | _ => (0, s)

/-- The lower case of an ASCII letter. -/
def asciiLower (c : Char) : Char :=
  if 65 ≤ c.toNat ∧ c.toNat ≤ 90 then Char.ofNat (c.toNat + 32) else c

/-- Go `shortMonthNames`, in lower case. -/
def shortMonthNames : List Str :=
  ["jan", "feb", "mar", "apr", "may", "jun", "jul", "aug", "sep", "oct", "nov",
    "dec"].map String.toList

/-- Go `lookup(shortMonthNames, value)`: the number of the month whose name
starts the text, letters compared without case, and the rest. -/
def lookupMonth (s : Str) : Option (Nat × Str) :=
  match s with
  | b1 :: b2 :: b3 :: rest =>
    (shortMonthNames.indexOf? ([b1, b2, b3].map asciiLower)).map (fun i => (i + 1, rest))
  | _ => none

/-- The year of `time.Parse`: exactly four digits. -/
def longYear (s : Str) : Option (Nat × Str) :=
  match s with
  | y1 :: y2 :: y3 :: y4 :: rest => (digits 0 [y1, y2, y3, y4]).map (fun y => (y, rest))
  | _ => none

/-- Days from the Unix epoch to a date of the proleptic Gregorian calendar. -/
def daysFromCivil (y m d : Nat) : Int :=
  let y1 : Int := if m ≤ 2 then (y : Int) - 1 else y
  let era : Int := y1 / 400
  let yoe : Int := y1 - era * 400
  let mp : Int := if m ≤ 2 then (m : Int) + 9 else (m : Int) - 3
  let doy : Int := (153 * mp + 2) / 5 + (d : Int) - 1
  let doe : Int := yoe * 365 + yoe / 4 - yoe / 100 + doy
  era * 146097 + doe - 719468

/-- The number of days of a month. -/
def daysIn (y m : Nat) : Nat :=
  if m = 2 then (if y % 4 = 0 ∧ (y % 100 ≠ 0 ∨ y % 400 = 0) then 29 else 28)
  else if m = 4 ∨ m = 6 ∨ m = 9 ∨ m = 11 then 30 else 31

/-- A reading of `time.Parse("15:04:05,02-Jan-2006", s)` as of Go 1.17: an hour
of one or two digits, minute and second of two digits, an optional fractional
second, a comma, a day of two digits, a month name, a year of four digits and
nothing after it; the result is a time in UTC.  The text `HH:MM:SS,DD-Mon-YYYY`
itself is rejected: its `,DD` is read as a fractional second and the comma of
the layout is then missing. -/
def refParseTime (s : Str) : Option Time :=
  (getnum false s).bind (fun hour =>
  (skipByte ':' hour.2).bind (fun s1 =>
  (getnum true s1).bind (fun min =>
  (skipByte ':' min.2).bind (fun s2 =>
  (getnum true s2).bind (fun sec =>
  (skipByte ',' (fractionalSecond sec.2).2).bind (fun s3 =>
  (getnum true s3).bind (fun day =>
  (skipByte '-' day.2).bind (fun s4 =>
  (lookupMonth s4).bind (fun month =>
  (skipByte '-' month.2).bind (fun s5 =>
  (longYear s5).bind (fun year =>
    if hour.1 < 24 ∧ min.1 < 60 ∧ sec.1 < 60 ∧ year.2 = [] ∧ 1 ≤ day.1 ∧
        day.1 ≤ daysIn year.1 month.1 then
      some ⟨(daysFromCivil year.1 month.1 day.1 * 86400 + hour.1 * 3600 + min.1 * 60 +
        sec.1) * 1000000000 + (fractionalSecond sec.2).1⟩
    else none)))))))))))

/-- A decimal number `mant / 10 ^ scale`. -/
structure Decimal where
  mant : Int
  scale : Nat
  deriving DecidableEq, Repr

/-- The digits after the decimal point. -/
def fraction (mant : Nat) (scale : Nat) : Str → Option Decimal
  | [] => some ⟨mant, scale⟩
  | c :: cs =>
    match digit c with
    | some d => fraction (mant * 10 + d) (scale + 1) cs
    | none => none

/-- The digits before the decimal point. -/
def whole (mant : Nat) : Str → Option Decimal
  | [] => some ⟨mant, 0⟩
  | c :: cs =>
    if c = '.' then fraction mant 0 cs
    else
      match digit c with
      | some d => whole (mant * 10 + d) cs
      | none => none

/-- A reading of `strconv.ParseFloat(s, 64)` on unsigned decimal numbers
`digits` or `digits.digits` with a leading digit; every other text is
rejected and binary rounding is not modelled. -/
def refParseFloat (s : Str) : Option Decimal :=
  match s with
  | [] => none
  | c :: _ => if (digit c).isSome then whole 0 s else none

/-! ## Concrete reports -/

/-- A text from its lines. -/
def report (lines : List String) : Str := join [newline] (lines.map String.toList)

/-- The instant 2020-01-01 14:00:00 UTC. -/
def t2020 : Time := ⟨1577887200 * 1000000000⟩

/-- The report of the end-to-end example. -/
def exampleInput : Str :=
  report ["ZZZZ,T0001,14:00:00,01-Jan-2020", "AAA,host,server1", "CPU_ALL,User%,Sys%",
    "CPU_ALL,T0001,10.5,2.3"]

/-- The report of the end-to-end example with a fractional second in its stamp,
a form of the clock text that the layout reads in every version of the library. -/
def fractionInput : Str :=
  report ["ZZZZ,T0001,14:00:00.0,01-Jan-2020", "AAA,host,server1", "CPU_ALL,User%,Sys%",
    "CPU_ALL,T0001,10.5,2.3"]

/-- A report with a metric section and no `AAA` line. -/
def noHostInput : Str := report ["CPU_ALL,User%,Sys%"]

/-- A report whose only `CPU` row is shorter than the `CPU` header. -/
def raggedInput : Str :=
  report ["AAA,host,h", "ZZZZ,T1,14:00:00.0,01-Jan-2020", "CPU,k,a,b", "CPU,T1,1"]

/-- A report whose `CPU` row names a snapshot id that `ZZZZ` does not list. -/
def unmappedInput : Str :=
  report ["AAA,host,h", "ZZZZ,T1,14:00:00.0,01-Jan-2020", "CPU,k,a", "CPU,T9,1"]

/-- A report with a metric section named `MESSAGES`. -/
def messagesInput : Str :=
  report ["AAA,host,h", "ZZZZ,T1,14:00:00.0,01-Jan-2020", "MESSAGES,k,a", "MESSAGES,T1,5"]

/-- A report whose only `TOP` row is shorter than the `TOP` header. -/
def shortTopInput : Str :=
  report ["AAA,host,h", "ZZZZ,T1,14:00:00.0,01-Jan-2020", "TOP,+PID,Time,Command", "TOP,1"]

/-- The instant 2020-01-01 13:00:00 UTC, one hour before `t2020`. -/
def t2020early : Time := ⟨1577883600 * 1000000000⟩

/-! ## Closed forms of the emitter loops -/

/-- The point a row gives column `i` when the row has a cell `i`: the time is
read from the snapshot map at the first cell (the zero time for an absent id)
and the point exists when the cell parses. -/
def cellPoint {F : Type} (parseFloat : Str → Option F) (snapshots : List (Str × Time))
    (i : Nat) (row : List Str) : Option (Int × Value F) :=
  match row.head?, row.get? i with
  | some id, some cell =>
    (parseFloat cell).map (fun v => (millis (snapshotOf snapshots id), Value.num v))
  | _, _ => none

/-- The series of column `i`, if it is emitted. -/
def columnSeries {F : Type} (parseFloat : Str → Option F) (snapshots : List (Str × Time))
    (pfx name : Str) (body : List (List Str)) (i : Nat) (field : Str) : Option (Series F) :=
  if 0 < i ∧ 0 < (body.filterMap (cellPoint parseFloat snapshots i)).length then
    some { Name := join ".".toList [pfx, name, field], Columns := timeValue,
           Points := body.filterMap (cellPoint parseFloat snapshots i) }
  else none

/-- The series of the fields of one section, the first field having index `i`. -/
def fieldsClosed {F : Type} (parseFloat : Str → Option F) (snapshots : List (Str × Time))
    (pfx name : Str) (body : List (List Str)) (i : Nat) (fields : List Str) :
    List (Series F) :=
  (fields.enumFrom i).filterMap
    (fun jf => columnSeries parseFloat snapshots pfx name body jf.1 jf.2)

/-- The points the specification gives column `i`: in row order, one point
`(millis(Snapshots[row[0]]), float(row[i]))` per row whose snapshot id is
mapped and whose cell `i` parses. -/
def specPoints {F : Type} (parseFloat : Str → Option F) (snapshots : List (Str × Time))
    (i : Nat) (rows : List (List Str)) : List (Int × Value F) :=
  rows.filterMap (fun row =>
    match row.head?, row.get? i with
    | some id, some cell =>
      match mapGet id snapshots, parseFloat cell with
      | some t, some v => some (millis t, Value.num v)
      | _, _ => none
    | _, _ => none)

/-- The dotted name has a segment equal to `seg`. -/
def hasSegment (seg name : Str) : Prop := seg ∈ split '.' name

/-- Every row of `body` has a cell for each emitted column among the `n`
columns that start at index `i` (column 0 is never read). -/
def ColumnsFit (body : List (List Str)) (i n : Nat) : Prop :=
  ∀ j, i ≤ j → j < i + n → 0 < j → ∀ row ∈ body, j < row.length

/-- Every row of every section has a cell for each emitted column. -/
def RowsFit (secs : List (Str × Section)) : Prop :=
  ∀ e ∈ secs, ColumnsFit e.2.Body 0 e.2.Header.length

/-- A report whose only `CPU` cell does not parse as a number. -/
def unparsableInput : Str :=
  report ["AAA,host,h", "ZZZZ,T1,14:00:00.0,01-Jan-2020", "CPU,k,a", "CPU,T1,x"]

/-- The message series built for one entry of `Messages`. -/
def messageSeries {F : Type} (now : Time) (nmon : Nmon) (pfx : Str) (m : Str × Str) :
    Series F :=
  { Name := join ".".toList [pfx, "MESSAGES".toList, m.1], Columns := timeValue,
    Points := [(millis (earliest now nmon.Snapshots), Value.text m.2)] }

/-- The Report `NewNmon` builds from `exampleInput` when the stamp of its `ZZZZ`
line is read as 2020-01-01 14:00:00, and from `fractionInput` under
`refParseTime`. -/
def exampleReport : Nmon :=
  { Sections := [("CPU_ALL".toList, ⟨["UserPercent".toList, "SysPercent".toList],
      [["T0001".toList, "10.5".toList, "2.3".toList]]⟩)],
    Messages := [("AAA".toList, "host: server1".toList ++ [newline])],
    Snapshots := [("T0001".toList, t2020)], Hostname := "server1".toList }

/-- The numeric series of `exampleReport` under the reference readings. -/
def exampleSeries : List (Series Decimal) :=
  [{ Name := "server1.CPU_ALL.SysPercent".toList, Columns := timeValue,
     Points := [(1577887200000, .num ⟨105, 1⟩)] }]

/-- The message series of `exampleReport` at the wall-clock time `t2020early`. -/
def exampleMessageSeries : List (Series Decimal) :=
  [{ Name := "server1.MESSAGES.AAA".toList, Columns := timeValue,
     Points := [(1577883600000, .text ("host: server1".toList ++ [newline]))] }]

/-- The Report `NewNmon` builds from `exampleInput` when the stamp of its `ZZZZ`
line is rejected, as it is under `refParseTime`: Snapshots is empty. -/
def unstampedReport : Nmon :=
  { Sections := [("CPU_ALL".toList, ⟨["UserPercent".toList, "SysPercent".toList],
      [["T0001".toList, "10.5".toList, "2.3".toList]]⟩)],
    Messages := [("AAA".toList, "host: server1".toList ++ [newline])],
    Snapshots := [], Hostname := "server1".toList }

/-- The numeric series of `unstampedReport` under the reference readings: the
point carries the zero time. -/
def unstampedSeries : List (Series Decimal) :=
  [{ Name := "server1.CPU_ALL.SysPercent".toList, Columns := timeValue,
     Points := [(-62135596800000, .num ⟨105, 1⟩)] }]

/-- The Report `NewNmon` builds from `unmappedInput` when the time parses. -/
def unmappedReport : Nmon :=
  { Sections := [("CPU".toList, ⟨["k".toList, "a".toList], [["T9".toList, "1".toList]]⟩)],
    Messages := [("AAA".toList, "host: h".toList ++ [newline])],
    Snapshots := [("T1".toList, t2020)], Hostname := "h".toList }

/-- The series of `unmappedReport` under the reference readings. -/
def unmappedSeries : List (Series Decimal) :=
  [{ Name := "h.CPU.a".toList, Columns := timeValue,
     Points := [(-62135596800000, .num ⟨1, 0⟩)] }]

/-! ## Closed forms of the table normalizer -/

/-- The list without the cells at the positions `ps`, the other cells in their
original order. -/
def deletePositions {α : Type} (ps : List Nat) (l : List α) : List α :=
  ((l.enumFrom 0).filter (fun x => decide (x.1 ∉ ps))).map Prod.snd

/-- The distinct elements of a list, in the order of their first occurrence. -/
def firstOcc (l : List Str) : List Str :=
  l.foldl (fun acc x => if x ∈ acc then acc else acc ++ [x]) []

/-- The cell of a row at the position of the `Command` column. -/
def commandOf (c : Nat) (row : List Str) : Str := row.getD c []

/-- The section of the rows of one command: the rows, in their original order,
without the cells at the positions `p` and `c`. -/
def topGroup (header : List Str) (p c : Nat) (rows : List (List Str)) (command : Str) :
    Str × Section :=
  ("TOP.".toList ++ command,
    { Header := header,
      Body := (rows.filter (fun row => decide (commandOf c row = command))).map
        (deletePositions [p, c]) })

/-- One section per distinct command of the rows. -/
def topGroups (header : List Str) (p c : Nat) (rows : List (List Str)) :
    List (Str × Section) :=
  (firstOcc (rows.map (commandOf c))).map (topGroup header p c rows)

/-- The sections of a report with a `TOP` table of three rows and two commands. -/
def topSections : List (Str × Section) :=
  getSections (replacePercent (report ["TOP,%CPU Utilisation", "TOP,+PID,Time,%CPU,Command",
    "TOP,17,T1,1.5,bash", "TOP,18,T1,2.5,vim", "TOP,17,T2,3.5,bash"]))

/-- The header row of the `TOP` table of `topSections`. -/
def topHeader : List Str :=
  ["+PID".toList, "Time".toList, "PercentCPU".toList, "Command".toList]

/-- The data rows of the `TOP` table of `topSections`. -/
def topBody : List (List Str) :=
  [["17".toList, "T1".toList, "1.5".toList, "bash".toList],
   ["18".toList, "T1".toList, "2.5".toList, "vim".toList],
   ["17".toList, "T2".toList, "3.5".toList, "bash".toList]]

/-! ## Closed forms of the extractors -/

/-- The value cell of a row with the key `host` and at least two cells. -/
def hostValue (row : List Str) : Option Str :=
  match row with
  | k :: v :: _ => if k = "host".toList then some v else none
  | _ => none

/-- The value cells of the rows with the key `host` and at least two cells. -/
def hostValues (body : List (List Str)) : List Str :=
  body.filterMap hostValue

/-- The snapshot a `ZZZZ` row records: the row has at least two cells and its
second cell parses. -/
def rowSnapshot (parseTime : Str → Option Time) (row : List Str) : Option (Str × Time) :=
  match row with
  | id :: text :: _ => (parseTime text).map (fun t => (id, t))
  | _ => none

/-- The snapshots recorded by the rows of `ZZZZ`, in row order. -/
def parsedSnapshots (parseTime : Str → Option Time) (body : List (List Str)) :
    List (Str × Time) :=
  body.filterMap (rowSnapshot parseTime)

/-- A section set with an `AAA` section of three rows, two of them for `host`. -/
def hostSections : List (Str × Section) :=
  getSections (report ["AAA,host,alpha", "AAA,OS,Linux", "AAA,host,beta", "CPU,k,a"])

/-- A section set with a `ZZZZ` section: a snapshot recorded twice, a row with
one cell and a row whose time does not parse. -/
def snapshotSections : List (Str × Section) :=
  getSections (report ["ZZZZ,T1,13:00:00.0,01-Jan-2020", "ZZZZ,T2", "ZZZZ,T3,noon",
    "ZZZZ,T1,14:00:00.0,01-Jan-2020", "CPU,k,a"])

/-- A report whose `AAA` section has no row with the key `host`. -/
def noHostRowInput : Str :=
  report ["AAA,OS,Linux", "ZZZZ,T1,14:00:00.0,01-Jan-2020", "CPU,k,a", "CPU,T1,1"]

/-- The Report `NewNmon` builds from `noHostRowInput` when the time parses. -/
def noHostRowReport : Nmon :=
  { Sections := [("CPU".toList, ⟨["k".toList, "a".toList], [["T1".toList, "1".toList]]⟩)],
    Messages := [("AAA".toList, "OS: Linux".toList ++ [newline])],
    Snapshots := [("T1".toList, t2020)], Hostname := [] }

/-- The effective prefix of a Report with an empty Hostname: the prefix itself
when it is empty, the prefix and a dot otherwise. -/
def dottedPfx (pfx : Str) : Str := if pfx = [] then [] else pfx ++ ".".toList

/-- A report with two metric sections. -/
def twoSectionInput : Str :=
  report ["AAA,host,h", "ZZZZ,T1,14:00:00.0,01-Jan-2020", "A,k,x", "A,T1,1", "B,k,y", "B,T1,2"]

/-- The Report of `twoSectionInput`, its sections enumerated `A`, `B`. -/
def twoSectionReport : Nmon :=
  { Sections := [("A".toList, ⟨["k".toList, "x".toList], [["T1".toList, "1".toList]]⟩),
                 ("B".toList, ⟨["k".toList, "y".toList], [["T1".toList, "2".toList]]⟩)],
    Messages := [("AAA".toList, "host: h".toList ++ [newline])],
    Snapshots := [("T1".toList, t2020)], Hostname := "h".toList }

/-- The same Report, its sections enumerated `B`, `A`. -/
def twoSectionReportSwapped : Nmon :=
  { twoSectionReport with Sections := twoSectionReport.Sections.reverse }

/-- The series of section `A` of `twoSectionReport`. -/
def seriesA : Series Decimal :=
  { Name := "h.A.x".toList, Columns := timeValue, Points := [(1577887200000, .num ⟨1, 0⟩)] }

/-- The series of section `B` of `twoSectionReport`. -/
def seriesB : Series Decimal :=
  { Name := "h.B.y".toList, Columns := timeValue, Points := [(1577887200000, .num ⟨2, 0⟩)] }

/-! ## Closed form of the section builder -/

/-- The lines that `readLine` accepts, as pairs of a name and its cells, in
input order. -/
def parsedLines (lines : List Str) : List (Str × List Str) :=
  lines.filterMap (fun line =>
    match readLine line with
    | .ok x => some x
    | _ => none)

/-- The cells of the accepted lines with the name `n`, in input order. -/
def rowsOf (n : Str) (parsed : List (Str × List Str)) : List (List Str) :=
  (parsed.filter (fun x => decide (x.1 = n))).map Prod.snd

/-- The section the specification builds from the rows of the name `n`: none
without a row; for `AAA`, `BBBP` and `ZZZZ` the fixed header and all rows;
for every other name the first row as header and the later rows as body. -/
def sectionOf (n : Str) (rows : List (List Str)) : Option Section :=
  match rows with
  | [] => none
  | first :: rest =>
    if n = "AAA".toList then
      some { Header := ["key".toList, "value".toList], Body := first :: rest }
    else if n = "BBBP".toList then
      some { Header := ["line".toList, "source".toList, "value".toList], Body := first :: rest }
    else if n = "ZZZZ".toList then
      some { Header := ["snapshot".toList, "time".toList], Body := first :: rest }
    else some { Header := first, Body := rest }

/-- A text with a metric section of three lines, an `AAA` section of two lines
and a line without a comma. -/
def builderInput : Str :=
  report ["CPU,k,a,b", "AAA,host,h", "no comma here", "CPU,T1,1,2", "AAA,OS,Linux",
    "CPU,T2,3,4"]

/-- The section `getSections` creates for a name at its first line. -/
def firstSection (name : Str) (row : List Str) : Section :=
  match getHeader name row with
  | (header, some body) => { Header := header, Body := [body] }
  | (header, none) => { Header := header, Body := [] }

/-- The accepted line, if any, as a list of at most one parsed line. -/
def parsedLine (line : Str) : List (Str × List Str) :=
  match readLine line with
  | .ok x => [x]
  | _ => []

/-- The sections `getSections` builds from `builderInput`. -/
def builderSections : List (Str × Section) :=
  [("CPU".toList,
     { Header := ["k".toList, "a".toList, "b".toList],
       Body := [["T1".toList, "1".toList, "2".toList], ["T2".toList, "3".toList, "4".toList]] }),
   ("AAA".toList,
     { Header := ["key".toList, "value".toList],
       Body := [["host".toList, "h".toList], ["OS".toList, "Linux".toList]] })]

/-- The cells of the three `CPU` lines of `builderInput`. -/
def builderCpuRows : List (List Str) :=
  [["k".toList, "a".toList, "b".toList], ["T1".toList, "1".toList, "2".toList],
   ["T2".toList, "3".toList, "4".toList]]

/-! ## Closed form of the message aggregator -/

/-- The map read `messages[k]`: the empty string for an absent key. -/
def readMessage (k : Str) (messages : List (Str × Str)) : Str :=
  (mapGet k messages).getD []

/-- The rows of the section `k`, none when the section is absent. -/
def sectionRows (k : Str) (secs : List (Str × Section)) : List (List Str) :=
  match mapGet k secs with
  | some s => s.Body
  | none => []

/-- The text of `messages["AAA"]`: each row joined by `": "` and followed by a
newline, in row order. -/
def aaaText (rows : List (List Str)) : Str :=
  (rows.map (fun row => join ": ".toList row ++ [newline])).flatten

/-- The line a `BBBP` row adds to the message `k`: the row has at least three
cells and `"BBBP_"` followed by its second cell is `k`. -/
def bbbpLine (k : Str) (row : List Str) : Option Str :=
  match row with
  | _ :: source :: value :: _ =>
    if "BBBP_".toList ++ source = k then some (value ++ [newline]) else none
  | _ => none

/-- The text of the message `k` from the rows of `BBBP`, in row order. -/
def bbbpText (k : Str) (rows : List (List Str)) : Str :=
  (rows.filterMap (bbbpLine k)).flatten

/-- A section set with an `AAA` section, a `BBBP` section with two sources and
a short row, and a metric section. -/
def messageSections : List (Str × Section) :=
  getSections (report ["AAA,host,h", "BBBP,000,lsconf,line one", "CPU,k,a", "BBBP,001,lsconf",
    "BBBP,002,lsconf,line two", "AAA,OS,Linux", "BBBP,003,oslevel,7.2"])

/-- The names a message can have: `AAA`, or `BBBP_` followed by a source. -/
def MessageKey (k : Str) : Prop :=
  k = "AAA".toList ∨ ∃ s, k = "BBBP_".toList ++ s

/-! ## Sanitization -/

/-- The string holds no `%`. -/
def Clean (s : Str) : Prop := '%' ∉ s

/-- No header field and no cell of the section holds a `%`. -/
def CleanSection (s : Section) : Prop :=
  (∀ f ∈ s.Header, Clean f) ∧ ∀ row ∈ s.Body, ∀ cell ∈ row, Clean cell

/-- No section name, header field and cell of the section set holds a `%`. -/
def CleanSections (secs : List (Str × Section)) : Prop :=
  ∀ e ∈ secs, Clean e.1 ∧ CleanSection e.2

/-- No message name and no message text holds a `%`. -/
def CleanMessages (m : List (Str × Str)) : Prop :=
  ∀ e ∈ m, Clean e.1 ∧ Clean e.2

/-- A report with `%` in a section name, in header fields, in a cell, in the
host name and in a message line. -/
def percentInput : Str :=
  report ["AAA,host,h%", "ZZZZ,T1,14:00:00.0,01-Jan-2020", "CPU%,k,User%", "CPU%,T1,1",
    "BBBP,000,ls%,100%"]

/-- The Report of `percentInput` when the time parses. -/
def percentReport : Nmon :=
  { Sections := [("CPUPercent".toList,
      ⟨["k".toList, "UserPercent".toList], [["T1".toList, "1".toList]]⟩)],
    Messages := [("AAA".toList, "host: hPercent".toList ++ [newline]),
      ("BBBP_lsPercent".toList, "100Percent".toList ++ [newline])],
    Snapshots := [("T1".toList, t2020)], Hostname := "hPercent".toList }

/-! # Properties -/

/-! ## The end-to-end example -/

/-- C1 (as amended): on the four-line example `NewNmon` succeeds with Hostname
`server1`; Snapshots holds the single entry `T0001 -> t` when the library reads
the stamp `14:00:00,01-Jan-2020` as the time `t`, and is empty when the library
rejects the stamp.  `GetAsSeries("", true)` returns exactly one series,
`server1.CPU_ALL.SysPercent`, with the single point `(ts, 10.5)`, where `ts` is
the millisecond value of `Snapshots[T0001]`: that of `t` in the first case, and
-62135596800000, the zero time, in the second.  The first header cell
`UserPercent` names column 0, which is never emitted, and the cell `2.3` has no
header field. -/
theorem example_report_series {F : Type} (parseTime : Str → Option Time)
    (parseFloat : Str → Option F) (now : Time) (v : F)
    (hv : parseFloat "10.5".toList = some v) :
    ∃ r, NewNmon parseTime exampleInput = .ok r ∧
      r.Hostname = "server1".toList ∧
      r.Snapshots = (match parseTime "14:00:00,01-Jan-2020".toList with
        | some t => [("T0001".toList, t)]
        | none => []) ∧
      GetAsSeries parseFloat now r [] true =
        .ok [{ Name := "server1.CPU_ALL.SysPercent".toList, Columns := timeValue,
               Points := [((match parseTime "14:00:00,01-Jan-2020".toList with
                 | some t => millis t
                 | none => -62135596800000), .num v)] }] := by
  have h1 : NewNmon parseTime exampleInput =
      .ok { Sections := [("CPU_ALL".toList, ⟨["UserPercent".toList, "SysPercent".toList],
              [["T0001".toList, "10.5".toList, "2.3".toList]]⟩)],
            Messages := [("AAA".toList, "host: server1".toList ++ [newline])],
            Snapshots :=
              snapshotStep parseTime [] ["T0001".toList, "14:00:00,01-Jan-2020".toList],
            Hostname := "server1".toList } := rfl
  have h2 : snapshotStep parseTime [] ["T0001".toList, "14:00:00,01-Jan-2020".toList] =
      (match parseTime "14:00:00,01-Jan-2020".toList with
        | some t => [("T0001".toList, t)]
        | none => []) := by
    simp only [snapshotStep]
    cases parseTime "14:00:00,01-Jan-2020".toList <;> rfl
  rw [h2] at h1
  refine ⟨_, h1, rfl, rfl, ?_⟩
  cases parseTime "14:00:00,01-Jan-2020".toList with
  | none =>
    have h3 : rowPoint parseFloat [] 1
        ["T0001".toList, "10.5".toList, "2.3".toList] =
        .ok (some (-62135596800000, .num v)) := by
      have h4 : rowPoint parseFloat [] 1
          ["T0001".toList, "10.5".toList, "2.3".toList] =
          (match parseFloat "10.5".toList with
            | some value => .ok (some (millis zeroTime, .num value))
            | none => .ok none) := rfl
      have h5 : millis zeroTime = -62135596800000 := by decide
      rw [h4, hv, h5]
    simp only [GetAsSeries, getSectionsAsSeries, sectionsSeries, fieldSeries, columnPoints, h3]
    rfl
  | some t =>
    have h3 : rowPoint parseFloat [("T0001".toList, t)] 1
        ["T0001".toList, "10.5".toList, "2.3".toList] = .ok (some (millis t, .num v)) := by
      have h4 : rowPoint parseFloat [("T0001".toList, t)] 1
          ["T0001".toList, "10.5".toList, "2.3".toList] =
          (match parseFloat "10.5".toList with
            | some value => .ok (some (millis t, .num value))
            | none => .ok none) := rfl
      rw [h4, hv]
    simp only [GetAsSeries, getSectionsAsSeries, sectionsSeries, fieldSeries, columnPoints, h3]
    rfl

/-- Witness of `example_report_series` at the reference readings of the library,
under which the stamp of the example is rejected: Snapshots is empty and the
point carries the zero time. -/
theorem example_report_series_witness :
    refParseFloat "10.5".toList = some ⟨105, 1⟩ ∧
      refParseTime "14:00:00,01-Jan-2020".toList = none ∧
      ∃ r, NewNmon refParseTime exampleInput = .ok r ∧
        r.Hostname = "server1".toList ∧
        r.Snapshots = [] ∧
        GetAsSeries refParseFloat t2020 r [] true =
          .ok [{ Name := "server1.CPU_ALL.SysPercent".toList, Columns := timeValue,
                 Points := [(-62135596800000, .num (⟨105, 1⟩ : Decimal))] }] :=
  ⟨by decide, by decide,
    example_report_series refParseTime refParseFloat t2020 ⟨105, 1⟩ (by decide)⟩

/-- C1 (as stated) fails: on the four-line example `GetAsSeries("", true)`
returns one series, not two; no returned series is named
`server1.CPU_ALL.UserPercent` and no returned point has the value 2.3.  Under
the reference reading of the clock the stamp `14:00:00,01-Jan-2020` is rejected,
Snapshots is empty and the one point carries the zero time, not the time
2020-01-01 14:00:00. -/
theorem example_report_not_two_series :
    ∃ r, NewNmon refParseTime exampleInput = .ok r ∧
      r.Snapshots = [] ∧
      ∃ l, GetAsSeries refParseFloat t2020 r [] true = .ok l ∧
        l.length = 1 ∧
        (∀ s ∈ l, s.Name ≠ "server1.CPU_ALL.UserPercent".toList) ∧
        (∀ s ∈ l, ∀ p ∈ s.Points, p.2 ≠ .num (⟨23, 1⟩ : Decimal)) ∧
        (∀ s ∈ l, ∀ p ∈ s.Points, p.1 = -62135596800000) :=
  ⟨unstampedReport, by decide, rfl, unstampedSeries, by decide, by decide, by decide,
    by decide, by decide⟩

/-! ## Failure modes of `NewNmon` -/

/-- C2 (code defect): a report with a comma-containing line and no `AAA` line
makes `NewNmon` stop with a nil pointer dereference in `getHostname`; it
returns neither a Report nor the error value. -/
theorem NewNmon_without_AAA_panics (parseTime : Str → Option Time) :
    (getSections (replacePercent noHostInput)).length = 1 ∧
      NewNmon parseTime noHostInput = .panic .nilDereference :=
  ⟨rfl, rfl⟩

theorem mem_of_mem_replacePercent (c : Char) (hc : c ∉ "Percent".toList) (d : Str) :
    c ∈ replacePercent d → c ∈ d := by
  induction d with
  | nil => simp [replacePercent]
  | cons x xs ih =>
    unfold replacePercent
    split
    · intro h
      rcases List.mem_append.mp h with h | h
      · exact absurd h hc
      · exact List.mem_cons_of_mem _ (ih h)
    · intro h
      rcases List.mem_cons.mp h with h | h
      · exact h ▸ List.mem_cons_self _ _
      · exact List.mem_cons_of_mem _ (ih h)

theorem mem_of_mem_split (sep : Char) (d : Str) :
    ∀ l ∈ split sep d, ∀ c ∈ l, c ∈ d := by
  induction d with
  | nil => simp [split]
  | cons x xs ih =>
    intro l hl c hc
    unfold split at hl
    split at hl
    · rcases List.mem_cons.mp hl with h | h
      · subst h; simp at hc
      · exact List.mem_cons_of_mem _ (ih l h c hc)
    · cases hs : split sep xs with
      | nil =>
        rw [hs] at hl
        simp at hl
        subst hl
        simp at hc
        subst hc
        exact List.mem_cons_self _ _
      | cons w ws =>
        rw [hs] at hl
        rcases List.mem_cons.mp hl with h | h
        · subst h
          rcases List.mem_cons.mp hc with h2 | h2
          · exact h2 ▸ List.mem_cons_self _ _
          · exact List.mem_cons_of_mem _ (ih w (by rw [hs]; exact List.mem_cons_self _ _) c h2)
        · exact List.mem_cons_of_mem _ (ih l (by rw [hs]; exact List.mem_cons_of_mem _ h) c hc)

theorem mem_split_of_mem (sep c : Char) (hne : c ≠ sep) (d : Str) (hc : c ∈ d) :
    ∃ l ∈ split sep d, c ∈ l := by
  induction d with
  | nil => simp at hc
  | cons x xs ih =>
    unfold split
    by_cases hx : x = sep
    · rw [if_pos hx]
      rcases List.mem_cons.mp hc with h | h
      · exact absurd (h.trans hx) hne
      · obtain ⟨l, hl, hcl⟩ := ih h
        exact ⟨l, List.mem_cons_of_mem _ hl, hcl⟩
    · rw [if_neg hx]
      cases hs : split sep xs with
      | nil => exact ⟨[x], List.mem_cons_self _ _, by
          rcases List.mem_cons.mp hc with h | h
          · simp [h]
          · obtain ⟨l, hl, _⟩ := ih h
            rw [hs] at hl
            simp at hl⟩
      | cons w ws =>
        rcases List.mem_cons.mp hc with h | h
        · exact ⟨x :: w, List.mem_cons_self _ _, h ▸ List.mem_cons_self _ _⟩
        · obtain ⟨l, hl, hcl⟩ := ih h
          rw [hs] at hl
          rcases List.mem_cons.mp hl with h2 | h2
          · exact ⟨x :: w, List.mem_cons_self _ _, List.mem_cons_of_mem _ (h2 ▸ hcl)⟩
          · exact ⟨l, List.mem_cons_of_mem _ h2, hcl⟩

theorem splitN_two_of_not_mem (sep : Char) (s : Str) (h : sep ∉ s) :
    splitN sep 2 s = [s] := by
  induction s with
  | nil => rfl
  | cons x xs ih =>
    have hx : x ≠ sep := fun e => h (e ▸ List.mem_cons_self _ _)
    have hxs : sep ∉ xs := fun e => h (List.mem_cons_of_mem _ e)
    show (if x = sep then [] :: splitN sep 1 xs
      else match splitN sep 2 xs with
        | [] => [[x]]
        | w :: ws => (x :: w) :: ws) = [x :: xs]
    rw [if_neg hx, ih hxs]

theorem readLine_of_no_comma (line : Str) (h : ',' ∉ line) :
    readLine line = .err "Empty line".toList := by
  unfold readLine
  rw [splitN_two_of_not_mem _ _ h]

theorem addLine_of_no_comma (sec : List (Str × Section)) (line : Str) (h : ',' ∉ line) :
    addLine sec line = sec := by
  unfold addLine
  rw [readLine_of_no_comma _ h]

theorem foldl_addLine_of_no_comma (lines : List Str) (h : ∀ l ∈ lines, ',' ∉ l)
    (sec : List (Str × Section)) : lines.foldl addLine sec = sec := by
  induction lines generalizing sec with
  | nil => rfl
  | cons l ls ih =>
    rw [List.foldl_cons, addLine_of_no_comma _ _ (h l (List.mem_cons_self _ _))]
    exact ih (fun l hl => h l (List.mem_cons_of_mem _ hl)) sec

/-- C3: on a text in which no line contains a comma (the empty text included)
`NewNmon` returns the error value and no Report. -/
theorem NewNmon_no_comma (parseTime : Str → Option Time) (data : Str)
    (h : ∀ line ∈ split newline data, ',' ∉ line) :
    NewNmon parseTime data = .err "No valid data recieved".toList := by
  have hd : ',' ∉ data := by
    intro hc
    obtain ⟨l, hl, hcl⟩ := mem_split_of_mem newline ',' (by decide) data hc
    exact h l hl hcl
  have hs : getSections (replacePercent data) = [] := by
    unfold getSections
    apply foldl_addLine_of_no_comma
    intro l hl hc
    exact hd (mem_of_mem_replacePercent _ (by decide) _ (mem_of_mem_split _ _ l hl _ hc))
  unfold NewNmon
  simp only [hs]
  rfl

/-- Witness of `NewNmon_no_comma` on a two-line text without a comma. -/
theorem NewNmon_no_comma_witness :
    (∀ line ∈ split newline (report ["hello", "world"]), ',' ∉ line) ∧
      NewNmon refParseTime (report ["hello", "world"]) =
        .err "No valid data recieved".toList :=
  ⟨by decide, NewNmon_no_comma refParseTime (report ["hello", "world"]) (by decide)⟩

/-- A report without a `ZZZZ` line stops `NewNmon` in `convertSnapshots`. -/
theorem NewNmon_without_ZZZZ_panics (parseTime : Str → Option Time) :
    NewNmon parseTime (report ["AAA,host,h", "CPU,k,a"]) = .panic .nilDereference :=
  rfl

/-- A `TOP` row shorter than the `TOP` header stops `NewNmon` in `convertTop`. -/
theorem NewNmon_short_TOP_row_panics (parseTime : Str → Option Time) :
    NewNmon parseTime shortTopInput = .panic .outOfRange :=
  rfl

/-! ## The series emitter -/

theorem rowPoint_eq {F : Type} (parseFloat : Str → Option F) (snapshots : List (Str × Time))
    (i : Nat) (row : List Str) :
    rowPoint parseFloat snapshots i row =
      if i < row.length then .ok (cellPoint parseFloat snapshots i row)
      else .panic .outOfRange := by
  cases row with
  | nil => simp [rowPoint]
  | cons id rest =>
    unfold rowPoint cellPoint
    by_cases h : i < (id :: rest).length
    · rw [if_pos h]
      obtain ⟨cell, hc⟩ : ∃ cell, (id :: rest).get? i = some cell :=
        ⟨_, List.get?_eq_get h⟩
      simp only [hc, List.head?_cons]
      cases parseFloat cell <;> rfl
    · rw [if_neg h]
      have hc : (id :: rest).get? i = none := List.get?_eq_none.mpr (Nat.le_of_not_lt h)
      simp only [hc]

theorem columnPoints_of_fit {F : Type} (parseFloat : Str → Option F)
    (snapshots : List (Str × Time)) (i : Nat) (rows : List (List Str))
    (h : ∀ row ∈ rows, i < row.length) :
    columnPoints parseFloat snapshots i rows =
      .ok (rows.filterMap (cellPoint parseFloat snapshots i)) := by
  induction rows with
  | nil => rfl
  | cons row rows ih =>
    have h1 : i < row.length := h row (List.mem_cons_self _ _)
    have h2 := ih (fun r hr => h r (List.mem_cons_of_mem _ hr))
    unfold columnPoints
    rw [rowPoint_eq, if_pos h1, h2, List.filterMap_cons]
    cases cellPoint parseFloat snapshots i row <;> rfl

theorem columnPoints_of_not_fit {F : Type} (parseFloat : Str → Option F)
    (snapshots : List (Str × Time)) (i : Nat) (rows : List (List Str))
    (h : ¬ ∀ row ∈ rows, i < row.length) :
    columnPoints parseFloat snapshots i rows = .panic .outOfRange := by
  induction rows with
  | nil => exact absurd (fun _ hr => by simp at hr) h
  | cons row rows ih =>
    unfold columnPoints
    rw [rowPoint_eq]
    by_cases h1 : i < row.length
    · rw [if_pos h1]
      have h2 : ¬ ∀ r ∈ rows, i < r.length := by
        intro h3
        apply h
        intro r hr
        rcases List.mem_cons.mp hr with e | e
        · exact e ▸ h1
        · exact h3 r e
      rw [ih h2]
      rfl
    · rw [if_neg h1]
      rfl

theorem ColumnsFit_cons (body : List (List Str)) (i n : Nat) :
    ColumnsFit body i (n + 1) ↔
      (0 < i → ∀ row ∈ body, i < row.length) ∧ ColumnsFit body (i + 1) n := by
  constructor
  · intro h
    refine ⟨fun hi => h i (Nat.le_refl _) (by omega) hi, ?_⟩
    intro j h1 h2 h3
    exact h j (by omega) (by omega) h3
  · rintro ⟨h1, h2⟩ j h3 h4 h5
    by_cases e : j = i
    · subst e
      exact h1 h5
    · exact h2 j (by omega) (by omega) h5

theorem fieldSeries_of_fit {F : Type} (parseFloat : Str → Option F)
    (snapshots : List (Str × Time)) (pfx name : Str) (body : List (List Str)) (i : Nat)
    (fields : List Str) (h : ColumnsFit body i fields.length) :
    fieldSeries parseFloat snapshots pfx name body i fields =
      .ok (fieldsClosed parseFloat snapshots pfx name body i fields) := by
  induction fields generalizing i with
  | nil => rfl
  | cons field fields ih =>
    obtain ⟨h1, h2⟩ := (ColumnsFit_cons body i fields.length).mp h
    have h3 := ih (i + 1) h2
    unfold fieldSeries
    unfold fieldsClosed at h3 ⊢
    rw [List.enumFrom_cons, List.filterMap_cons]
    by_cases hi : 0 < i
    · rw [if_pos hi, columnPoints_of_fit _ _ _ _ (h1 hi), h3]
      unfold columnSeries
      by_cases hp : 0 < (body.filterMap (cellPoint parseFloat snapshots i)).length
      · simp [Outcome.bind, hi, hp]
      · simp [Outcome.bind, hi, hp]
    · rw [if_neg hi, h3]
      simp [columnSeries, hi]

theorem fieldSeries_of_not_fit {F : Type} (parseFloat : Str → Option F)
    (snapshots : List (Str × Time)) (pfx name : Str) (body : List (List Str)) (i : Nat)
    (fields : List Str) (h : ¬ ColumnsFit body i fields.length) :
    fieldSeries parseFloat snapshots pfx name body i fields = .panic .outOfRange := by
  induction fields generalizing i with
  | nil => exact absurd (fun j h1 h2 => by simp at h2; omega) h
  | cons field fields ih =>
    unfold fieldSeries
    by_cases hi : 0 < i
    · rw [if_pos hi]
      by_cases h1 : ∀ row ∈ body, i < row.length
      · have h2 : ¬ ColumnsFit body (i + 1) fields.length := fun h3 =>
          h ((ColumnsFit_cons body i fields.length).mpr ⟨fun _ => h1, h3⟩)
        rw [columnPoints_of_fit _ _ _ _ h1, ih (i + 1) h2]
        rfl
      · rw [columnPoints_of_not_fit _ _ _ _ h1]
        rfl
    · rw [if_neg hi]
      exact ih (i + 1) (fun h3 =>
        h ((ColumnsFit_cons body i fields.length).mpr ⟨fun h4 => absurd h4 hi, h3⟩))

theorem sectionsSeries_of_fit {F : Type} (parseFloat : Str → Option F)
    (snapshots : List (Str × Time)) (pfx : Str) (secs : List (Str × Section))
    (h : RowsFit secs) :
    sectionsSeries parseFloat snapshots pfx secs =
      .ok (secs.flatMap (fun e =>
        fieldsClosed parseFloat snapshots pfx e.1 e.2.Body 0 e.2.Header)) := by
  induction secs with
  | nil => rfl
  | cons e rest ih =>
    obtain ⟨name, sec⟩ := e
    have h1 : ColumnsFit sec.Body 0 sec.Header.length := h (name, sec) (List.mem_cons_self _ _)
    have h2 := ih (fun x hx => h x (List.mem_cons_of_mem _ hx))
    unfold sectionsSeries
    rw [fieldSeries_of_fit _ _ _ _ _ _ _ h1, h2]
    rfl

theorem sectionsSeries_of_not_fit {F : Type} (parseFloat : Str → Option F)
    (snapshots : List (Str × Time)) (pfx : Str) (secs : List (Str × Section))
    (h : ¬ RowsFit secs) :
    sectionsSeries parseFloat snapshots pfx secs = .panic .outOfRange := by
  induction secs with
  | nil => exact absurd (fun x hx => by simp at hx) h
  | cons e rest ih =>
    obtain ⟨name, sec⟩ := e
    unfold sectionsSeries
    by_cases h1 : ColumnsFit sec.Body 0 sec.Header.length
    · have h2 : ¬ RowsFit rest := by
        intro h3
        apply h
        intro x hx
        rcases List.mem_cons.mp hx with e | e
        · exact e ▸ h1
        · exact h3 x e
      rw [fieldSeries_of_fit _ _ _ _ _ _ _ h1, ih h2]
      rfl
    · rw [fieldSeries_of_not_fit _ _ _ _ _ _ _ h1]
      rfl

/-- The emitter returns exactly when every row has a cell for each emitted
column, and then returns the closed form. -/
theorem GetAsSeries_ok_iff {F : Type} (parseFloat : Str → Option F) (now : Time) (r : Nmon)
    (pfx : Str) (ignoreText : Bool) (l : List (Series F)) :
    GetAsSeries parseFloat now r pfx ignoreText = .ok l ↔
      RowsFit r.Sections ∧
        l = r.Sections.flatMap (fun e => fieldsClosed parseFloat r.Snapshots
              (effectivePfx r pfx) e.1 e.2.Body 0 e.2.Header) ++
            (if ignoreText then [] else getMessagesAsSeries now r (effectivePfx r pfx)) := by
  unfold GetAsSeries getSectionsAsSeries
  by_cases h : RowsFit r.Sections
  · rw [sectionsSeries_of_fit _ _ _ _ h]
    cases ignoreText <;> simp [Outcome.bind, h, eq_comm]
  · rw [sectionsSeries_of_not_fit _ _ _ _ h]
    simp [Outcome.bind, h]

/-- The emitter stops with an out-of-range panic when some row lacks a cell of
an emitted column. -/
theorem GetAsSeries_panic_of_not_fit {F : Type} (parseFloat : Str → Option F) (now : Time)
    (r : Nmon) (pfx : Str) (ignoreText : Bool) (h : ¬ RowsFit r.Sections) :
    GetAsSeries parseFloat now r pfx ignoreText = .panic .outOfRange := by
  unfold GetAsSeries getSectionsAsSeries
  rw [sectionsSeries_of_not_fit _ _ _ _ h]
  rfl

theorem columnSeries_eq_some {F : Type} (parseFloat : Str → Option F)
    (snapshots : List (Str × Time)) (pfx name : Str) (body : List (List Str)) (i : Nat)
    (field : Str) (s : Series F) :
    columnSeries parseFloat snapshots pfx name body i field = some s ↔
      0 < i ∧ body.filterMap (cellPoint parseFloat snapshots i) ≠ [] ∧
        s = { Name := join ".".toList [pfx, name, field], Columns := timeValue,
              Points := body.filterMap (cellPoint parseFloat snapshots i) } := by
  unfold columnSeries
  by_cases h : 0 < i ∧ 0 < (body.filterMap (cellPoint parseFloat snapshots i)).length
  · rw [if_pos h]
    constructor
    · intro e
      exact ⟨h.1, List.length_pos.mp h.2, (Option.some.inj e).symm⟩
    · rintro ⟨_, _, e⟩
      rw [e]
  · rw [if_neg h]
    constructor
    · intro e
      cases e
    · rintro ⟨h1, h2, _⟩
      exact absurd ⟨h1, List.length_pos.mpr h2⟩ h

theorem mem_fieldsClosed {F : Type} (parseFloat : Str → Option F)
    (snapshots : List (Str × Time)) (pfx name : Str) (body : List (List Str))
    (fields : List Str) (s : Series F) :
    s ∈ fieldsClosed parseFloat snapshots pfx name body 0 fields ↔
      ∃ j field, fields.get? j = some field ∧
        columnSeries parseFloat snapshots pfx name body j field = some s := by
  unfold fieldsClosed
  rw [List.mem_filterMap]
  constructor
  · rintro ⟨⟨j, field⟩, hm, hc⟩
    have h := (List.mk_mem_enumFrom_iff_le_and_getElem?_sub.mp hm).2
    exact ⟨j, field, by simpa using h, hc⟩
  · rintro ⟨j, field, hg, hc⟩
    refine ⟨(j, field), ?_, hc⟩
    exact List.mk_mem_enumFrom_iff_le_and_getElem?_sub.mpr ⟨Nat.zero_le _, by simpa using hg⟩

/-- Membership in the closed form of the section series. -/
theorem mem_sections_closed {F : Type} (parseFloat : Str → Option F)
    (snapshots : List (Str × Time)) (pfx : Str) (secs : List (Str × Section))
    (s : Series F) :
    s ∈ secs.flatMap (fun e => fieldsClosed parseFloat snapshots pfx e.1 e.2.Body 0 e.2.Header) ↔
      ∃ e ∈ secs, ∃ j field, 0 < j ∧ e.2.Header.get? j = some field ∧
        e.2.Body.filterMap (cellPoint parseFloat snapshots j) ≠ [] ∧
        s = { Name := join ".".toList [pfx, e.1, field], Columns := timeValue,
              Points := e.2.Body.filterMap (cellPoint parseFloat snapshots j) } := by
  rw [List.mem_flatMap]
  constructor
  · rintro ⟨e, he, hs⟩
    obtain ⟨j, field, hg, hc⟩ := (mem_fieldsClosed _ _ _ _ _ _ _).mp hs
    obtain ⟨h1, h2, h3⟩ := (columnSeries_eq_some _ _ _ _ _ _ _ _).mp hc
    exact ⟨e, he, j, field, h1, hg, h2, h3⟩
  · rintro ⟨e, he, j, field, h1, hg, h2, h3⟩
    exact ⟨e, he, (mem_fieldsClosed _ _ _ _ _ _ _).mpr
      ⟨j, field, hg, (columnSeries_eq_some _ _ _ _ _ _ _ _).mpr ⟨h1, h2, h3⟩⟩⟩

theorem mem_getMessagesAsSeries {F : Type} (now : Time) (r : Nmon) (pfx : Str)
    (s : Series F) :
    s ∈ (getMessagesAsSeries now r pfx : List (Series F)) ↔
      ∃ m ∈ r.Messages, s = messageSeries now r pfx m := by
  unfold getMessagesAsSeries messageSeries
  rw [List.mem_map]
  constructor
  · rintro ⟨m, hm, hs⟩
    exact ⟨m, hm, hs.symm⟩
  · rintro ⟨m, hm, hs⟩
    exact ⟨m, hm, hs.symm⟩

/-- Every returned series is a section series of a column with index above 0,
or (when text is not ignored) the series of a message. -/
theorem mem_GetAsSeries {F : Type} (parseFloat : Str → Option F) (now : Time) (r : Nmon)
    (pfx : Str) (ignoreText : Bool) (l : List (Series F))
    (h : GetAsSeries parseFloat now r pfx ignoreText = .ok l) (s : Series F) :
    s ∈ l ↔
      (∃ e ∈ r.Sections, ∃ j field, 0 < j ∧ e.2.Header.get? j = some field ∧
        e.2.Body.filterMap (cellPoint parseFloat r.Snapshots j) ≠ [] ∧
        s = { Name := join ".".toList [effectivePfx r pfx, e.1, field], Columns := timeValue,
              Points := e.2.Body.filterMap (cellPoint parseFloat r.Snapshots j) }) ∨
      (ignoreText = false ∧
        ∃ m ∈ r.Messages, s = messageSeries now r (effectivePfx r pfx) m) := by
  obtain ⟨_, hl⟩ := (GetAsSeries_ok_iff _ _ _ _ _ _).mp h
  rw [hl, List.mem_append, mem_sections_closed]
  cases ignoreText
  · rw [if_neg (by decide), mem_getMessagesAsSeries]
    constructor
    · rintro (h1 | h1)
      · exact Or.inl h1
      · exact Or.inr ⟨rfl, h1⟩
    · rintro (h1 | ⟨_, h1⟩)
      · exact Or.inl h1
      · exact Or.inr h1
  · rw [if_pos rfl]
    constructor
    · rintro (h1 | h1)
      · exact Or.inl h1
      · cases h1
    · rintro (h1 | ⟨h1, _⟩)
      · exact Or.inl h1
      · cases h1

theorem cellPoint_eq_some {F : Type} (parseFloat : Str → Option F)
    (snapshots : List (Str × Time)) (i : Nat) (row : List Str) (p : Int × Value F) :
    cellPoint parseFloat snapshots i row = some p ↔
      ∃ id cell v, row.head? = some id ∧ row.get? i = some cell ∧
        parseFloat cell = some v ∧ p = (millis (snapshotOf snapshots id), Value.num v) := by
  unfold cellPoint
  cases h1 : row.head? with
  | none => simp
  | some id =>
    cases h2 : row.get? i with
    | none => simp
    | some cell =>
      simp only [Option.map_eq_some']
      constructor
      · rintro ⟨v, h3, h4⟩
        exact ⟨id, cell, v, rfl, rfl, h3, h4.symm⟩
      · rintro ⟨id1, cell1, v, h3, h4, h5, h6⟩
        cases h3
        cases h4
        exact ⟨v, h5, h6.symm⟩

/-- C4 (code defect): `NewNmon` accepts the report whose `CPU` row `T1,1` is
shorter than the header `k,a,b`, and `GetAsSeries` then stops with an index out
of range at the read of `row[2]`, for every prefix and every flag. -/
theorem GetAsSeries_ragged_row_panics {F : Type} (parseTime : Str → Option Time)
    (parseFloat : Str → Option F) (now : Time) (pfx : Str) (ignoreText : Bool) :
    ∃ r, NewNmon parseTime raggedInput = .ok r ∧
      r.Sections = [("CPU".toList, ⟨["k".toList, "a".toList, "b".toList],
        [["T1".toList, "1".toList]]⟩)] ∧
      GetAsSeries parseFloat now r pfx ignoreText = .panic .outOfRange := by
  have h1 : NewNmon parseTime raggedInput =
      .ok { Sections := [("CPU".toList, ⟨["k".toList, "a".toList, "b".toList],
              [["T1".toList, "1".toList]]⟩)],
            Messages := [("AAA".toList, "host: h".toList ++ [newline])],
            Snapshots :=
              snapshotStep parseTime [] ["T1".toList, "14:00:00.0,01-Jan-2020".toList],
            Hostname := "h".toList } := rfl
  refine ⟨_, h1, rfl, GetAsSeries_panic_of_not_fit _ _ _ _ _ ?_⟩
  intro h
  have h2 := h _ (List.mem_cons_self _ _) 2 (Nat.zero_le _) (by decide) (by decide)
    ["T1".toList, "1".toList] (List.mem_cons_self _ _)
  exact absurd h2 (by decide)

/-- C5 (as stated) fails: the only `CPU` row names the snapshot id `T9`, which
is not a key of Snapshots, and the row still gives the series `h.CPU.a` a
point, stamped -62135596800000, the millisecond value of no mapped snapshot. -/
theorem unmapped_row_contributes_point :
    ∃ r, NewNmon refParseTime unmappedInput = .ok r ∧
      r.Sections = [("CPU".toList, ⟨["k".toList, "a".toList], [["T9".toList, "1".toList]]⟩)] ∧
      r.Snapshots = [("T1".toList, t2020)] ∧
      mapGet "T9".toList r.Snapshots = none ∧
      millis t2020 = 1577887200000 ∧
      GetAsSeries refParseFloat t2020 r [] true =
        .ok [{ Name := "h.CPU.a".toList, Columns := timeValue,
               Points := [(-62135596800000, .num (⟨1, 0⟩ : Decimal))] }] :=
  ⟨{ Sections := [("CPU".toList, ⟨["k".toList, "a".toList], [["T9".toList, "1".toList]]⟩)],
     Messages := [("AAA".toList, "host: h".toList ++ [newline])],
     Snapshots := [("T1".toList, t2020)], Hostname := "h".toList },
    by decide, rfl, rfl, by decide, by decide, by decide⟩

/-- C5 (as amended): when `GetAsSeries` returns, (1) every numeric point comes
from a row of a remaining section and carries the millisecond value of
`Snapshots[row[0]]`: the time of the snapshot when the id is mapped, and the
zero time, -62135596800000 ms, when it is not; (2) no row is skipped: every row
of a remaining section whose cell in a header column `i > 0` parses gives the
series of that column its point, stamped in that way, whether its id is mapped
or not; (3) in particular a row with an unmapped id contributes the point
`(-62135596800000, value)`, so a section whose rows all name unmapped ids still
yields the series of every column with a parsable cell. -/
theorem numeric_point_timestamp {F : Type} (parseFloat : Str → Option F) (now : Time)
    (r : Nmon) (pfx : Str) (ignoreText : Bool) (l : List (Series F))
    (h : GetAsSeries parseFloat now r pfx ignoreText = .ok l) :
    (∀ s ∈ l, ∀ p ∈ s.Points, ∀ v, p.2 = Value.num v →
      ∃ e ∈ r.Sections, ∃ row ∈ e.2.Body, ∃ id, row.head? = some id ∧
        p.1 = (match mapGet id r.Snapshots with
          | some t => millis t
          | none => -62135596800000)) ∧
    (∀ e ∈ r.Sections, ∀ i field, 0 < i → e.2.Header.get? i = some field →
      ∀ row ∈ e.2.Body, ∀ id cell v, row.head? = some id → row.get? i = some cell →
        parseFloat cell = some v →
        ∃ s ∈ l, s.Name = join ".".toList [effectivePfx r pfx, e.1, field] ∧
          ((match mapGet id r.Snapshots with
            | some t => millis t
            | none => -62135596800000), Value.num v) ∈ s.Points) ∧
    (∀ e ∈ r.Sections, ∀ i field, 0 < i → e.2.Header.get? i = some field →
      ∀ row ∈ e.2.Body, ∀ id cell v, row.head? = some id → row.get? i = some cell →
        parseFloat cell = some v → mapGet id r.Snapshots = none →
        ∃ s ∈ l, s.Name = join ".".toList [effectivePfx r pfx, e.1, field] ∧
          (-62135596800000, Value.num v) ∈ s.Points) := by
  have hstamp : ∀ id, millis (snapshotOf r.Snapshots id) =
      (match mapGet id r.Snapshots with
        | some t => millis t
        | none => -62135596800000) := by
    intro id
    unfold snapshotOf
    cases mapGet id r.Snapshots with
    | none => decide
    | some t => rfl
  have hrow : ∀ e ∈ r.Sections, ∀ i field, 0 < i → e.2.Header.get? i = some field →
      ∀ row ∈ e.2.Body, ∀ id cell v, row.head? = some id → row.get? i = some cell →
        parseFloat cell = some v →
        ∃ s ∈ l, s.Name = join ".".toList [effectivePfx r pfx, e.1, field] ∧
          ((match mapGet id r.Snapshots with
            | some t => millis t
            | none => -62135596800000), Value.num v) ∈ s.Points := by
    intro e he i field hi hf row hrow id cell v h1 h2 h3
    have hc : cellPoint parseFloat r.Snapshots i row =
        some (millis (snapshotOf r.Snapshots id), Value.num v) :=
      (cellPoint_eq_some _ _ _ _ _).mpr ⟨id, cell, v, h1, h2, h3, rfl⟩
    have hp : (millis (snapshotOf r.Snapshots id), Value.num v) ∈
        e.2.Body.filterMap (cellPoint parseFloat r.Snapshots i) :=
      List.mem_filterMap.mpr ⟨row, hrow, hc⟩
    refine ⟨_, (mem_GetAsSeries _ _ _ _ _ _ h _).mpr
      (Or.inl ⟨e, he, i, field, hi, hf, List.ne_nil_of_mem hp, rfl⟩), rfl, ?_⟩
    rw [← hstamp id]
    exact hp
  refine ⟨?_, hrow, ?_⟩
  · intro s hs p hp v hv
    rcases (mem_GetAsSeries _ _ _ _ _ _ h s).mp hs with
      ⟨e, he, j, field, _, _, _, hs⟩ | ⟨_, m, _, hs⟩
    · subst hs
      obtain ⟨row, hrow, hc⟩ := List.mem_filterMap.mp hp
      obtain ⟨id, cell, w, h1, _, _, h4⟩ := (cellPoint_eq_some _ _ _ _ _).mp hc
      refine ⟨e, he, row, hrow, id, h1, ?_⟩
      subst h4
      exact hstamp id
    · subst hs
      simp only [messageSeries, List.mem_singleton] at hp
      subst hp
      cases hv
  · intro e he i field hi hf row hr id cell v h1 h2 h3 hnone
    have h4 := hrow e he i field hi hf row hr id cell v h1 h2 h3
    rw [hnone] at h4
    exact h4

/-- Witness of `numeric_point_timestamp` on the report whose only row names an
unmapped id: the row is not skipped, it gives `h.CPU.a` the point stamped with
the zero time. -/
theorem numeric_point_timestamp_witness :
    GetAsSeries refParseFloat t2020 unmappedReport [] true = .ok unmappedSeries ∧
      (∀ s ∈ unmappedSeries, ∀ p ∈ s.Points, ∀ v, p.2 = Value.num v →
        ∃ e ∈ unmappedReport.Sections, ∃ row ∈ e.2.Body, ∃ id, row.head? = some id ∧
          p.1 = (match mapGet id unmappedReport.Snapshots with
            | some t => millis t
            | none => -62135596800000)) ∧
      (∃ s ∈ unmappedSeries, s.Name = "h.CPU.a".toList ∧
        (-62135596800000, Value.num (⟨1, 0⟩ : Decimal)) ∈ s.Points) :=
  have h := numeric_point_timestamp refParseFloat t2020 unmappedReport [] true unmappedSeries
    (by decide)
  ⟨by decide, h.1,
    h.2.2 ("CPU".toList, ⟨["k".toList, "a".toList], [["T9".toList, "1".toList]]⟩)
      (List.mem_cons_self _ _) 1 "a".toList (by decide) rfl
      ["T9".toList, "1".toList] (List.mem_cons_self _ _) "T9".toList "1".toList ⟨1, 0⟩
      rfl rfl (by decide) (by decide)⟩

theorem specPoints_eq_filterMap {F : Type} (parseFloat : Str → Option F)
    (snapshots : List (Str × Time)) (i : Nat) (rows : List (List Str))
    (hmapped : ∀ row ∈ rows, ∀ id, row.head? = some id → ∃ t, mapGet id snapshots = some t) :
    specPoints parseFloat snapshots i rows =
      rows.filterMap (cellPoint parseFloat snapshots i) := by
  unfold specPoints
  apply List.filterMap_congr
  intro row hrow
  unfold cellPoint
  cases h1 : row.head? with
  | none => rfl
  | some id =>
    cases h2 : row.get? i with
    | none => rfl
    | some cell =>
      obtain ⟨t, ht⟩ := hmapped row hrow id h1
      simp only [ht, snapshotOf]
      cases parseFloat cell <;> rfl

/-- C6 (as stated) fails twice.  In the first report every row of `CPU` has a
cell 1 and a mapped id and cell 1 parses, yet no series is returned, because
the read of cell 2 stops the emitter.  In the second report no cell of column
1 parses, and no series named `h.CPU.a` is returned at all. -/
theorem column_series_not_returned :
    (∃ r, NewNmon refParseTime raggedInput = .ok r ∧
      r.Sections = [("CPU".toList, ⟨["k".toList, "a".toList, "b".toList],
        [["T1".toList, "1".toList]]⟩)] ∧
      r.Snapshots = [("T1".toList, t2020)] ∧
      specPoints refParseFloat r.Snapshots 1 [["T1".toList, "1".toList]] =
        [(1577887200000, .num (⟨1, 0⟩ : Decimal))] ∧
      GetAsSeries refParseFloat t2020 r [] true = .panic .outOfRange) ∧
    (∃ r, NewNmon refParseTime unparsableInput = .ok r ∧
      r.Sections = [("CPU".toList, ⟨["k".toList, "a".toList], [["T1".toList, "x".toList]]⟩)] ∧
      r.Snapshots = [("T1".toList, t2020)] ∧
      GetAsSeries refParseFloat t2020 r [] true = .ok []) :=
  ⟨⟨{ Sections := [("CPU".toList, ⟨["k".toList, "a".toList, "b".toList],
        [["T1".toList, "1".toList]]⟩)],
      Messages := [("AAA".toList, "host: h".toList ++ [newline])],
      Snapshots := [("T1".toList, t2020)], Hostname := "h".toList },
      by decide, rfl, rfl, by decide, by decide⟩,
   ⟨{ Sections := [("CPU".toList, ⟨["k".toList, "a".toList], [["T1".toList, "x".toList]]⟩)],
      Messages := [("AAA".toList, "host: h".toList ++ [newline])],
      Snapshots := [("T1".toList, t2020)], Hostname := "h".toList },
      by decide, rfl, rfl, by decide⟩⟩

/-- C6 (as amended): when `GetAsSeries` returns, for every remaining section
`S` and every header index `i > 0` of `S`, when all rows of `S` have more than
`i` cells and mapped snapshot ids: (1) the series named
`join(".", effectivePrefix, S, header[i])` with exactly the points
`(millis(Snapshots[row[0]]), float(row[i]))` of the rows whose cell `i` parses,
in row order, is returned if some cell `i` parses, and is not returned if none
does: the column then yields no series; (2) every returned series has a point;
(3) every row contributes, at its place in row order, the one
point `(millis(Snapshots[row[0]]), float(row[i]))` when its cell `i` parses and
nothing when it does not: a cell that does not parse removes only its own
point, the points of the rows before and after it are unchanged; (4) the returned
series are exactly the series with a point of the columns `j > 0` of the
remaining sections and, unless text is ignored, the message series: none is
emitted for column 0. -/
theorem column_series_points {F : Type} (parseFloat : Str → Option F) (now : Time)
    (r : Nmon) (pfx : Str) (ignoreText : Bool) (l : List (Series F))
    (h : GetAsSeries parseFloat now r pfx ignoreText = .ok l)
    (name : Str) (sec : Section) (hmem : (name, sec) ∈ r.Sections)
    (i : Nat) (field : Str) (hi : 0 < i) (hf : sec.Header.get? i = some field)
    (hrows : ∀ row ∈ sec.Body, i < row.length)
    (hmapped : ∀ row ∈ sec.Body, ∀ id, row.head? = some id →
      ∃ t, mapGet id r.Snapshots = some t) :
    (({ Name := join ".".toList [effectivePfx r pfx, name, field], Columns := timeValue,
        Points := specPoints parseFloat r.Snapshots i sec.Body } : Series F) ∈ l ↔
      specPoints parseFloat r.Snapshots i sec.Body ≠ []) ∧
    (∀ s ∈ l, s.Points ≠ []) ∧
    (∀ rows1 row rows2, sec.Body = rows1 ++ row :: rows2 →
      ∃ id cell t, row.head? = some id ∧ row.get? i = some cell ∧
        mapGet id r.Snapshots = some t ∧
        specPoints parseFloat r.Snapshots i sec.Body =
          specPoints parseFloat r.Snapshots i rows1 ++
            (match parseFloat cell with
              | some v => [(millis t, Value.num v)]
              | none => []) ++
            specPoints parseFloat r.Snapshots i rows2) ∧
    (∀ s, s ∈ l ↔
      (∃ e ∈ r.Sections, ∃ j fld, 0 < j ∧ e.2.Header.get? j = some fld ∧
        e.2.Body.filterMap (cellPoint parseFloat r.Snapshots j) ≠ [] ∧
        s = { Name := join ".".toList [effectivePfx r pfx, e.1, fld], Columns := timeValue,
              Points := e.2.Body.filterMap (cellPoint parseFloat r.Snapshots j) }) ∨
      (ignoreText = false ∧
        ∃ m ∈ r.Messages, s = messageSeries now r (effectivePfx r pfx) m)) := by
  have hne : ∀ s ∈ l, s.Points ≠ [] := by
    intro s hs
    rcases (mem_GetAsSeries _ _ _ _ _ _ h s).mp hs with
      ⟨e, _, j, fld, _, _, h3, h4⟩ | ⟨_, m, _, h4⟩
    · rw [h4]
      exact h3
    · rw [h4]
      exact List.cons_ne_nil _ _
  refine ⟨⟨fun hs => hne _ hs, ?_⟩, hne, ?_, mem_GetAsSeries _ _ _ _ _ _ h⟩
  · intro hsp
    rw [specPoints_eq_filterMap _ _ _ _ hmapped] at hsp ⊢
    exact (mem_GetAsSeries _ _ _ _ _ _ h _).mpr
      (Or.inl ⟨(name, sec), hmem, i, field, hi, hf, hsp, rfl⟩)
  · intro rows1 row rows2 hb
    have hrow : row ∈ sec.Body := by
      rw [hb]
      exact List.mem_append_right _ (List.mem_cons_self _ _)
    have hlt : i < row.length := hrows row hrow
    obtain ⟨cell, hcell⟩ : ∃ cell, row.get? i = some cell :=
      ⟨row.get ⟨i, hlt⟩, List.get?_eq_get hlt⟩
    obtain ⟨id, hid⟩ : ∃ id, row.head? = some id := by
      cases row with
      | nil => exact absurd hlt (Nat.not_lt_zero _)
      | cons x xs => exact ⟨x, rfl⟩
    obtain ⟨t, ht⟩ := hmapped row hrow id hid
    refine ⟨id, cell, t, hid, hcell, ht, ?_⟩
    have hone : (match row.head?, row.get? i with
        | some id, some cell =>
          (match mapGet id r.Snapshots, parseFloat cell with
            | some t, some v => some (millis t, Value.num v)
            | _, _ => none)
        | _, _ => (none : Option (Int × Value F))) =
        (parseFloat cell).map (fun v => (millis t, Value.num v)) := by
      rw [hid, hcell]
      show (match mapGet id r.Snapshots, parseFloat cell with
        | some t, some v => some (millis t, Value.num v)
        | _, _ => (none : Option (Int × Value F))) = _
      rw [ht]
      cases parseFloat cell <;> rfl
    rw [hb]
    unfold specPoints
    rw [List.filterMap_append, List.filterMap_cons, hone]
    cases parseFloat cell <;> simp

/-- Witness of `column_series_points` on column 1 of `CPU_ALL` in the example. -/
theorem column_series_points_witness :
    GetAsSeries refParseFloat t2020 exampleReport [] true = .ok exampleSeries ∧
      (∀ row ∈ [["T0001".toList, "10.5".toList, "2.3".toList]], 1 < row.length) ∧
      ({ Name := join ".".toList [effectivePfx exampleReport [], "CPU_ALL".toList,
           "SysPercent".toList],
         Columns := timeValue,
         Points := specPoints refParseFloat exampleReport.Snapshots 1
           [["T0001".toList, "10.5".toList, "2.3".toList]] } : Series Decimal) ∈
        exampleSeries ∧
      (∀ s ∈ exampleSeries, s.Points ≠ []) :=
  have hrows : ∀ row ∈ [["T0001".toList, "10.5".toList, "2.3".toList]], 1 < row.length := by
    decide
  have h := column_series_points refParseFloat t2020 exampleReport [] true exampleSeries
    (by decide) "CPU_ALL".toList
    ⟨["UserPercent".toList, "SysPercent".toList],
      [["T0001".toList, "10.5".toList, "2.3".toList]]⟩
    (List.mem_cons_self _ _) 1 "SysPercent".toList (by decide) rfl hrows
    (by
      intro row hrow id hid
      rw [List.mem_singleton.mp hrow] at hid
      cases hid
      exact ⟨t2020, by decide⟩)
  ⟨by decide, hrows, h.1.mpr (by decide), h.2.1⟩

theorem earliest_spec (t : Time) (snapshots : List (Str × Time)) :
    (earliest t snapshots).ns ≤ t.ns ∧
      (∀ e ∈ snapshots, (earliest t snapshots).ns ≤ e.2.ns) ∧
      (earliest t snapshots = t ∨ ∃ e ∈ snapshots, e.2 = earliest t snapshots) := by
  induction snapshots generalizing t with
  | nil => exact ⟨Int.le_refl _, fun e he => by simp at he, Or.inl rfl⟩
  | cons x rest ih =>
    obtain ⟨k, snapshot⟩ := x
    unfold earliest
    by_cases hb : snapshot.Before t = true
    · rw [if_pos hb]
      have hlt : snapshot.ns < t.ns := by simpa [Time.Before] using hb
      obtain ⟨h1, h2, h3⟩ := ih snapshot
      refine ⟨by omega, ?_, ?_⟩
      · intro e he
        rcases List.mem_cons.mp he with e1 | e1
        · subst e1
          exact h1
        · exact h2 e e1
      · rcases h3 with h3 | ⟨e, he, h3⟩
        · exact Or.inr ⟨(k, snapshot), List.mem_cons_self _ _, h3.symm⟩
        · exact Or.inr ⟨e, List.mem_cons_of_mem _ he, h3⟩
    · rw [if_neg hb]
      have hge : t.ns ≤ snapshot.ns := by
        have : ¬ snapshot.ns < t.ns := by simpa [Time.Before] using hb
        omega
      obtain ⟨h1, h2, h3⟩ := ih t
      refine ⟨h1, ?_, ?_⟩
      · intro e he
        rcases List.mem_cons.mp he with e1 | e1
        · subst e1
          exact Int.le_trans h1 hge
        · exact h2 e e1
      · rcases h3 with h3 | ⟨e, he, h3⟩
        · exact Or.inl h3
        · exact Or.inr ⟨e, List.mem_cons_of_mem _ he, h3⟩

/-- C9 (as stated) fails: with the single snapshot at 14:00:00 and a wall-clock
time of 13:00:00 the message series carries the wall-clock time 1577883600000,
not the time 1577887200000 of the earliest snapshot. -/
theorem message_series_carries_wall_clock :
    ∃ r, NewNmon refParseTime fractionInput = .ok r ∧
      r.Snapshots = [("T0001".toList, t2020)] ∧
      millis t2020 = 1577887200000 ∧
      GetAsSeries refParseFloat t2020early r [] false =
        .ok [{ Name := "server1.CPU_ALL.SysPercent".toList, Columns := timeValue,
               Points := [(1577887200000, .num (⟨105, 1⟩ : Decimal))] },
             { Name := "server1.MESSAGES.AAA".toList, Columns := timeValue,
               Points := [(1577883600000, .text ("host: server1".toList ++ [newline]))] }] :=
  ⟨{ Sections := [("CPU_ALL".toList, ⟨["UserPercent".toList, "SysPercent".toList],
        [["T0001".toList, "10.5".toList, "2.3".toList]]⟩)],
     Messages := [("AAA".toList, "host: server1".toList ++ [newline])],
     Snapshots := [("T0001".toList, t2020)], Hostname := "server1".toList },
    by decide, rfl, by decide, by decide⟩

/-- C9 (as amended): when `GetAsSeries(prefix, false)` returns, there is one
time `t`, the earliest among the wall-clock time and the times in Snapshots,
such that every message is returned as a series whose single point is
`(millis t, text)` and every returned series with a text point is of that form;
`t` is the earliest time in Snapshots whenever some snapshot is not later than
the wall-clock time. -/
theorem message_series_timestamp {F : Type} (parseFloat : Str → Option F) (now : Time)
    (r : Nmon) (pfx : Str) (l : List (Series F))
    (h : GetAsSeries parseFloat now r pfx false = .ok l) :
    ∃ t : Time,
      t.ns ≤ now.ns ∧ (∀ e ∈ r.Snapshots, t.ns ≤ e.2.ns) ∧
      (t = now ∨ ∃ e ∈ r.Snapshots, e.2 = t) ∧
      ((∃ e ∈ r.Snapshots, e.2.ns ≤ now.ns) → ∃ e ∈ r.Snapshots, e.2 = t) ∧
      (∀ m ∈ r.Messages,
        ({ Name := join ".".toList [effectivePfx r pfx, "MESSAGES".toList, m.1],
           Columns := timeValue, Points := [(millis t, Value.text m.2)] } : Series F) ∈ l) ∧
      (∀ s ∈ l, ∀ p ∈ s.Points, ∀ text, p.2 = Value.text text →
        s.Points = [(millis t, Value.text text)]) := by
  obtain ⟨h1, h2, h3⟩ := earliest_spec now r.Snapshots
  refine ⟨earliest now r.Snapshots, h1, h2, h3, ?_, ?_, ?_⟩
  · rintro ⟨e, he, hle⟩
    rcases h3 with h3 | h3
    · refine ⟨e, he, ?_⟩
      have h4 := h2 e he
      rw [h3] at h4 ⊢
      cases hn : now
      cases hv : e.2
      rw [hn, hv] at h4 hle
      simp only at h4 hle
      congr
      omega
    · exact h3
  · intro m hm
    exact (mem_GetAsSeries _ _ _ _ _ _ h _).mpr (Or.inr ⟨rfl, m, hm, rfl⟩)
  · intro s hs p hp text htext
    rcases (mem_GetAsSeries _ _ _ _ _ _ h s).mp hs with
      ⟨e, _, j, fld, _, _, _, h4⟩ | ⟨_, m, _, h4⟩
    · subst h4
      obtain ⟨row, _, hc⟩ := List.mem_filterMap.mp hp
      obtain ⟨id, cell, w, _, _, _, h5⟩ := (cellPoint_eq_some _ _ _ _ _).mp hc
      subst h5
      cases htext
    · subst h4
      simp only [messageSeries, List.mem_singleton] at hp ⊢
      subst hp
      cases htext
      rfl

theorem split_ne_nil (sep : Char) (s : Str) : split sep s ≠ [] := by
  cases s with
  | nil => simp [split]
  | cons c cs =>
    unfold split
    split
    · simp
    · split <;> simp

theorem split_cons_sep (sep : Char) (cs : Str) :
    split sep (sep :: cs) = [] :: split sep cs := by
  simp [split]

theorem split_cons_ne (sep c : Char) (cs : Str) (h : c ≠ sep) :
    split sep (c :: cs) =
      match split sep cs with
      | [] => [[c]]
      | w :: ws => (c :: w) :: ws := by
  simp [split, h]

theorem split_append_sep (sep : Char) (a b : Str) :
    split sep (a ++ sep :: b) = split sep a ++ split sep b := by
  induction a with
  | nil => rw [List.nil_append, split_cons_sep]; rfl
  | cons c cs ih =>
    rw [List.cons_append]
    by_cases hc : c = sep
    · subst hc
      rw [split_cons_sep, split_cons_sep, ih]
      rfl
    · rw [split_cons_ne _ _ _ hc, split_cons_ne _ _ _ hc, ih]
      cases hs : split sep cs with
      | nil => exact absurd hs (split_ne_nil sep cs)
      | cons w ws => rfl

theorem split_join_three (a b c : Str) :
    split '.' (join ".".toList [a, b, c]) = split '.' a ++ (split '.' b ++ split '.' c) := by
  have h : join ".".toList [a, b, c] = a ++ '.' :: (b ++ '.' :: c) := by
    simp [join]
  rw [h, split_append_sep, split_append_sep]

/-- C10 (as stated) fails: with a metric section named `MESSAGES` the call
`GetAsSeries("", true)` returns the series `h.MESSAGES.a`, whose name has the
segment `MESSAGES`. -/
theorem MESSAGES_segment_returned :
    ∃ r, NewNmon refParseTime messagesInput = .ok r ∧
      GetAsSeries refParseFloat t2020 r [] true =
        .ok [{ Name := "h.MESSAGES.a".toList, Columns := timeValue,
               Points := [(1577887200000, .num (⟨5, 0⟩ : Decimal))] }] ∧
      hasSegment "MESSAGES".toList "h.MESSAGES.a".toList :=
  ⟨{ Sections := [("MESSAGES".toList, ⟨["k".toList, "a".toList],
        [["T1".toList, "5".toList]]⟩)],
     Messages := [("AAA".toList, "host: h".toList ++ [newline])],
     Snapshots := [("T1".toList, t2020)], Hostname := "h".toList },
    by decide, by decide, by unfold hasSegment; decide⟩

/-- C10 (as amended): the series returned by `GetAsSeries(prefix, true)` are
all numeric (none is built from Messages), and none of their names has a
segment `MESSAGES` provided that no segment of the effective prefix, of a
section name or of a header field equals `MESSAGES`. -/
theorem no_MESSAGES_segment {F : Type} (parseFloat : Str → Option F) (now : Time)
    (r : Nmon) (pfx : Str) (l : List (Series F))
    (h : GetAsSeries parseFloat now r pfx true = .ok l)
    (hp : ¬ hasSegment "MESSAGES".toList (effectivePfx r pfx))
    (hs : ∀ e ∈ r.Sections, ¬ hasSegment "MESSAGES".toList e.1 ∧
      ∀ f ∈ e.2.Header, ¬ hasSegment "MESSAGES".toList f) :
    (∀ s ∈ l, ¬ hasSegment "MESSAGES".toList s.Name) ∧
      (∀ s ∈ l, ∀ p ∈ s.Points, ∃ v, p.2 = Value.num v) := by
  constructor
  · intro s hmem
    rcases (mem_GetAsSeries _ _ _ _ _ _ h s).mp hmem with
      ⟨e, he, j, fld, _, h2, _, h4⟩ | ⟨h5, _⟩
    · subst h4
      unfold hasSegment at hp ⊢
      show ¬ _ ∈ split '.' (join ".".toList [effectivePfx r pfx, e.1, fld])
      rw [split_join_three]
      intro hc
      rcases List.mem_append.mp hc with hc | hc
      · exact hp hc
      · rcases List.mem_append.mp hc with hc | hc
        · exact (hs e he).1 hc
        · exact (hs e he).2 fld (List.get?_mem h2) hc
    · cases h5
  · intro s hmem p hpt
    rcases (mem_GetAsSeries _ _ _ _ _ _ h s).mp hmem with
      ⟨e, he, j, fld, _, h2, _, h4⟩ | ⟨h5, _⟩
    · subst h4
      obtain ⟨row, _, hc⟩ := List.mem_filterMap.mp hpt
      obtain ⟨id, cell, w, _, _, _, h6⟩ := (cellPoint_eq_some _ _ _ _ _).mp hc
      exact ⟨w, by rw [h6]⟩
    · cases h5

/-! ## Keys of the section map -/

theorem mem_mapDelete {β : Type} (k : Str) (m : List (Str × β)) (e : Str × β) :
    e ∈ mapDelete k m ↔ e ∈ m ∧ e.1 ≠ k := by
  unfold mapDelete
  simp [List.mem_filter]

theorem mapModify_keys {β : Type} (k : Str) (f : β → β) (m : List (Str × β)) :
    (mapModify k f m).map Prod.fst = m.map Prod.fst := by
  induction m with
  | nil => rfl
  | cons e rest ih =>
    obtain ⟨k1, v⟩ := e
    unfold mapModify
    split
    · rfl
    · simp [ih]

theorem fixTop_keys (secs secs1 : List (Str × Section)) (h : fixTop secs = .ok secs1) :
    secs1.map Prod.fst = secs.map Prod.fst := by
  unfold fixTop at h
  split at h
  · cases h; rfl
  · split at h
    · cases h
    · split at h
      · split at h
        · cases h; rfl
        · cases h
          exact mapModify_keys _ _ _
      · cases h; rfl

theorem topRow_keys (header : List Str) (p c : Nat) (secs secs1 : List (Str × Section))
    (row : List Str) (h : topRow header p c secs row = .ok secs1) :
    ∀ k ∈ secs1.map Prod.fst, k ∈ secs.map Prod.fst ∨ "TOP.".toList <+: k := by
  unfold topRow at h
  split at h
  · cases h
  · rename_i command _
    cases hr : remove row [p, c] with
    | err m => rw [hr] at h; cases h
    | panic q => rw [hr] at h; cases h
    | ok r =>
      rw [hr] at h
      simp only [Outcome.bind] at h
      cases h
      intro k hk
      unfold appendRow at hk
      rw [mapModify_keys] at hk
      split at hk
      · rw [List.map_append, List.mem_append] at hk
        rcases hk with hk | hk
        · exact Or.inl hk
        · simp only [List.map_cons, List.map_nil, List.mem_singleton] at hk
          exact Or.inr (hk ▸ List.prefix_append _ _)
      · exact Or.inl hk

theorem topRows_keys (header : List Str) (p c : Nat) (rows : List (List Str))
    (secs secs1 : List (Str × Section))
    (h : topRows header p c secs rows = .ok secs1) :
    ∀ k ∈ secs1.map Prod.fst, k ∈ secs.map Prod.fst ∨ "TOP.".toList <+: k := by
  induction rows generalizing secs with
  | nil =>
    cases h
    exact fun k hk => Or.inl hk
  | cons row rows ih =>
    unfold topRows at h
    cases hr : topRow header p c secs row with
    | err m => rw [hr] at h; cases h
    | panic q => rw [hr] at h; cases h
    | ok secs2 =>
      rw [hr] at h
      intro k hk
      rcases ih secs2 h k hk with h1 | h1
      · exact topRow_keys _ _ _ _ _ _ hr k h1
      · exact Or.inr h1

theorem convertTop_keys (secs secs1 : List (Str × Section))
    (h : convertTop secs = .ok secs1) :
    ∀ e ∈ secs1, e.1 ≠ "TOP".toList ∧
      (e.1 ∈ secs.map Prod.fst ∨ "TOP.".toList <+: e.1) := by
  unfold convertTop at h
  cases hf : fixTop secs with
  | err m => rw [hf] at h; cases h
  | panic q => rw [hf] at h; cases h
  | ok secs2 =>
    rw [hf] at h
    have hk := fixTop_keys _ _ hf
    simp only [Outcome.bind] at h
    split at h
    · cases h
      intro e he
      obtain ⟨h1, h2⟩ := (mem_mapDelete _ _ _).mp he
      exact ⟨h2, Or.inl (hk ▸ List.mem_map_of_mem _ h1)⟩
    · rename_i top _
      cases hr : remove top.Header
          [(topPositions top.Header 0 0 0).1, (topPositions top.Header 0 0 0).2] with
      | err m => rw [hr] at h; cases h
      | panic q => rw [hr] at h; cases h
      | ok header =>
        rw [hr] at h
        simp only at h
        cases ht : topRows header (topPositions top.Header 0 0 0).1
            (topPositions top.Header 0 0 0).2 secs2 top.Body with
        | err m => rw [ht] at h; cases h
        | panic q => rw [ht] at h; cases h
        | ok secs3 =>
          rw [ht] at h
          cases h
          intro e he
          obtain ⟨h1, h2⟩ := (mem_mapDelete _ _ _).mp he
          refine ⟨h2, ?_⟩
          rcases topRows_keys _ _ _ _ _ _ ht e.1 (List.mem_map_of_mem _ h1) with h3 | h3
          · exact Or.inl (hk ▸ h3)
          · exact Or.inr h3

/-- C7: when `NewNmon` succeeds the Sections map of the Report has none of the
keys `ZZZZ`, `AAA`, `BBBP` and `TOP`. -/
theorem NewNmon_sections_keys (parseTime : Str → Option Time) (data : Str) (r : Nmon)
    (h : NewNmon parseTime data = .ok r) :
    ∀ e ∈ r.Sections, e.1 ≠ "ZZZZ".toList ∧ e.1 ≠ "AAA".toList ∧ e.1 ≠ "BBBP".toList ∧
      e.1 ≠ "TOP".toList := by
  unfold NewNmon at h
  simp only at h
  split at h
  · cases h
  · cases hh : getHostname (getSections (replacePercent data)) with
    | err m => rw [hh] at h; cases h
    | panic q => rw [hh] at h; cases h
    | ok hostname =>
      rw [hh] at h
      cases hs : convertSnapshots parseTime (getSections (replacePercent data)) with
      | err m => rw [hs] at h; cases h
      | panic q => rw [hs] at h; cases h
      | ok snap =>
        rw [hs] at h
        simp only [Outcome.bind] at h
        cases ht : convertTop snap.2 with
        | err m => rw [ht] at h; cases h
        | panic q => rw [ht] at h; cases h
        | ok secs2 =>
          rw [ht] at h
          cases h
          intro e he
          simp only [convertMessages] at he
          obtain ⟨he1, hB⟩ := (mem_mapDelete _ _ _).mp he
          obtain ⟨he2, hA⟩ := (mem_mapDelete _ _ _).mp he1
          obtain ⟨hT, hk⟩ := convertTop_keys _ _ ht e he2
          refine ⟨?_, hA, hB, hT⟩
          intro hz
          rcases hk with hk | hk
          · have hsnap : snap.2 = mapDelete "ZZZZ".toList
                (getSections (replacePercent data)) := by
              unfold convertSnapshots at hs
              split at hs
              · cases hs
              · cases hs; rfl
            rw [hsnap] at hk
            obtain ⟨x, hx, hxe⟩ := List.mem_map.mp hk
            exact ((mem_mapDelete _ _ _).mp hx).2 (hxe.trans hz)
          · rw [hz] at hk
            exact absurd hk (by decide)

/-- Witness of `NewNmon_sections_keys` on the end-to-end example with a
fractional second in its stamp. -/
theorem NewNmon_sections_keys_witness :
    NewNmon refParseTime fractionInput = .ok exampleReport ∧
      ∀ e ∈ exampleReport.Sections,
        e.1 ≠ "ZZZZ".toList ∧ e.1 ≠ "AAA".toList ∧ e.1 ≠ "BBBP".toList ∧
          e.1 ≠ "TOP".toList :=
  ⟨by decide, NewNmon_sections_keys refParseTime fractionInput exampleReport (by decide)⟩

/-- Witness of `message_series_timestamp`: the snapshot of the example is
later than the wall-clock time `t2020early`, which the message series carries. -/
theorem message_series_timestamp_witness :
    GetAsSeries refParseFloat t2020early exampleReport [] false =
        .ok (exampleSeries ++ exampleMessageSeries) ∧
      ∃ t : Time,
        t.ns ≤ t2020early.ns ∧ (∀ e ∈ exampleReport.Snapshots, t.ns ≤ e.2.ns) ∧
        (t = t2020early ∨ ∃ e ∈ exampleReport.Snapshots, e.2 = t) ∧
        ((∃ e ∈ exampleReport.Snapshots, e.2.ns ≤ t2020early.ns) →
          ∃ e ∈ exampleReport.Snapshots, e.2 = t) ∧
        (∀ m ∈ exampleReport.Messages,
          ({ Name := join ".".toList [effectivePfx exampleReport [], "MESSAGES".toList, m.1],
             Columns := timeValue, Points := [(millis t, Value.text m.2)] } :
              Series Decimal) ∈ exampleSeries ++ exampleMessageSeries) ∧
        (∀ s ∈ exampleSeries ++ exampleMessageSeries, ∀ p ∈ s.Points, ∀ text,
          p.2 = Value.text text → s.Points = [(millis t, Value.text text)]) :=
  ⟨by decide,
    message_series_timestamp refParseFloat t2020early exampleReport []
      (exampleSeries ++ exampleMessageSeries) (by decide)⟩

/-- Witness of `no_MESSAGES_segment` on the example. -/
theorem no_MESSAGES_segment_witness :
    GetAsSeries refParseFloat t2020 exampleReport [] true = .ok exampleSeries ∧
      (∀ s ∈ exampleSeries, ¬ hasSegment "MESSAGES".toList s.Name) ∧
      (∀ s ∈ exampleSeries, ∀ p ∈ s.Points, ∃ v, p.2 = Value.num v) :=
  ⟨by decide,
    no_MESSAGES_segment refParseFloat t2020 exampleReport [] exampleSeries (by decide)
      (by unfold hasSegment; decide) (by unfold hasSegment; decide)⟩

/-! ## The table normalizer -/

theorem filter_enumFrom_of_lt {α : Type} (l : List α) (n : Nat) (q : Nat × α → Bool)
    (h : ∀ x : Nat × α, n ≤ x.1 → q x = true) :
    ((l.enumFrom n).filter q).map Prod.snd = l := by
  induction l generalizing n with
  | nil => rfl
  | cons a l ih =>
    rw [List.enumFrom_cons, List.filter_cons_of_pos (h (n, a) (Nat.le_refl _)), List.map_cons,
      ih (n + 1) (fun x hx => h x (by omega))]

theorem eraseIdx_eq_filter {α : Type} (l : List α) (n k : Nat) :
    ((l.enumFrom n).filter (fun x => decide (x.1 ≠ n + k))).map Prod.snd = l.eraseIdx k := by
  induction l generalizing n k with
  | nil => rfl
  | cons a l ih =>
    rw [List.enumFrom_cons]
    cases k with
    | zero =>
      rw [List.filter_cons_of_neg (by simp), List.eraseIdx_cons_zero]
      apply filter_enumFrom_of_lt
      intro x hx
      simp only [Nat.add_zero, ne_eq, decide_eq_true_eq]
      omega
    | succ k =>
      rw [List.filter_cons_of_pos (by simp), List.map_cons, List.eraseIdx_cons_succ]
      have h := ih (n + 1) k
      have e : n + 1 + k = n + (k + 1) := by omega
      rw [e] at h
      rw [h]

theorem eraseIdx_eraseIdx_eq_filter {α : Type} (l : List α) (n lo hi : Nat) (h : lo < hi) :
    ((l.enumFrom n).filter (fun x => decide (x.1 ≠ n + lo ∧ x.1 ≠ n + hi))).map Prod.snd =
      (l.eraseIdx hi).eraseIdx lo := by
  induction l generalizing n lo hi with
  | nil => rfl
  | cons a l ih =>
    rw [List.enumFrom_cons]
    obtain ⟨hi1, rfl⟩ : ∃ m, hi = m + 1 := ⟨hi - 1, by omega⟩
    rw [List.eraseIdx_cons_succ]
    cases lo with
    | zero =>
      rw [List.filter_cons_of_neg (by simp), List.eraseIdx_cons_zero,
        ← eraseIdx_eq_filter l (n + 1) hi1]
      congr 1
      apply List.filter_congr
      intro x hx
      have h1 := List.le_fst_of_mem_enumFrom hx
      simp only [Nat.add_zero, ne_eq, decide_eq_decide]
      constructor
      · intro h2
        omega
      · intro h2
        omega
    | succ lo =>
      rw [List.filter_cons_of_pos (by simp), List.map_cons, List.eraseIdx_cons_succ]
      have h1 := ih (n + 1) lo hi1 (by omega)
      have e1 : n + 1 + lo = n + (lo + 1) := by omega
      have e2 : n + 1 + hi1 = n + (hi1 + 1) := by omega
      rw [e1, e2] at h1
      rw [h1]

theorem deletePositions_pair {α : Type} (l : List α) (lo hi : Nat) (h : lo < hi) :
    deletePositions [lo, hi] l = (l.eraseIdx hi).eraseIdx lo ∧
      deletePositions [hi, lo] l = (l.eraseIdx hi).eraseIdx lo := by
  have h1 := eraseIdx_eraseIdx_eq_filter l 0 lo hi h
  simp only [Nat.zero_add] at h1
  constructor
  · rw [← h1]
    unfold deletePositions
    congr 1
    apply List.filter_congr
    intro x _
    simp
  · rw [← h1]
    unfold deletePositions
    congr 1
    apply List.filter_congr
    intro x _
    simp only [List.mem_cons, List.mem_singleton, not_or, decide_eq_decide, List.not_mem_nil,
      or_false]
    constructor
    · rintro ⟨h2, h3⟩
      exact ⟨h3, h2⟩
    · rintro ⟨h2, h3⟩
      exact ⟨h3, h2⟩

/-- The call `remove(s, i, j)` with two distinct positions inside `s` returns
`s` without the cells at the two positions. -/
theorem remove_pair {α : Type} (s : List α) (i j : Nat) (hne : i ≠ j) (hi : i < s.length)
    (hj : j < s.length) : remove s [i, j] = .ok (deletePositions [i, j] s) := by
  unfold remove
  have hs : List.insertionSort (fun a b => b ≤ a) [i, j] = if j ≤ i then [i, j] else [j, i] := by
    simp [List.insertionSort, List.orderedInsert]
  rw [hs]
  by_cases hle : j ≤ i
  · have hlt : j < i := by omega
    rw [if_pos hle, (deletePositions_pair s j i hlt).2]
    simp only [removeAll, removeAt, if_pos hi, Outcome.bind]
    rw [if_pos (by rw [List.length_eraseIdx, if_pos hi]; omega)]
  · have hlt : i < j := by omega
    rw [if_neg hle, (deletePositions_pair s i j hlt).1]
    simp only [removeAll, removeAt, if_pos hj, Outcome.bind]
    rw [if_pos (by rw [List.length_eraseIdx, if_pos hj]; omega)]

theorem topPositions_fst_of_not_mem (header : List Str) (i pid cmd : Nat)
    (h : "+PID".toList ∉ header) : (topPositions header i pid cmd).1 = pid := by
  induction header generalizing i pid cmd with
  | nil => rfl
  | cons col rest ih =>
    have h1 : col ≠ "+PID".toList := fun e => h (e ▸ List.mem_cons_self _ _)
    have h2 : "+PID".toList ∉ rest := fun e => h (List.mem_cons_of_mem _ e)
    unfold topPositions
    rw [if_neg h1]
    split
    · exact ih _ _ _ h2
    · exact ih _ _ _ h2

theorem topPositions_snd_of_not_mem (header : List Str) (i pid cmd : Nat)
    (h : "Command".toList ∉ header) : (topPositions header i pid cmd).2 = cmd := by
  induction header generalizing i pid cmd with
  | nil => rfl
  | cons col rest ih =>
    have h1 : col ≠ "Command".toList := fun e => h (e ▸ List.mem_cons_self _ _)
    have h2 : "Command".toList ∉ rest := fun e => h (List.mem_cons_of_mem _ e)
    unfold topPositions
    by_cases hc : col = "+PID".toList
    · rw [if_pos hc]
      exact ih _ _ _ h2
    · rw [if_neg hc, if_neg h1]
      exact ih _ _ _ h2

theorem topPositions_fst (header : List Str) (i pid cmd : Nat)
    (h : "+PID".toList ∈ header) :
    ∃ q, header.get? q = some "+PID".toList ∧ (topPositions header i pid cmd).1 = i + q := by
  induction header generalizing i pid cmd with
  | nil => simp at h
  | cons col rest ih =>
    unfold topPositions
    by_cases hr : "+PID".toList ∈ rest
    · split
      · obtain ⟨q, h1, h2⟩ := ih (i + 1) i cmd hr
        exact ⟨q + 1, h1, by rw [h2]; omega⟩
      · split
        · obtain ⟨q, h1, h2⟩ := ih (i + 1) pid i hr
          exact ⟨q + 1, h1, by rw [h2]; omega⟩
        · obtain ⟨q, h1, h2⟩ := ih (i + 1) pid cmd hr
          exact ⟨q + 1, h1, by rw [h2]; omega⟩
    · have hcol : col = "+PID".toList := by
        rcases List.mem_cons.mp h with e | e
        · exact e.symm
        · exact absurd e hr
      rw [if_pos hcol, topPositions_fst_of_not_mem _ _ _ _ hr]
      exact ⟨0, by rw [hcol]; rfl, rfl⟩

theorem topPositions_snd (header : List Str) (i pid cmd : Nat)
    (h : "Command".toList ∈ header) :
    ∃ q, header.get? q = some "Command".toList ∧
      (topPositions header i pid cmd).2 = i + q := by
  induction header generalizing i pid cmd with
  | nil => simp at h
  | cons col rest ih =>
    unfold topPositions
    by_cases hr : "Command".toList ∈ rest
    · split
      · obtain ⟨q, h1, h2⟩ := ih (i + 1) i cmd hr
        exact ⟨q + 1, h1, by rw [h2]; omega⟩
      · split
        · obtain ⟨q, h1, h2⟩ := ih (i + 1) pid i hr
          exact ⟨q + 1, h1, by rw [h2]; omega⟩
        · obtain ⟨q, h1, h2⟩ := ih (i + 1) pid cmd hr
          exact ⟨q + 1, h1, by rw [h2]; omega⟩
    · have hcol : col = "Command".toList := by
        rcases List.mem_cons.mp h with e | e
        · exact e.symm
        · exact absurd e hr
      have hne : col ≠ "+PID".toList := by
        rw [hcol]
        decide
      rw [if_neg hne, if_pos hcol, topPositions_snd_of_not_mem _ _ _ _ hr]
      exact ⟨0, by rw [hcol]; rfl, rfl⟩

theorem get?_unique_of_count (l : List Str) (x : Str) (h : l.count x = 1) (p q : Nat)
    (hp : l.get? p = some x) (hq : l.get? q = some x) : p = q := by
  induction l generalizing p q with
  | nil => simp at hp
  | cons a l ih =>
    rw [List.count_cons] at h
    cases p with
    | zero =>
      cases q with
      | zero => rfl
      | succ q =>
        simp only [List.get?_cons_zero, Option.some.injEq] at hp
        simp only [List.get?_cons_succ] at hq
        have hmem : x ∈ l := List.get?_mem hq
        have hc : 0 < l.count x := List.count_pos_iff.mpr hmem
        rw [hp] at h
        simp at h
        omega
    | succ p =>
      cases q with
      | zero =>
        simp only [List.get?_cons_zero, Option.some.injEq] at hq
        simp only [List.get?_cons_succ] at hp
        have hmem : x ∈ l := List.get?_mem hp
        have hc : 0 < l.count x := List.count_pos_iff.mpr hmem
        rw [hq] at h
        simp at h
        omega
      | succ q =>
        simp only [List.get?_cons_succ] at hp hq
        have hmem : x ∈ l := List.get?_mem hp
        have hc : 0 < l.count x := List.count_pos_iff.mpr hmem
        have h1 : l.count x = 1 := by
          split at h <;> omega
        rw [ih h1 p q hp hq]

/-- The positions found by `convertTop` in a header with exactly one `+PID`
and one `Command` are the positions of these two fields. -/
theorem topPositions_unique (header : List Str) (p c : Nat)
    (hpid : header.count "+PID".toList = 1) (hcmd : header.count "Command".toList = 1)
    (hp : header.get? p = some "+PID".toList) (hc : header.get? c = some "Command".toList) :
    topPositions header 0 0 0 = (p, c) := by
  obtain ⟨q1, h1, h2⟩ := topPositions_fst header 0 0 0 (List.get?_mem hp)
  obtain ⟨q2, h3, h4⟩ := topPositions_snd header 0 0 0 (List.get?_mem hc)
  have e1 : q1 = p := get?_unique_of_count _ _ hpid _ _ h1 hp
  have e2 : q2 = c := get?_unique_of_count _ _ hcmd _ _ h3 hc
  rw [Nat.zero_add] at h2 h4
  rw [← e1, ← e2, ← h2, ← h4]

/-! ### Map lemmas -/

theorem mapGet_cons {β : Type} (k k1 : Str) (v : β) (rest : List (Str × β)) :
    mapGet k ((k1, v) :: rest) = if k1 = k then some v else mapGet k rest :=
  rfl

theorem mapModify_cons {β : Type} (k k1 : Str) (f : β → β) (v : β) (rest : List (Str × β)) :
    mapModify k f ((k1, v) :: rest) =
      if k1 = k then (k1, f v) :: rest else (k1, v) :: mapModify k f rest :=
  rfl

theorem mapGet_eq_none {β : Type} (k : Str) (m : List (Str × β)) :
    mapGet k m = none ↔ ∀ e ∈ m, e.1 ≠ k := by
  induction m with
  | nil =>
    constructor
    · intro _ e he
      cases he
    · intro _
      rfl
  | cons e rest ih =>
    obtain ⟨k1, v⟩ := e
    rw [mapGet_cons]
    by_cases h : k1 = k
    · rw [if_pos h]
      constructor
      · intro h1
        cases h1
      · intro h1
        exact absurd h (h1 (k1, v) (List.mem_cons_self _ _))
    · rw [if_neg h, ih]
      constructor
      · intro h1 e he
        rcases List.mem_cons.mp he with h2 | h2
        · rw [h2]
          exact h
        · exact h1 e h2
      · intro h1 e he
        exact h1 e (List.mem_cons_of_mem _ he)

theorem mapGet_append_of_not_mem {β : Type} (k : Str) (base m : List (Str × β))
    (h : ∀ e ∈ base, e.1 ≠ k) : mapGet k (base ++ m) = mapGet k m := by
  induction base with
  | nil => rfl
  | cons e rest ih =>
    obtain ⟨k1, v⟩ := e
    have h1 : k1 ≠ k := h (k1, v) (List.mem_cons_self _ _)
    rw [List.cons_append, mapGet_cons, if_neg h1]
    exact ih (fun x hx => h x (List.mem_cons_of_mem _ hx))

theorem mapModify_of_not_mem {β : Type} (k : Str) (f : β → β) (m : List (Str × β))
    (h : ∀ e ∈ m, e.1 ≠ k) : mapModify k f m = m := by
  induction m with
  | nil => rfl
  | cons e rest ih =>
    obtain ⟨k1, v⟩ := e
    have h1 : k1 ≠ k := h (k1, v) (List.mem_cons_self _ _)
    rw [mapModify_cons, if_neg h1, ih (fun x hx => h x (List.mem_cons_of_mem _ hx))]

theorem mapModify_append_of_not_mem {β : Type} (k : Str) (f : β → β)
    (base m : List (Str × β)) (h : ∀ e ∈ base, e.1 ≠ k) :
    mapModify k f (base ++ m) = base ++ mapModify k f m := by
  induction base with
  | nil => rfl
  | cons e rest ih =>
    obtain ⟨k1, v⟩ := e
    have h1 : k1 ≠ k := h (k1, v) (List.mem_cons_self _ _)
    rw [List.cons_append, mapModify_cons, if_neg h1,
      ih (fun x hx => h x (List.mem_cons_of_mem _ hx))]
    rfl

theorem mapGet_mapModify {β : Type} (k : Str) (f : β → β) (m : List (Str × β)) :
    mapGet k (mapModify k f m) = (mapGet k m).map f := by
  induction m with
  | nil => rfl
  | cons e rest ih =>
    obtain ⟨k1, v⟩ := e
    rw [mapModify_cons]
    by_cases h : k1 = k
    · rw [if_pos h, mapGet_cons, if_pos h, mapGet_cons, if_pos h]
      rfl
    · rw [if_neg h, mapGet_cons, if_neg h, mapGet_cons, if_neg h]
      exact ih

/-! ### Distinct commands -/

theorem firstOcc_append_singleton (l : List Str) (x : Str) :
    firstOcc (l ++ [x]) = if x ∈ firstOcc l then firstOcc l else firstOcc l ++ [x] := by
  unfold firstOcc
  rw [List.foldl_append]
  rfl

theorem mem_firstOcc (l : List Str) (x : Str) : x ∈ firstOcc l ↔ x ∈ l := by
  induction l using List.reverseRecOn with
  | nil => simp [firstOcc]
  | append_singleton l a ih =>
    rw [firstOcc_append_singleton]
    by_cases h : a ∈ firstOcc l
    · rw [if_pos h, List.mem_append, List.mem_singleton, ih]
      constructor
      · exact Or.inl
      · rintro (h1 | h1)
        · exact h1
        · subst h1
          exact ih.mp h
    · rw [if_neg h, List.mem_append, List.mem_append, List.mem_singleton, ih]

theorem firstOcc_nodup (l : List Str) : (firstOcc l).Nodup := by
  induction l using List.reverseRecOn with
  | nil => simp [firstOcc]
  | append_singleton l a ih =>
    rw [firstOcc_append_singleton]
    by_cases h : a ∈ firstOcc l
    · rw [if_pos h]
      exact ih
    · rw [if_neg h]
      exact List.Nodup.append ih (List.nodup_singleton a) (by simpa using h)

/-! ### The regrouping loop -/

theorem topGroup_fst (header : List Str) (p c : Nat) (rows : List (List Str)) (x : Str) :
    (topGroup header p c rows x).1 = "TOP.".toList ++ x :=
  rfl

theorem top_key_ne (x y : Str) (h : x ≠ y) : "TOP.".toList ++ x ≠ "TOP.".toList ++ y :=
  fun e => h (List.append_cancel_left e)

theorem mapGet_groups (g : Str → Str × Section) (hg : ∀ x, (g x).1 = "TOP.".toList ++ x)
    (cmds : List Str) (cmd : Str) :
    mapGet ("TOP.".toList ++ cmd) (cmds.map g) =
      if cmd ∈ cmds then some (g cmd).2 else none := by
  induction cmds with
  | nil => rfl
  | cons a l ih =>
    rw [List.map_cons]
    show mapGet _ (((g a).1, (g a).2) :: l.map g) = _
    rw [mapGet_cons, hg a]
    by_cases h : a = cmd
    · subst h
      rw [if_pos rfl, if_pos (List.mem_cons_self _ _)]
    · rw [if_neg (top_key_ne _ _ h), ih]
      by_cases h1 : cmd ∈ l
      · rw [if_pos h1, if_pos (List.mem_cons_of_mem _ h1)]
      · rw [if_neg h1, if_neg]
        intro h2
        rcases List.mem_cons.mp h2 with h3 | h3
        · exact h h3.symm
        · exact h1 h3

theorem mapModify_groups (g g1 : Str → Str × Section) (f : Section → Section)
    (hg : ∀ x, (g x).1 = "TOP.".toList ++ x) (cmds : List Str) (cmd : Str)
    (hnd : cmds.Nodup) (hmem : cmd ∈ cmds)
    (hsame : ∀ x ∈ cmds, x ≠ cmd → g1 x = g x)
    (hnew : g1 cmd = ("TOP.".toList ++ cmd, f (g cmd).2)) :
    mapModify ("TOP.".toList ++ cmd) f (cmds.map g) = cmds.map g1 := by
  induction cmds with
  | nil => cases hmem
  | cons a l ih =>
    obtain ⟨ha, hl⟩ := List.nodup_cons.mp hnd
    rw [List.map_cons, List.map_cons]
    show mapModify _ f (((g a).1, (g a).2) :: l.map g) = _
    rw [mapModify_cons]
    by_cases h : a = cmd
    · subst h
      rw [if_pos (hg a), hnew, hg a]
      congr 1
      apply List.map_congr_left
      intro x hx
      exact (hsame x (List.mem_cons_of_mem _ hx) (fun e => ha (e ▸ hx))).symm
    · rw [if_neg (by rw [hg a]; exact top_key_ne _ _ h)]
      have hmem1 : cmd ∈ l := by
        rcases List.mem_cons.mp hmem with e | e
        · exact absurd e.symm h
        · exact e
      rw [ih hl hmem1 (fun x hx => hsame x (List.mem_cons_of_mem _ hx)),
        hsame a (List.mem_cons_self _ _) h]

theorem topGroup_append_of_ne (header : List Str) (p c : Nat) (done : List (List Str))
    (row : List Str) (x : Str) (h : x ≠ commandOf c row) :
    topGroup header p c (done ++ [row]) x = topGroup header p c done x := by
  unfold topGroup
  have hf : [row].filter (fun r => decide (commandOf c r = x)) = [] := by
    rw [List.filter_cons_of_neg (by simpa using fun e => h e.symm)]
    rfl
  rw [List.filter_append, hf, List.append_nil]

theorem topGroup_append_self (header : List Str) (p c : Nat) (done : List (List Str))
    (row : List Str) :
    topGroup header p c (done ++ [row]) (commandOf c row) =
      ("TOP.".toList ++ commandOf c row,
        { Header := header,
          Body := (topGroup header p c done (commandOf c row)).2.Body ++
            [deletePositions [p, c] row] }) := by
  unfold topGroup
  have hf : [row].filter (fun r => decide (commandOf c r = commandOf c row)) = [row] := by
    rw [List.filter_cons_of_pos (by simp)]
    rfl
  rw [List.filter_append, hf, List.map_append]
  rfl

theorem topGroup_body_of_not_mem (header : List Str) (p c : Nat) (done : List (List Str))
    (x : Str) (h : x ∉ done.map (commandOf c)) :
    (topGroup header p c done x).2.Body = [] := by
  unfold topGroup
  have hf : done.filter (fun r => decide (commandOf c r = x)) = [] := by
    rw [List.filter_eq_nil_iff]
    intro r hr
    simp only [decide_eq_true_eq]
    intro e
    exact h (e ▸ List.mem_map_of_mem _ hr)
  rw [hf]
  rfl

theorem topGroups_keys (header : List Str) (p c : Nat) (done : List (List Str)) :
    ∀ e ∈ topGroups header p c done, ∃ row ∈ done, e = topGroup header p c done
      (commandOf c row) := by
  intro e he
  unfold topGroups at he
  obtain ⟨x, hx, hxe⟩ := List.mem_map.mp he
  obtain ⟨row, hrow, hr⟩ := List.mem_map.mp ((mem_firstOcc _ _).mp hx)
  exact ⟨row, hrow, by rw [hr, hxe]⟩

/-- One pass of the regrouping loop extends the groups by one row. -/
theorem topRow_groups (header : List Str) (p c : Nat) (base : List (Str × Section))
    (done : List (List Str)) (row : List Str)
    (hbase : ∀ e ∈ base, ¬ "TOP.".toList <+: e.1) (hne : p ≠ c) (hp : p < row.length)
    (hc : c < row.length) :
    topRow header p c (base ++ topGroups header p c done) row =
      .ok (base ++ topGroups header p c (done ++ [row])) := by
  have hget : row.get? c = some (commandOf c row) := by
    unfold commandOf
    rw [List.getD_eq_getElem?_getD, List.get?_eq_getElem?, List.getElem?_eq_getElem hc]
    rfl
  have hb : ∀ e ∈ base, e.1 ≠ "TOP.".toList ++ commandOf c row :=
    fun e he h => hbase e he (h ▸ List.prefix_append _ _)
  have hnd := firstOcc_nodup (done.map (commandOf c))
  unfold topRow
  rw [hget]
  simp only
  rw [mapGet_append_of_not_mem _ _ _ hb, remove_pair row p c hne hp hc]
  unfold topGroups
  rw [mapGet_groups _ (topGroup_fst header p c done), List.map_append, List.map_cons,
    List.map_nil, firstOcc_append_singleton]
  by_cases hin : commandOf c row ∈ firstOcc (done.map (commandOf c))
  · rw [if_pos hin, if_pos hin]
    simp only [Outcome.bind, appendRow]
    rw [mapModify_append_of_not_mem _ _ _ _ hb,
      mapModify_groups (topGroup header p c done) (topGroup header p c (done ++ [row])) _
        (topGroup_fst header p c done) _ _ hnd hin
        (fun x _ hx => topGroup_append_of_ne header p c done row x hx)
        (topGroup_append_self header p c done row)]
  · rw [if_neg hin, if_neg hin]
    simp only [Outcome.bind, appendRow]
    have hbg : ∀ e ∈ base ++ (firstOcc (done.map (commandOf c))).map (topGroup header p c done),
        e.1 ≠ "TOP.".toList ++ commandOf c row := by
      intro e he
      rcases List.mem_append.mp he with h1 | h1
      · exact hb e h1
      · obtain ⟨x, hx, hxe⟩ := List.mem_map.mp h1
        rw [← hxe, topGroup_fst]
        exact top_key_ne _ _ (fun e1 => hin (e1 ▸ hx))
    have hA : (firstOcc (done.map (commandOf c))).map (topGroup header p c done) =
        (firstOcc (done.map (commandOf c))).map (topGroup header p c (done ++ [row])) := by
      apply List.map_congr_left
      intro x hx
      exact (topGroup_append_of_ne header p c done row x (fun e1 => hin (e1 ▸ hx))).symm
    rw [mapModify_append_of_not_mem _ _ _ _ hbg, List.map_append, List.map_cons, List.map_nil,
      topGroup_append_self, topGroup_body_of_not_mem header p c done _
        (fun h => hin ((mem_firstOcc _ _).mpr h)), List.append_assoc, hA, mapModify_cons,
      if_pos rfl]

/-- The regrouping loop turns the rows into the groups of their commands. -/
theorem topRows_groups (header : List Str) (p c : Nat) (base : List (Str × Section))
    (rows done : List (List Str))
    (hbase : ∀ e ∈ base, ¬ "TOP.".toList <+: e.1) (hne : p ≠ c)
    (hrows : ∀ row ∈ rows, p < row.length ∧ c < row.length) :
    topRows header p c (base ++ topGroups header p c done) rows =
      .ok (base ++ topGroups header p c (done ++ rows)) := by
  induction rows generalizing done with
  | nil => rw [List.append_nil]; rfl
  | cons row rows ih =>
    obtain ⟨hp, hc⟩ := hrows row (List.mem_cons_self _ _)
    unfold topRows
    rw [topRow_groups header p c base done row hbase hne hp hc]
    simp only [Outcome.bind]
    rw [ih (done ++ [row]) (fun r hr => hrows r (List.mem_cons_of_mem _ hr)),
      List.append_assoc]
    rfl

theorem fixTop_placeholder (secs : List (Str × Section)) (top : Section)
    (first : List Str) (rest : List (List Str))
    (htop : mapGet "TOP".toList secs = some top)
    (hhead : top.Header.head? = some "PercentCPU Utilisation".toList)
    (hbody : top.Body = first :: rest) :
    fixTop secs =
      .ok (mapModify "TOP".toList (fun _ => { Header := first, Body := rest }) secs) := by
  unfold fixTop
  rw [htop]
  simp only
  cases hh : top.Header with
  | nil => rw [hh] at hhead; cases hhead
  | cons h t =>
    rw [hh] at hhead
    simp only [List.head?_cons, Option.some.injEq] at hhead
    simp only [hhead, if_true, hbody]

/-- After `convertTop` on a table with a placeholder header, the sections with
a name that starts with `TOP.` are the groups of the commands. -/
theorem convertTop_groups (secs : List (Str × Section)) (top : Section)
    (H : List Str) (rows : List (List Str)) (p c : Nat)
    (htop : mapGet "TOP".toList secs = some top)
    (hhead : top.Header.head? = some "PercentCPU Utilisation".toList)
    (hbody : top.Body = H :: rows)
    (hpid : H.count "+PID".toList = 1) (hcmd : H.count "Command".toList = 1)
    (hp : H.get? p = some "+PID".toList) (hc : H.get? c = some "Command".toList)
    (hlen : ∀ row ∈ rows, row.length = H.length)
    (hfresh : ∀ e ∈ secs, ¬ "TOP.".toList <+: e.1) :
    ∃ secs1, convertTop secs = .ok secs1 ∧
      secs1.filter (fun e => decide ("TOP.".toList <+: e.1)) =
        topGroups (deletePositions [p, c] H) p c rows := by
  have hpl : p < H.length := by
    by_contra hcon
    rw [List.get?_eq_none.mpr (Nat.le_of_not_lt hcon)] at hp
    cases hp
  have hcl : c < H.length := by
    by_contra hcon
    rw [List.get?_eq_none.mpr (Nat.le_of_not_lt hcon)] at hc
    cases hc
  have hne : p ≠ c := by
    intro e
    rw [e, hc] at hp
    exact absurd hp (by decide)
  have hbase : ∀ e ∈ mapModify "TOP".toList (fun _ => ({ Header := H, Body := rows } : Section))
      secs, ¬ "TOP.".toList <+: e.1 := by
    intro e he
    have h1 : e.1 ∈ secs.map Prod.fst := by
      rw [← mapModify_keys "TOP".toList (fun _ => ({ Header := H, Body := rows } : Section))]
      exact List.mem_map_of_mem _ he
    obtain ⟨x, hx, hxe⟩ := List.mem_map.mp h1
    rw [← hxe]
    exact hfresh x hx
  have hrows : ∀ row ∈ rows, p < row.length ∧ c < row.length := by
    intro row hrow
    rw [hlen row hrow]
    exact ⟨hpl, hcl⟩
  have hloop := topRows_groups (deletePositions [p, c] H) p c _ rows [] hbase hne hrows
  have hnil : topGroups (deletePositions [p, c] H) p c [] = [] := rfl
  rw [hnil, List.append_nil, List.nil_append] at hloop
  refine ⟨mapDelete "TOP".toList
    (mapModify "TOP".toList (fun _ => ({ Header := H, Body := rows } : Section)) secs ++
      topGroups (deletePositions [p, c] H) p c rows), ?_, ?_⟩
  · unfold convertTop
    rw [fixTop_placeholder secs top H rows htop hhead hbody]
    simp only [Outcome.bind]
    rw [mapGet_mapModify, htop]
    simp only [Option.map_some']
    rw [topPositions_unique H p c hpid hcmd hp hc]
    simp only
    rw [remove_pair H p c hne hpl hcl]
    simp only
    rw [hloop]
  · unfold mapDelete
    rw [List.filter_append, List.filter_append]
    have h1 : ∀ l : List (Str × Section), (∀ e ∈ l, ¬ "TOP.".toList <+: e.1) →
        l.filter (fun e => decide ("TOP.".toList <+: e.1)) = [] := by
      intro l hl
      rw [List.filter_eq_nil_iff]
      intro e he
      simpa using hl e he
    have h2 : (topGroups (deletePositions [p, c] H) p c rows).filter
        (fun e => decide (e.1 ≠ "TOP".toList)) =
        topGroups (deletePositions [p, c] H) p c rows := by
      rw [List.filter_eq_self]
      intro e he
      obtain ⟨row, _, hr⟩ := topGroups_keys _ _ _ _ e he
      rw [hr, topGroup_fst]
      simp only [ne_eq, decide_eq_true_eq]
      intro hcon
      have hlen1 := congrArg List.length hcon
      simp at hlen1
    have h3 : (topGroups (deletePositions [p, c] H) p c rows).filter
        (fun e => decide ("TOP.".toList <+: e.1)) =
        topGroups (deletePositions [p, c] H) p c rows := by
      rw [List.filter_eq_self]
      intro e he
      obtain ⟨row, _, hr⟩ := topGroups_keys _ _ _ _ e he
      rw [hr, topGroup_fst]
      simp
    rw [h2, h3, h1 _ (fun e he => hbase e (List.mem_filter.mp he).1), List.nil_append]

/-- C8: for a section set whose `TOP` section has the placeholder header, a
first body row `H` with `+PID` at position `p` and `Command` at position `c`,
each exactly once, remaining rows as long as `H`, and no section named
`TOP.<x>`: `convertTop` returns, the names that start with `TOP.` are
pairwise distinct, and the sections with such a name are exactly one
`TOP.<command>` per command of the remaining rows, with header `H` without the
cells at `p` and `c` and with body the rows of that command, in their original
order, each without the cells at `p` and `c`. -/
theorem convertTop_regroups (secs : List (Str × Section)) (top : Section)
    (H : List Str) (rows : List (List Str)) (p c : Nat)
    (htop : mapGet "TOP".toList secs = some top)
    (hhead : top.Header.head? = some "PercentCPU Utilisation".toList)
    (hbody : top.Body = H :: rows)
    (hpid : H.count "+PID".toList = 1) (hcmd : H.count "Command".toList = 1)
    (hp : H.get? p = some "+PID".toList) (hc : H.get? c = some "Command".toList)
    (hlen : ∀ row ∈ rows, row.length = H.length)
    (hfresh : ∀ e ∈ secs, ¬ "TOP.".toList <+: e.1) :
    ∃ secs1, convertTop secs = .ok secs1 ∧
      ((secs1.filter (fun e => decide ("TOP.".toList <+: e.1))).map Prod.fst).Nodup ∧
      ∀ name sec, ((name, sec) ∈ secs1 ∧ "TOP.".toList <+: name) ↔
        ∃ row0 ∈ rows, name = "TOP.".toList ++ commandOf c row0 ∧
          sec = { Header := deletePositions [p, c] H,
                  Body := (rows.filter
                    (fun row => decide (commandOf c row = commandOf c row0))).map
                      (deletePositions [p, c]) } := by
  obtain ⟨secs1, h1, h2⟩ :=
    convertTop_groups secs top H rows p c htop hhead hbody hpid hcmd hp hc hlen hfresh
  refine ⟨secs1, h1, ?_, ?_⟩
  · rw [h2]
    unfold topGroups
    rw [List.map_map]
    have hf : Prod.fst ∘ topGroup (deletePositions [p, c] H) p c rows =
        fun x => "TOP.".toList ++ x := rfl
    rw [hf]
    exact List.Nodup.map (fun a b hab => List.append_cancel_left hab)
      (firstOcc_nodup _)
  · intro name sec
    have hiff : ((name, sec) ∈ secs1 ∧ "TOP.".toList <+: name) ↔
        (name, sec) ∈ secs1.filter (fun e => decide ("TOP.".toList <+: e.1)) := by
      rw [List.mem_filter]
      simp
    rw [hiff, h2]
    unfold topGroups
    rw [List.mem_map]
    constructor
    · rintro ⟨x, hx, hxe⟩
      obtain ⟨row0, hrow0, hr⟩ := List.mem_map.mp ((mem_firstOcc _ _).mp hx)
      refine ⟨row0, hrow0, ?_⟩
      rw [hr]
      unfold topGroup at hxe
      cases hxe
      exact ⟨rfl, rfl⟩
    · rintro ⟨row0, hrow0, hn, hs⟩
      refine ⟨commandOf c row0, (mem_firstOcc _ _).mpr (List.mem_map_of_mem _ hrow0), ?_⟩
      rw [hn, hs]
      rfl

/-- Witness of `convertTop_regroups` on a table of three rows and two commands. -/
theorem convertTop_regroups_witness :
    mapGet "TOP".toList topSections =
        some { Header := ["PercentCPU Utilisation".toList], Body := topHeader :: topBody } ∧
      (∀ row ∈ topBody, row.length = topHeader.length) ∧
      ∃ secs1, convertTop topSections = .ok secs1 ∧
        ((secs1.filter (fun e => decide ("TOP.".toList <+: e.1))).map Prod.fst).Nodup ∧
        ∀ name sec, ((name, sec) ∈ secs1 ∧ "TOP.".toList <+: name) ↔
          ∃ row0 ∈ topBody, name = "TOP.".toList ++ commandOf 3 row0 ∧
            sec = { Header := deletePositions [0, 3] topHeader,
                    Body := (topBody.filter
                      (fun row => decide (commandOf 3 row = commandOf 3 row0))).map
                        (deletePositions [0, 3]) } :=
  ⟨by decide, by decide,
    convertTop_regroups topSections
      { Header := ["PercentCPU Utilisation".toList], Body := topHeader :: topBody }
      topHeader topBody 0 3 (by decide) (by decide) rfl (by decide) (by decide) (by decide)
      (by decide) (by decide) (by decide)⟩

/-! ## Second series of properties -/

/-- C11: every series returned by `GetAsSeries` has a non-empty point list. -/
theorem series_points_nonempty {F : Type} (parseFloat : Str → Option F) (now : Time)
    (r : Nmon) (pfx : Str) (ignoreText : Bool) (l : List (Series F))
    (h : GetAsSeries parseFloat now r pfx ignoreText = .ok l) :
    ∀ s ∈ l, s.Points ≠ [] := by
  intro s hs
  rcases (mem_GetAsSeries _ _ _ _ _ _ h s).mp hs with
    ⟨e, _, j, fld, _, _, h3, h4⟩ | ⟨_, m, _, h4⟩
  · rw [h4]
    exact h3
  · rw [h4]
    simp [messageSeries]

/-- Witness of `series_points_nonempty` on the example with its message. -/
theorem series_points_nonempty_witness :
    GetAsSeries refParseFloat t2020early exampleReport [] false =
        .ok (exampleSeries ++ exampleMessageSeries) ∧
      ∀ s ∈ exampleSeries ++ exampleMessageSeries, s.Points ≠ [] :=
  ⟨by decide,
    series_points_nonempty refParseFloat t2020early exampleReport [] false
      (exampleSeries ++ exampleMessageSeries) (by decide)⟩

theorem length_eraseIdx_eraseIdx {α : Type} (s : List α) (lo hi : Nat) (h : lo < hi)
    (hhi : hi < s.length) : ((s.eraseIdx hi).eraseIdx lo).length = s.length - 2 := by
  have h1 : (s.eraseIdx hi).length = s.length - 1 := by
    rw [List.length_eraseIdx, if_pos hhi]
  rw [List.length_eraseIdx, h1, if_pos (by omega)]
  omega

/-- C17: for two distinct positions `i` and `j` inside `s`, `remove(s, i, j)` and
`remove(s, j, i)` both return `s` without the cells at the positions `i` and
`j`, the other cells in their original order; the result has two cells less. -/
theorem remove_two_positions {α : Type} (s : List α) (i j : Nat) (hne : i ≠ j)
    (hi : i < s.length) (hj : j < s.length) :
    remove s [i, j] = .ok (deletePositions [i, j] s) ∧
      remove s [j, i] = .ok (deletePositions [i, j] s) ∧
      (deletePositions [i, j] s).length = s.length - 2 := by
  have hswap : deletePositions [j, i] s = deletePositions [i, j] s := by
    by_cases hlt : i < j
    · rw [(deletePositions_pair s i j hlt).1, (deletePositions_pair s i j hlt).2]
    · have hlt1 : j < i := by omega
      rw [(deletePositions_pair s j i hlt1).1, (deletePositions_pair s j i hlt1).2]
  refine ⟨remove_pair s i j hne hi hj, ?_, ?_⟩
  · rw [remove_pair s j i (fun e => hne e.symm) hj hi, hswap]
  · by_cases hlt : i < j
    · rw [(deletePositions_pair s i j hlt).1]
      exact length_eraseIdx_eraseIdx s i j hlt hj
    · have hlt1 : j < i := by omega
      rw [(deletePositions_pair s j i hlt1).2]
      exact length_eraseIdx_eraseIdx s j i hlt1 hi

/-- Witness of `remove_two_positions` on a header of four fields. -/
theorem remove_two_positions_witness :
    (0 : Nat) ≠ 3 ∧ 0 < topHeader.length ∧ 3 < topHeader.length ∧
      remove topHeader [0, 3] = .ok ["Time".toList, "PercentCPU".toList] ∧
      remove topHeader [0, 3] = .ok (deletePositions [0, 3] topHeader) ∧
      remove topHeader [3, 0] = .ok (deletePositions [0, 3] topHeader) ∧
      (deletePositions [0, 3] topHeader).length = topHeader.length - 2 :=
  ⟨by decide, by decide, by decide, by decide,
    remove_two_positions topHeader 0 3 (by decide) (by decide) (by decide)⟩

/-! ### More map lemmas -/

theorem mapGet_mapModify_ne {β : Type} (k k1 : Str) (f : β → β) (m : List (Str × β))
    (h : k1 ≠ k) : mapGet k (mapModify k1 f m) = mapGet k m := by
  induction m with
  | nil => rfl
  | cons e rest ih =>
    obtain ⟨k2, v⟩ := e
    rw [mapModify_cons]
    by_cases h2 : k2 = k1
    · rw [if_pos h2, mapGet_cons, mapGet_cons, if_neg (h2 ▸ h), if_neg (h2 ▸ h)]
    · rw [if_neg h2, mapGet_cons, mapGet_cons, ih]

theorem mapGet_append {β : Type} (k : Str) (m m1 : List (Str × β)) :
    mapGet k (m ++ m1) = (mapGet k m).or (mapGet k m1) := by
  induction m with
  | nil => rfl
  | cons e rest ih =>
    obtain ⟨k2, v⟩ := e
    rw [List.cons_append, mapGet_cons, mapGet_cons]
    by_cases h : k2 = k
    · rw [if_pos h, if_pos h]
      rfl
    · rw [if_neg h, if_neg h, ih]

theorem mapGet_mapSet {β : Type} (k k1 : Str) (v : β) (m : List (Str × β)) :
    mapGet k (mapSet k1 v m) = if k1 = k then some v else mapGet k m := by
  unfold mapSet
  cases hg : mapGet k1 m with
  | none =>
    simp only
    rw [mapGet_append, mapGet_cons]
    by_cases h : k1 = k
    · rw [if_pos h, if_pos h, ← h, hg]
      rfl
    · rw [if_neg h, if_neg h]
      cases mapGet k m <;> rfl
  | some old =>
    simp only
    by_cases h : k1 = k
    · rw [if_pos h, ← h, mapGet_mapModify, hg]
      rfl
    · rw [if_neg h, mapGet_mapModify_ne _ _ _ _ h]

theorem mapSet_keys_nodup {β : Type} (k : Str) (v : β) (m : List (Str × β))
    (h : (m.map Prod.fst).Nodup) : ((mapSet k v m).map Prod.fst).Nodup := by
  unfold mapSet
  cases hg : mapGet k m with
  | none =>
    simp only
    rw [List.map_append]
    refine List.Nodup.append h (List.nodup_singleton _) ?_
    intro x hx hx1
    simp only [List.map_cons, List.map_nil, List.mem_singleton] at hx1
    obtain ⟨e, he, hxe⟩ := List.mem_map.mp hx
    exact (mapGet_eq_none k m).mp hg e he (hxe.trans hx1)
  | some old =>
    simp only
    rw [mapModify_keys]
    exact h

/-! ## The metadata extractor -/

theorem hostStep_eq (h : Str) (row : List Str) :
    hostStep h row = (hostValue row).getD h := by
  unfold hostStep hostValue
  match row with
  | [] => rfl
  | [_] => rfl
  | k :: v :: _ =>
    show (if k = "host".toList then v else h) =
      (if k = "host".toList then some v else none).getD h
    by_cases hk : k = "host".toList
    · rw [if_pos hk, if_pos hk]
      rfl
    · rw [if_neg hk, if_neg hk]
      rfl

theorem hostValue_eq_none (row : List Str) (h : row.head? ≠ some "host".toList) :
    hostValue row = none := by
  unfold hostValue
  match row, h with
  | [], _ => rfl
  | [_], _ => rfl
  | k :: v :: _, hk =>
    have hk1 : k ≠ "host".toList := fun e => hk (by rw [e]; rfl)
    show (if k = "host".toList then some v else none) = none
    rw [if_neg hk1]

theorem foldl_hostStep (rows : List (List Str)) (h : Str) :
    rows.foldl hostStep h = ((hostValues rows).getLast?).getD h := by
  induction rows using List.reverseRecOn with
  | nil => rfl
  | append_singleton rows row ih =>
    rw [List.foldl_append, List.foldl_cons, List.foldl_nil, ih, hostStep_eq]
    unfold hostValues
    rw [List.filterMap_append, List.getLast?_append, List.filterMap_cons, List.filterMap_nil]
    cases hostValue row <;> rfl

/-- C19: for a section set with an `AAA` section, `getHostname` returns the
value cell of the last `AAA` row that has the key `host` and at least two
cells, and the empty string when no `AAA` row has the key `host`. -/
theorem getHostname_spec (secs : List (Str × Section)) (aaa : Section)
    (h : mapGet "AAA".toList secs = some aaa) :
    getHostname secs = .ok (((hostValues aaa.Body).getLast?).getD []) ∧
      ((∀ row ∈ aaa.Body, row.head? ≠ some "host".toList) → getHostname secs = .ok []) := by
  have h1 : getHostname secs = .ok (((hostValues aaa.Body).getLast?).getD []) := by
    unfold getHostname
    rw [h]
    simp only
    rw [foldl_hostStep]
  refine ⟨h1, ?_⟩
  intro hno
  have h2 : hostValues aaa.Body = [] := by
    unfold hostValues
    rw [List.filterMap_eq_nil_iff]
    intro row hrow
    exact hostValue_eq_none row (hno row hrow)
  rw [h1, h2]
  rfl

/-- Witness of `getHostname_spec`: of the two `host` rows the last one wins. -/
theorem getHostname_spec_witness :
    mapGet "AAA".toList hostSections =
        some { Header := ["key".toList, "value".toList],
               Body := [["host".toList, "alpha".toList], ["OS".toList, "Linux".toList],
                 ["host".toList, "beta".toList]] } ∧
      getHostname hostSections = .ok "beta".toList ∧
      getHostname hostSections =
        .ok (((hostValues [["host".toList, "alpha".toList], ["OS".toList, "Linux".toList],
          ["host".toList, "beta".toList]]).getLast?).getD []) :=
  ⟨by decide, by decide,
    (getHostname_spec hostSections
      { Header := ["key".toList, "value".toList],
        Body := [["host".toList, "alpha".toList], ["OS".toList, "Linux".toList],
          ["host".toList, "beta".toList]] } (by decide)).1⟩

/-! ## The snapshot resolver -/

theorem mapGet_exists_iff {β : Type} (k : Str) (m : List (Str × β)) :
    (∃ v, mapGet k m = some v) ↔ ∃ e ∈ m, e.1 = k := by
  constructor
  · rintro ⟨v, hv⟩
    by_contra hcon
    have h1 : mapGet k m = none :=
      (mapGet_eq_none k m).mpr (fun e he hk => hcon ⟨e, he, hk⟩)
    rw [h1] at hv
    cases hv
  · rintro ⟨e, he, hk⟩
    cases hg : mapGet k m with
    | none => exact absurd hk ((mapGet_eq_none k m).mp hg e he)
    | some v => exact ⟨v, rfl⟩

theorem snapshotStep_eq (parseTime : Str → Option Time) (m : List (Str × Time))
    (row : List Str) :
    snapshotStep parseTime m row =
      match rowSnapshot parseTime row with
      | some e => mapSet e.1 e.2 m
      | none => m := by
  unfold snapshotStep rowSnapshot
  match row with
  | [] => rfl
  | [_] => rfl
  | id :: text :: _ =>
    show (match parseTime text with
      | some t => mapSet id t m
      | none => m) =
      (match (parseTime text).map (fun t => (id, t)) with
      | some e => mapSet e.1 e.2 m
      | none => m)
    cases parseTime text <;> rfl

theorem foldl_snapshotStep (parseTime : Str → Option Time) (rows : List (List Str))
    (m : List (Str × Time)) :
    rows.foldl (snapshotStep parseTime) m =
      (parsedSnapshots parseTime rows).foldl (fun acc e => mapSet e.1 e.2 acc) m := by
  induction rows generalizing m with
  | nil => rfl
  | cons row rows ih =>
    unfold parsedSnapshots at ih ⊢
    rw [List.foldl_cons, ih, snapshotStep_eq, List.filterMap_cons]
    cases rowSnapshot parseTime row <;> rfl

theorem mapGet_foldl_mapSet {β : Type} (k : Str) (l : List (Str × β)) (m : List (Str × β)) :
    mapGet k (l.foldl (fun acc e => mapSet e.1 e.2 acc) m) =
      (mapGet k l.reverse).or (mapGet k m) := by
  induction l generalizing m with
  | nil => rfl
  | cons e rest ih =>
    obtain ⟨k1, v⟩ := e
    rw [List.foldl_cons, ih, mapGet_mapSet, List.reverse_cons, mapGet_append, mapGet_cons]
    cases mapGet k rest.reverse with
    | some x => rfl
    | none =>
      by_cases h : k1 = k
      · rw [if_pos h, if_pos h]
        rfl
      · rw [if_neg h, if_neg h]
        rfl

theorem foldl_mapSet_keys_nodup {β : Type} (l : List (Str × β)) (m : List (Str × β))
    (h : (m.map Prod.fst).Nodup) :
    ((l.foldl (fun acc e => mapSet e.1 e.2 acc) m).map Prod.fst).Nodup := by
  induction l generalizing m with
  | nil => exact h
  | cons e rest ih =>
    rw [List.foldl_cons]
    exact ih _ (mapSet_keys_nodup _ _ _ h)

/-- C18: for a section set with a `ZZZZ` section, `convertSnapshots` returns;
the keys of Snapshots are exactly the first cells of the `ZZZZ` rows that have
at least two cells and a second cell that parses; each key maps to the time of
the last such row for that id (rows with one cell or an unparsable time change
nothing); every key occurs once; and the sections are the given ones without
`ZZZZ`. -/
theorem convertSnapshots_spec (parseTime : Str → Option Time) (secs : List (Str × Section))
    (zzzz : Section) (h : mapGet "ZZZZ".toList secs = some zzzz) :
    ∃ snaps secs1, convertSnapshots parseTime secs = .ok (snaps, secs1) ∧
      (∀ id, (∃ t, mapGet id snaps = some t) ↔
        ∃ row ∈ zzzz.Body, ∃ t, rowSnapshot parseTime row = some (id, t)) ∧
      (∀ id, mapGet id snaps = mapGet id (parsedSnapshots parseTime zzzz.Body).reverse) ∧
      (snaps.map Prod.fst).Nodup ∧
      (∀ e, e ∈ secs1 ↔ e ∈ secs ∧ e.1 ≠ "ZZZZ".toList) := by
  have hval : ∀ id, mapGet id (zzzz.Body.foldl (snapshotStep parseTime) []) =
      mapGet id (parsedSnapshots parseTime zzzz.Body).reverse := by
    intro id
    rw [foldl_snapshotStep, mapGet_foldl_mapSet]
    cases mapGet id (parsedSnapshots parseTime zzzz.Body).reverse <;> rfl
  refine ⟨zzzz.Body.foldl (snapshotStep parseTime) [], mapDelete "ZZZZ".toList secs, ?_, ?_,
    hval, ?_, fun e => mem_mapDelete _ _ e⟩
  · unfold convertSnapshots
    rw [h]
  · intro id
    rw [hval, mapGet_exists_iff]
    constructor
    · rintro ⟨e, he, hk⟩
      obtain ⟨row, hrow, hr⟩ := List.mem_filterMap.mp (List.mem_reverse.mp he)
      exact ⟨row, hrow, e.2, by rw [hr, ← hk]⟩
    · rintro ⟨row, hrow, t, hr⟩
      exact ⟨(id, t), List.mem_reverse.mpr (List.mem_filterMap.mpr ⟨row, hrow, hr⟩), rfl⟩
  · rw [foldl_snapshotStep]
    exact foldl_mapSet_keys_nodup _ _ List.nodup_nil

/-- Witness of `convertSnapshots_spec`: `T1` is recorded twice and keeps the
later time, the rows of `T2` and `T3` record nothing. -/
theorem convertSnapshots_spec_witness :
    mapGet "ZZZZ".toList snapshotSections =
        some { Header := ["snapshot".toList, "time".toList],
               Body := [["T1".toList, "13:00:00.0,01-Jan-2020".toList], ["T2".toList],
                 ["T3".toList, "noon".toList], ["T1".toList, "14:00:00.0,01-Jan-2020".toList]] } ∧
      convertSnapshots refParseTime snapshotSections =
        .ok ([("T1".toList, t2020)],
          [("CPU".toList, { Header := ["k".toList, "a".toList], Body := [] })]) ∧
      ∃ snaps secs1, convertSnapshots refParseTime snapshotSections = .ok (snaps, secs1) ∧
        (∀ id, (∃ t, mapGet id snaps = some t) ↔
          ∃ row ∈ [["T1".toList, "13:00:00.0,01-Jan-2020".toList], ["T2".toList],
              ["T3".toList, "noon".toList], ["T1".toList, "14:00:00.0,01-Jan-2020".toList]],
            ∃ t, rowSnapshot refParseTime row = some (id, t)) ∧
        (∀ id, mapGet id snaps = mapGet id (parsedSnapshots refParseTime
          [["T1".toList, "13:00:00.0,01-Jan-2020".toList], ["T2".toList],
            ["T3".toList, "noon".toList],
            ["T1".toList, "14:00:00.0,01-Jan-2020".toList]]).reverse) ∧
        (snaps.map Prod.fst).Nodup ∧
        (∀ e, e ∈ secs1 ↔ e ∈ snapshotSections ∧ e.1 ≠ "ZZZZ".toList) :=
  ⟨by decide, by decide,
    convertSnapshots_spec refParseTime snapshotSections
      { Header := ["snapshot".toList, "time".toList],
        Body := [["T1".toList, "13:00:00.0,01-Jan-2020".toList], ["T2".toList],
          ["T3".toList, "noon".toList], ["T1".toList, "14:00:00.0,01-Jan-2020".toList]] }
      (by decide)⟩

/-! ## The line reader -/

theorem join_cons_char (sep : Str) (c : Char) (w : Str) (ws : List Str) :
    join sep ((c :: w) :: ws) = c :: join sep (w :: ws) := by
  cases ws with
  | nil => rfl
  | cons x xs => rfl

theorem join_nil_cons (sep : Str) (x : Str) (xs : List Str) :
    join sep ([] :: x :: xs) = sep ++ join sep (x :: xs) :=
  rfl

theorem splitN_succ_ne_nil (sep : Char) (n : Nat) (s : Str) : splitN sep (n + 1) s ≠ [] := by
  induction s generalizing n with
  | nil => cases n <;> simp [splitN]
  | cons c cs ih =>
    cases n with
    | zero => simp [splitN]
    | succ m =>
      unfold splitN
      split
      · simp
      · split <;> simp

theorem splitN_cons_sep (sep : Char) (n : Nat) (cs : Str) :
    splitN sep (n + 2) (sep :: cs) = [] :: splitN sep (n + 1) cs := by
  simp [splitN]

theorem splitN_cons_ne (sep c : Char) (n : Nat) (cs : Str) (h : c ≠ sep) :
    splitN sep (n + 2) (c :: cs) =
      match splitN sep (n + 2) cs with
      | [] => [[c]]
      | w :: ws => (c :: w) :: ws := by
  simp [splitN, h]

theorem join_splitN (sep : Char) (n : Nat) (s : Str) :
    join [sep] (splitN sep (n + 1) s) = s := by
  induction s generalizing n with
  | nil => cases n <;> rfl
  | cons c cs ih =>
    cases n with
    | zero => rfl
    | succ m =>
      by_cases hc : c = sep
      · subst hc
        rw [splitN_cons_sep]
        cases hx : splitN c (m + 1) cs with
        | nil => exact absurd hx (splitN_succ_ne_nil _ _ _)
        | cons x xs =>
          rw [join_nil_cons, ← hx, ih]
          rfl
      · rw [splitN_cons_ne _ _ _ _ hc]
        cases hx : splitN sep (m + 1 + 1) cs with
        | nil => exact absurd hx (splitN_succ_ne_nil _ _ _)
        | cons w ws =>
          simp only
          rw [join_cons_char, ← hx, ih]

theorem length_splitN_le (sep : Char) (n : Nat) (s : Str) : (splitN sep n s).length ≤ n := by
  induction s generalizing n with
  | nil =>
    match n with
    | 0 => simp [splitN]
    | 1 => simp [splitN]
    | m + 2 => simp [splitN]
  | cons c cs ih =>
    match n with
    | 0 => simp [splitN]
    | 1 => simp [splitN]
    | m + 2 =>
      by_cases hc : c = sep
      · subst hc
        rw [splitN_cons_sep, List.length_cons]
        have := ih (m + 1)
        omega
      · rw [splitN_cons_ne _ _ _ _ hc]
        have h1 := ih (m + 2)
        cases hx : splitN sep (m + 2) cs with
        | nil => simp
        | cons w ws =>
          rw [hx] at h1
          exact h1

theorem join_split (sep : Char) (s : Str) : join [sep] (split sep s) = s := by
  induction s with
  | nil => rfl
  | cons c cs ih =>
    by_cases hc : c = sep
    · subst hc
      rw [split_cons_sep]
      cases hx : split c cs with
      | nil => exact absurd hx (split_ne_nil _ _)
      | cons x xs =>
        rw [join_nil_cons, ← hx, ih]
        rfl
    · rw [split_cons_ne _ _ _ hc]
      cases hx : split sep cs with
      | nil => exact absurd hx (split_ne_nil _ _)
      | cons w ws =>
        simp only
        rw [join_cons_char, ← hx, ih]

theorem not_mem_of_mem_split (sep : Char) (s : Str) : ∀ cell ∈ split sep s, sep ∉ cell := by
  induction s with
  | nil =>
    intro cell hcell
    simp only [split, List.mem_singleton] at hcell
    subst hcell
    simp
  | cons c cs ih =>
    intro cell hcell
    by_cases hc : c = sep
    · subst hc
      rw [split_cons_sep] at hcell
      rcases List.mem_cons.mp hcell with h | h
      · subst h
        simp
      · exact ih cell h
    · rw [split_cons_ne _ _ _ hc] at hcell
      cases hx : split sep cs with
      | nil => exact absurd hx (split_ne_nil _ _)
      | cons w ws =>
        rw [hx] at hcell ih
        rcases List.mem_cons.mp hcell with h | h
        · subst h
          intro hm
          rcases List.mem_cons.mp hm with h1 | h1
          · exact hc h1.symm
          · exact ih w (List.mem_cons_self _ _) h1
        · exact ih cell (List.mem_cons_of_mem _ h)

theorem splitN_one (sep : Char) (s : Str) : splitN sep 1 s = [s] := by
  cases s <;> simp [splitN]

theorem splitN_two_of_mem (sep : Char) (s : Str) (h : sep ∈ s) :
    ∃ a b, splitN sep 2 s = [a, b] ∧ sep ∉ a ∧ a ++ sep :: b = s := by
  induction s with
  | nil => cases h
  | cons c cs ih =>
    by_cases hc : c = sep
    · subst hc
      exact ⟨[], cs, by rw [splitN_cons_sep, splitN_one], by simp, rfl⟩
    · have hcs : sep ∈ cs := by
        rcases List.mem_cons.mp h with h1 | h1
        · exact absurd h1.symm hc
        · exact h1
      obtain ⟨a, b, h1, h2, h3⟩ := ih hcs
      refine ⟨c :: a, b, ?_, ?_, ?_⟩
      · rw [splitN_cons_ne _ _ _ _ hc, h1]
      · intro hm
        rcases List.mem_cons.mp hm with h4 | h4
        · exact hc h4.symm
        · exact h2 h4
      · rw [List.cons_append, h3]

/-- C20: for a line with a comma `readLine` returns a name without a comma and
a non-empty list of cells such that the name, a comma and the cells joined by
commas give the line back; there are at most 2 cells for `AAA` and `ZZZZ`, at
most 3 for `BBBP`, and for every other name no cell holds a comma.  For a line
without a comma `readLine` returns an error. -/
theorem readLine_spec (line : Str) :
    (',' ∈ line →
      ∃ name cells, readLine line = .ok (name, cells) ∧ ',' ∉ name ∧ cells ≠ [] ∧
        name ++ ',' :: join ",".toList cells = line ∧
        (name = "AAA".toList ∨ name = "ZZZZ".toList → cells.length ≤ 2) ∧
        (name = "BBBP".toList → cells.length ≤ 3) ∧
        (name ≠ "AAA".toList → name ≠ "ZZZZ".toList → name ≠ "BBBP".toList →
          ∀ cell ∈ cells, ',' ∉ cell)) ∧
    (',' ∉ line → readLine line = .err "Empty line".toList) := by
  refine ⟨?_, readLine_of_no_comma line⟩
  intro h
  obtain ⟨name, row, h1, h2, h3⟩ := splitN_two_of_mem ',' line h
  have hj : ",".toList = [','] := rfl
  unfold readLine
  rw [h1]
  simp only
  by_cases hA : name = "AAA".toList ∨ name = "ZZZZ".toList
  · rw [if_pos hA]
    refine ⟨name, _, rfl, h2, splitN_succ_ne_nil _ _ _, ?_, fun _ => length_splitN_le _ _ _,
      ?_, ?_⟩
    · rw [hj, join_splitN, h3]
    · intro hB
      rcases hA with hA | hA
      · rw [hA] at hB
        exact absurd hB (by decide)
      · rw [hA] at hB
        exact absurd hB (by decide)
    · intro n1 n2
      exact absurd hA (by
        rintro (e | e)
        · exact n1 e
        · exact n2 e)
  · rw [if_neg hA]
    by_cases hB : name = "BBBP".toList
    · rw [if_pos hB]
      refine ⟨name, _, rfl, h2, splitN_succ_ne_nil _ _ _, ?_, fun e => absurd e hA,
        fun _ => length_splitN_le _ _ _, fun _ _ n3 => absurd hB n3⟩
      rw [hj, join_splitN, h3]
    · rw [if_neg hB]
      refine ⟨name, _, rfl, h2, split_ne_nil _ _, ?_, fun e => absurd e hA,
        fun e => absurd e hB, fun _ _ _ => not_mem_of_mem_split _ _⟩
      rw [hj, join_split, h3]

/-- Witness of `readLine_spec` on a `BBBP` line with a comma inside its value. -/
theorem readLine_spec_witness :
    ',' ∈ "BBBP,001,lsconf,a,b".toList ∧
      readLine "BBBP,001,lsconf,a,b".toList =
        .ok ("BBBP".toList, ["001".toList, "lsconf".toList, "a,b".toList]) ∧
      ∃ name cells, readLine "BBBP,001,lsconf,a,b".toList = .ok (name, cells) ∧
        ',' ∉ name ∧ cells ≠ [] ∧
        name ++ ',' :: join ",".toList cells = "BBBP,001,lsconf,a,b".toList ∧
        (name = "AAA".toList ∨ name = "ZZZZ".toList → cells.length ≤ 2) ∧
        (name = "BBBP".toList → cells.length ≤ 3) ∧
        (name ≠ "AAA".toList → name ≠ "ZZZZ".toList → name ≠ "BBBP".toList →
          ∀ cell ∈ cells, ',' ∉ cell) :=
  ⟨by decide, by decide, (readLine_spec "BBBP,001,lsconf,a,b".toList).1 (by decide)⟩

/-! ## Reports without a host row -/

/-- The stages of a successful `NewNmon`. -/
theorem NewNmon_ok (parseTime : Str → Option Time) (data : Str) (r : Nmon)
    (h : NewNmon parseTime data = .ok r) :
    ∃ hostname snaps secs1 secs2,
      getHostname (getSections (replacePercent data)) = .ok hostname ∧
      convertSnapshots parseTime (getSections (replacePercent data)) = .ok (snaps, secs1) ∧
      convertTop secs1 = .ok secs2 ∧
      r = { Sections := (convertMessages secs2).2, Messages := (convertMessages secs2).1,
            Snapshots := snaps, Hostname := hostname } := by
  unfold NewNmon at h
  simp only at h
  split at h
  · cases h
  · cases hh : getHostname (getSections (replacePercent data)) with
    | err m => rw [hh] at h; cases h
    | panic q => rw [hh] at h; cases h
    | ok hostname =>
      rw [hh] at h
      cases hs : convertSnapshots parseTime (getSections (replacePercent data)) with
      | err m => rw [hs] at h; cases h
      | panic q => rw [hs] at h; cases h
      | ok snap =>
        rw [hs] at h
        simp only [Outcome.bind] at h
        cases ht : convertTop snap.2 with
        | err m => rw [ht] at h; cases h
        | panic q => rw [ht] at h; cases h
        | ok secs2 =>
          rw [ht] at h
          cases h
          exact ⟨hostname, snap.1, snap.2, secs2, rfl, rfl, ht, rfl⟩

/-- C14 (as stated) fails: the `AAA` section has no `host` row, the Hostname is
empty, and with the prefix `p` the effective prefix is `p.` and the series of
section `CPU` and field `a` is named `p..CPU.a`, not `p.CPU.a`. -/
theorem empty_hostname_doubles_dot :
    NewNmon refParseTime noHostRowInput = .ok noHostRowReport ∧
      noHostRowReport.Hostname = [] ∧
      effectivePfx noHostRowReport "p".toList = "p.".toList ∧
      GetAsSeries refParseFloat t2020 noHostRowReport "p".toList true =
        .ok [{ Name := "p..CPU.a".toList, Columns := timeValue,
               Points := [(1577887200000, .num (⟨1, 0⟩ : Decimal))] }] ∧
      join ".".toList ["p".toList, "CPU".toList, "a".toList] = "p.CPU.a".toList ∧
      "p..CPU.a".toList ≠ "p.CPU.a".toList :=
  ⟨by decide, rfl, by decide, by decide, by decide, by decide⟩

/-- C14 (as amended): for a Report built from a text whose `AAA` section has no
row with the key `host`, the Hostname is empty and the effective prefix of
`GetAsSeries(p, _)` is empty when `p` is empty and `p` followed by a dot
otherwise; every returned section series of a section `S` and a field `F` is
named `join(".", effectivePrefix, S, F)`, that is `.S.F` for the empty prefix
and `p..S.F` for a prefix `p`. -/
theorem no_host_prefix {F : Type} (parseTime : Str → Option Time)
    (parseFloat : Str → Option F) (now : Time) (data : Str) (r : Nmon) (aaa : Section)
    (pfx : Str) (ignoreText : Bool) (l : List (Series F))
    (hN : NewNmon parseTime data = .ok r)
    (hA : mapGet "AAA".toList (getSections (replacePercent data)) = some aaa)
    (hno : ∀ row ∈ aaa.Body, row.head? ≠ some "host".toList)
    (hl : GetAsSeries parseFloat now r pfx ignoreText = .ok l) :
    r.Hostname = [] ∧ effectivePfx r pfx = dottedPfx pfx ∧
      ∀ s ∈ l,
        (∃ e ∈ r.Sections, ∃ j fld, 0 < j ∧ e.2.Header.get? j = some fld ∧
          s.Name = join ".".toList [dottedPfx pfx, e.1, fld]) ∨
        (ignoreText = false ∧
          ∃ m ∈ r.Messages, s = messageSeries now r (dottedPfx pfx) m) := by
  obtain ⟨hostname, snaps, secs1, secs2, h1, _, _, h4⟩ := NewNmon_ok _ _ _ hN
  have hhost : r.Hostname = [] := by
    have h5 : getHostname (getSections (replacePercent data)) = .ok [] := by
      unfold getHostname
      rw [hA]
      simp only
      rw [foldl_hostStep]
      have h6 : hostValues aaa.Body = [] := by
        unfold hostValues
        rw [List.filterMap_eq_nil_iff]
        intro row hrow
        exact hostValue_eq_none row (hno row hrow)
      rw [h6]
      rfl
    rw [h5] at h1
    cases h1
    rw [h4]
  have hpfx : effectivePfx r pfx = dottedPfx pfx := by
    unfold effectivePfx dottedPfx
    rw [hhost]
    by_cases hp : pfx = []
    · rw [if_pos hp, if_pos hp]
    · rw [if_neg hp, if_neg hp, List.append_nil]
  refine ⟨hhost, hpfx, ?_⟩
  intro s hs
  rcases (mem_GetAsSeries _ _ _ _ _ _ hl s).mp hs with
    ⟨e, he, j, fld, h5, h6, _, h8⟩ | ⟨h9, m, hm, h10⟩
  · exact Or.inl ⟨e, he, j, fld, h5, h6, by rw [h8, hpfx]⟩
  · exact Or.inr ⟨h9, m, hm, by rw [h10, hpfx]⟩

/-- Witness of `no_host_prefix` on the report without a host row and the
prefix `p`. -/
theorem no_host_prefix_witness :
    NewNmon refParseTime noHostRowInput = .ok noHostRowReport ∧
      GetAsSeries refParseFloat t2020 noHostRowReport "p".toList true =
        .ok [{ Name := "p..CPU.a".toList, Columns := timeValue,
               Points := [(1577887200000, .num (⟨1, 0⟩ : Decimal))] }] ∧
      noHostRowReport.Hostname = [] ∧
      effectivePfx noHostRowReport "p".toList = dottedPfx "p".toList :=
  have h := no_host_prefix refParseTime refParseFloat t2020 noHostRowInput noHostRowReport
    { Header := ["key".toList, "value".toList], Body := [["OS".toList, "Linux".toList]] }
    "p".toList true
    [{ Name := "p..CPU.a".toList, Columns := timeValue,
       Points := [(1577887200000, .num (⟨1, 0⟩ : Decimal))] }]
    (by decide) (by decide) (by decide) (by decide)
  ⟨by decide, by decide, h.1, h.2.1⟩

/-! ## Enumeration order of the maps -/

theorem mapGet_eq_some_iff_mem {β : Type} (k : Str) (v : β) (m : List (Str × β))
    (h : (m.map Prod.fst).Nodup) : mapGet k m = some v ↔ (k, v) ∈ m := by
  induction m with
  | nil =>
    constructor
    · intro h1
      cases h1
    · intro h1
      cases h1
  | cons e rest ih =>
    obtain ⟨k1, v1⟩ := e
    rw [List.map_cons, List.nodup_cons] at h
    rw [mapGet_cons]
    by_cases hk : k1 = k
    · rw [if_pos hk]
      constructor
      · intro h1
        cases h1
        rw [hk]
        exact List.mem_cons_self _ _
      · intro h1
        rcases List.mem_cons.mp h1 with h2 | h2
        · cases h2
          rfl
        · exact absurd (List.mem_map_of_mem Prod.fst h2) (hk ▸ h.1)
    · rw [if_neg hk, ih h.2]
      constructor
      · exact fun h1 => List.mem_cons_of_mem _ h1
      · intro h1
        rcases List.mem_cons.mp h1 with h2 | h2
        · cases h2
          exact absurd rfl hk
        · exact h2

theorem mapGet_perm {β : Type} (k : Str) (m1 m2 : List (Str × β)) (hp : m1.Perm m2)
    (h : (m1.map Prod.fst).Nodup) : mapGet k m1 = mapGet k m2 := by
  have h2 : (m2.map Prod.fst).Nodup := ((hp.map Prod.fst).nodup_iff).mp h
  apply Option.ext
  intro v
  show mapGet k m1 = some v ↔ mapGet k m2 = some v
  rw [mapGet_eq_some_iff_mem k v m1 h, mapGet_eq_some_iff_mem k v m2 h2]
  exact hp.mem_iff

theorem earliest_perm (now : Time) (s1 s2 : List (Str × Time)) (hp : s1.Perm s2) :
    earliest now s1 = earliest now s2 := by
  obtain ⟨a1, a2, a3⟩ := earliest_spec now s1
  obtain ⟨b1, b2, b3⟩ := earliest_spec now s2
  have hle1 : (earliest now s1).ns ≤ (earliest now s2).ns := by
    rcases b3 with b3 | ⟨e, he, b3⟩
    · rw [b3]
      exact a1
    · rw [← b3]
      exact a2 e (hp.mem_iff.mpr he)
  have hle2 : (earliest now s2).ns ≤ (earliest now s1).ns := by
    rcases a3 with a3 | ⟨e, he, a3⟩
    · rw [a3]
      exact b1
    · rw [← a3]
      exact b2 e (hp.mem_iff.mp he)
  cases h1 : earliest now s1
  cases h2 : earliest now s2
  rw [h1, h2] at hle1 hle2
  simp only at hle1 hle2
  congr
  omega

theorem cellPoint_perm {F : Type} (parseFloat : Str → Option F) (s1 s2 : List (Str × Time))
    (hp : s1.Perm s2) (h : (s1.map Prod.fst).Nodup) (i : Nat) :
    cellPoint parseFloat s1 i = cellPoint parseFloat s2 i := by
  funext row
  unfold cellPoint snapshotOf
  cases row.head? with
  | none => rfl
  | some id =>
    cases row.get? i with
    | none => rfl
    | some cell =>
      simp only
      rw [mapGet_perm id s1 s2 hp h]

theorem fieldsClosed_perm {F : Type} (parseFloat : Str → Option F)
    (s1 s2 : List (Str × Time)) (hp : s1.Perm s2) (h : (s1.map Prod.fst).Nodup)
    (pfx name : Str) (body : List (List Str)) (i : Nat) (fields : List Str) :
    fieldsClosed parseFloat s1 pfx name body i fields =
      fieldsClosed parseFloat s2 pfx name body i fields := by
  unfold fieldsClosed columnSeries
  have hc : ∀ j, cellPoint parseFloat s1 j = cellPoint parseFloat s2 j :=
    fun j => cellPoint_perm parseFloat s1 s2 hp h j
  simp only [hc]

/-- C13 (as stated) fails: the two enumerations `A, B` and `B, A` of the same
Sections map give the two series in different orders. -/
theorem series_order_follows_enumeration :
    NewNmon refParseTime twoSectionInput = .ok twoSectionReport ∧
      twoSectionReportSwapped.Sections.Perm twoSectionReport.Sections ∧
      GetAsSeries refParseFloat t2020 twoSectionReport [] true = .ok [seriesA, seriesB] ∧
      GetAsSeries refParseFloat t2020 twoSectionReportSwapped [] true =
        .ok [seriesB, seriesA] ∧
      [seriesA, seriesB] ≠ [seriesB, seriesA] :=
  ⟨by decide, List.reverse_perm _, by decide, by decide, by decide⟩

/-- C13 (as amended): two Reports that hold the same maps in different
enumeration orders (Snapshots with one entry per key) and the same Hostname
give, for the same options and wall-clock time, the same series up to their
order: when `GetAsSeries` returns for one it returns for the other, and the
two lists are permutations of each other. -/
theorem series_perm_of_enumeration {F : Type} (parseFloat : Str → Option F) (now : Time)
    (r1 r2 : Nmon) (pfx : Str) (ignoreText : Bool) (l1 : List (Series F))
    (hsec : r1.Sections.Perm r2.Sections) (hmsg : r1.Messages.Perm r2.Messages)
    (hsnap : r1.Snapshots.Perm r2.Snapshots) (hkeys : (r1.Snapshots.map Prod.fst).Nodup)
    (hhost : r1.Hostname = r2.Hostname)
    (h : GetAsSeries parseFloat now r1 pfx ignoreText = .ok l1) :
    ∃ l2, GetAsSeries parseFloat now r2 pfx ignoreText = .ok l2 ∧ l1.Perm l2 := by
  obtain ⟨hfit, hl⟩ := (GetAsSeries_ok_iff _ _ _ _ _ _).mp h
  have hfit2 : RowsFit r2.Sections := fun e he => hfit e (hsec.mem_iff.mpr he)
  have hpfx : effectivePfx r1 pfx = effectivePfx r2 pfx := by
    unfold effectivePfx
    rw [hhost]
  refine ⟨_, (GetAsSeries_ok_iff _ _ _ _ _ _).mpr ⟨hfit2, rfl⟩, ?_⟩
  rw [hl]
  apply List.Perm.append
  · have hf : (fun e : Str × Section => fieldsClosed parseFloat r1.Snapshots
          (effectivePfx r1 pfx) e.1 e.2.Body 0 e.2.Header) =
        (fun e : Str × Section => fieldsClosed parseFloat r2.Snapshots
          (effectivePfx r2 pfx) e.1 e.2.Body 0 e.2.Header) := by
      funext e
      rw [hpfx, fieldsClosed_perm parseFloat _ _ hsnap hkeys]
    rw [hf]
    exact List.Perm.flatMap_right _ hsec
  · cases ignoreText
    · simp only [Bool.false_eq_true, if_false]
      unfold getMessagesAsSeries
      rw [hpfx, earliest_perm now _ _ hsnap]
      exact hmsg.map _
    · simp only [if_true]
      exact List.Perm.refl _

/-- Witness of `series_perm_of_enumeration` on the two enumerations of the
report with two sections. -/
theorem series_perm_of_enumeration_witness :
    twoSectionReport.Sections.Perm twoSectionReportSwapped.Sections ∧
      GetAsSeries refParseFloat t2020 twoSectionReport [] true = .ok [seriesA, seriesB] ∧
      ∃ l2, GetAsSeries refParseFloat t2020 twoSectionReportSwapped [] true = .ok l2 ∧
        [seriesA, seriesB].Perm l2 :=
  ⟨(List.reverse_perm _).symm, by decide,
    series_perm_of_enumeration refParseFloat t2020 twoSectionReport twoSectionReportSwapped
      [] true [seriesA, seriesB] (List.reverse_perm _).symm (List.Perm.refl _)
      (List.Perm.refl _) (by decide) rfl (by decide)⟩

/-! ## The section builder -/

theorem sectionOf_append (n : Str) (first : List Str) (rest : List (List Str))
    (row : List Str) :
    sectionOf n ((first :: rest) ++ [row]) =
      (sectionOf n (first :: rest)).map (fun s => { s with Body := s.Body ++ [row] }) := by
  show sectionOf n (first :: (rest ++ [row])) = _
  unfold sectionOf
  simp only
  split
  · rfl
  · split
    · rfl
    · split <;> rfl

theorem sectionOf_singleton (n : Str) (row : List Str) :
    sectionOf n [row] = some (firstSection n row) := by
  unfold sectionOf firstSection getHeader
  simp only
  split
  · rfl
  · split
    · rfl
    · split <;> rfl

theorem sectionOf_eq_none (n : Str) (rows : List (List Str)) (h : sectionOf n rows = none) :
    rows = [] := by
  cases rows with
  | nil => rfl
  | cons first rest =>
    unfold sectionOf at h
    simp only at h
    split at h
    · cases h
    · split at h
      · cases h
      · split at h <;> cases h

theorem rowsOf_append (n : Str) (parsed : List (Str × List Str)) (x : Str × List Str) :
    rowsOf n (parsed ++ [x]) = rowsOf n parsed ++ (if x.1 = n then [x.2] else []) := by
  unfold rowsOf
  rw [List.filter_append, List.map_append]
  by_cases h : x.1 = n
  · rw [if_pos h, List.filter_cons_of_pos (by simpa using h)]
    rfl
  · rw [if_neg h, List.filter_cons_of_neg (by simpa using h)]
    rfl

theorem addLine_new (sec : List (Str × Section)) (line name : Str) (row : List Str)
    (hr : readLine line = .ok (name, row)) (hg : mapGet name sec = none) :
    addLine sec line = sec ++ [(name, firstSection name row)] := by
  unfold addLine firstSection
  rw [hr]
  simp only [hg]
  cases hh : getHeader name row with
  | mk header body => cases body <;> rfl

theorem addLine_old (sec : List (Str × Section)) (line name : Str) (row : List Str)
    (old : Section) (hr : readLine line = .ok (name, row)) (hg : mapGet name sec = some old) :
    addLine sec line = appendRow name row sec := by
  unfold addLine
  rw [hr]
  simp only [hg]

theorem addLine_rejected (sec : List (Str × Section)) (line : Str)
    (hr : parsedLine line = []) : addLine sec line = sec := by
  unfold parsedLine at hr
  unfold addLine
  cases hx : readLine line with
  | ok x => rw [hx] at hr; cases hr
  | err m => rfl
  | panic q => rfl

theorem parsedLines_append (lines : List Str) (line : Str) :
    parsedLines (lines ++ [line]) = parsedLines lines ++ parsedLine line := by
  unfold parsedLines parsedLine
  rw [List.filterMap_append, List.filterMap_cons, List.filterMap_nil]
  cases readLine line <;> rfl

/-- One pass of the loop of `getSections` keeps its invariant. -/
theorem addLine_spec (sec : List (Str × Section)) (parsed : List (Str × List Str))
    (line : Str)
    (h1 : ∀ n, mapGet n sec = sectionOf n (rowsOf n parsed))
    (h2 : (sec.map Prod.fst).Nodup) :
    (∀ n, mapGet n (addLine sec line) = sectionOf n (rowsOf n (parsed ++ parsedLine line))) ∧
      ((addLine sec line).map Prod.fst).Nodup := by
  cases hr : readLine line with
  | err m =>
    have hp : parsedLine line = [] := by unfold parsedLine; rw [hr]
    rw [addLine_rejected _ _ hp, hp, List.append_nil]
    exact ⟨h1, h2⟩
  | panic q =>
    have hp : parsedLine line = [] := by unfold parsedLine; rw [hr]
    rw [addLine_rejected _ _ hp, hp, List.append_nil]
    exact ⟨h1, h2⟩
  | ok x =>
    obtain ⟨name, row⟩ := x
    have hp : parsedLine line = [(name, row)] := by unfold parsedLine; rw [hr]
    rw [hp]
    cases hg : mapGet name sec with
    | none =>
      rw [addLine_new _ _ _ _ hr hg]
      have hnil : rowsOf name parsed = [] := by
        apply sectionOf_eq_none name
        rw [← h1, hg]
      constructor
      · intro n
        rw [mapGet_append, mapGet_cons, rowsOf_append]
        by_cases hn : name = n
        · subst hn
          rw [if_pos rfl, if_pos rfl, hg, hnil, List.nil_append, sectionOf_singleton]
          rfl
        · rw [if_neg hn, if_neg hn, List.append_nil, ← h1]
          cases mapGet n sec <;> rfl
      · rw [List.map_append]
        refine List.Nodup.append h2 (List.nodup_singleton _) ?_
        intro x hx hx1
        simp only [List.map_cons, List.map_nil, List.mem_singleton] at hx1
        obtain ⟨e, he, hxe⟩ := List.mem_map.mp hx
        exact (mapGet_eq_none name _).mp hg e he (hxe.trans hx1)
    | some old =>
      rw [addLine_old _ _ _ _ old hr hg]
      unfold appendRow
      refine ⟨?_, by rw [mapModify_keys]; exact h2⟩
      intro n
      rw [rowsOf_append]
      by_cases hn : name = n
      · subst hn
        rw [if_pos rfl, mapGet_mapModify, h1]
        cases hrows : rowsOf name parsed with
        | nil =>
          have h3 := h1 name
          rw [hrows, hg] at h3
          cases h3
        | cons first rest => rw [sectionOf_append]
      · rw [if_neg hn, List.append_nil, mapGet_mapModify_ne _ _ _ _ hn]
        exact h1 n

/-- The invariant of the loop of `getSections`. -/
theorem foldl_addLine_spec (lines : List Str) :
    (∀ n, mapGet n (lines.foldl addLine []) = sectionOf n (rowsOf n (parsedLines lines))) ∧
      ((lines.foldl addLine []).map Prod.fst).Nodup := by
  induction lines using List.reverseRecOn with
  | nil => exact ⟨fun n => rfl, List.nodup_nil⟩
  | append_singleton lines line ih =>
    rw [List.foldl_append, List.foldl_cons, List.foldl_nil, parsedLines_append]
    exact addLine_spec _ _ line ih.1 ih.2

theorem parsedLines_filter (lines : List Str) :
    parsedLines lines = parsedLines (lines.filter (fun line => decide (',' ∈ line))) := by
  induction lines with
  | nil => rfl
  | cons line rest ih =>
    by_cases h : ',' ∈ line
    · rw [List.filter_cons_of_pos (by simpa using h)]
      unfold parsedLines at ih ⊢
      rw [List.filterMap_cons, List.filterMap_cons, ih]
    · rw [List.filter_cons_of_neg (by simpa using h), ← ih]
      unfold parsedLines
      rw [List.filterMap_cons, readLine_of_no_comma line h]

/-- C15: `getSections` holds exactly one section per name that occurs on an
accepted line, and only the comma-containing lines are accepted.  For a name
other than `AAA`, `BBBP` and `ZZZZ` the header is the cells of its first line
and the body the cells of its later lines in input order; for `AAA`, `BBBP`
and `ZZZZ` the header is the fixed one and the body holds the cells of all its
lines in input order.  A name without an accepted line has no section. -/
theorem getSections_spec (data : Str) :
    (∀ n, mapGet n (getSections data) =
      sectionOf n (rowsOf n (parsedLines (split newline data)))) ∧
      ((getSections data).map Prod.fst).Nodup ∧
      parsedLines (split newline data) =
        parsedLines ((split newline data).filter (fun line => decide (',' ∈ line))) :=
  ⟨(foldl_addLine_spec _).1, (foldl_addLine_spec _).2, parsedLines_filter _⟩

/-- The sections of `builderInput`, evaluated. -/
theorem getSections_builderInput :
    getSections builderInput = builderSections ∧
      rowsOf "CPU".toList (parsedLines (split newline builderInput)) = builderCpuRows :=
  ⟨by decide, by decide⟩

/-! ## The message aggregator -/

theorem readMessage_mapAppend (k k1 s : Str) (m : List (Str × Str)) :
    readMessage k (mapAppend k1 s m) =
      if k1 = k then readMessage k m ++ s else readMessage k m := by
  unfold readMessage mapAppend
  cases hg : mapGet k1 m with
  | none =>
    simp only
    rw [mapGet_mapSet]
    by_cases h : k1 = k
    · rw [if_pos h, if_pos h, ← h, hg]
      rfl
    · rw [if_neg h, if_neg h]
  | some old =>
    simp only
    rw [mapGet_mapSet]
    by_cases h : k1 = k
    · rw [if_pos h, if_pos h, ← h, hg]
      rfl
    · rw [if_neg h, if_neg h]

theorem mapAppend_keys (k1 s : Str) (m : List (Str × Str)) :
    ∀ x ∈ (mapAppend k1 s m).map Prod.fst, x ∈ m.map Prod.fst ∨ x = k1 := by
  intro x hx
  unfold mapAppend mapSet at hx
  cases hg : mapGet k1 m with
  | none =>
    rw [hg] at hx
    simp only [List.map_append, List.mem_append, List.map_cons, List.map_nil,
      List.mem_singleton] at hx
    exact hx
  | some old =>
    rw [hg] at hx
    simp only at hx
    rw [mapModify_keys] at hx
    exact Or.inl hx

theorem readMessage_foldl_aaaStep (k : Str) (rows : List (List Str)) (m : List (Str × Str)) :
    readMessage k (rows.foldl aaaStep m) =
      readMessage k m ++ (if "AAA".toList = k then aaaText rows else []) := by
  induction rows generalizing m with
  | nil =>
    by_cases h : "AAA".toList = k
    · rw [if_pos h]
      exact (List.append_nil _).symm
    · rw [if_neg h]
      exact (List.append_nil _).symm
  | cons row rows ih =>
    rw [List.foldl_cons, ih]
    unfold aaaStep
    rw [readMessage_mapAppend]
    by_cases h : "AAA".toList = k
    · simp only [if_pos h]
      unfold aaaText
      rw [List.map_cons, List.flatten_cons, List.append_assoc]
    · simp only [if_neg h]

theorem bbbpStep_eq (k : Str) (row : List Str) (m : List (Str × Str)) :
    readMessage k (bbbpStep m row) = readMessage k m ++ ((bbbpLine k row).getD []) := by
  unfold bbbpStep bbbpLine
  match row with
  | [] => exact (List.append_nil _).symm
  | [_] => exact (List.append_nil _).symm
  | [_, _] => exact (List.append_nil _).symm
  | _ :: source :: value :: _ =>
    show readMessage k (mapAppend ("BBBP_".toList ++ source) (value ++ [newline]) m) =
      readMessage k m ++
        ((if "BBBP_".toList ++ source = k then some (value ++ [newline]) else none).getD [])
    rw [readMessage_mapAppend]
    by_cases h : "BBBP_".toList ++ source = k
    · rw [if_pos h, if_pos h]
      rfl
    · rw [if_neg h, if_neg h]
      exact (List.append_nil _).symm

theorem readMessage_foldl_bbbpStep (k : Str) (rows : List (List Str))
    (m : List (Str × Str)) :
    readMessage k (rows.foldl bbbpStep m) = readMessage k m ++ bbbpText k rows := by
  induction rows generalizing m with
  | nil => exact (List.append_nil _).symm
  | cons row rows ih =>
    rw [List.foldl_cons, ih, bbbpStep_eq]
    unfold bbbpText
    rw [List.filterMap_cons, List.append_assoc]
    cases bbbpLine k row <;> rfl

/-- The text one section adds to the message `k`. -/
theorem readMessage_messageStep (k : Str) (e : Str × Section) (m : List (Str × Str)) :
    readMessage k (messageStep m e) =
      readMessage k m ++
        (if e.1 = "AAA".toList then (if "AAA".toList = k then aaaText e.2.Body else [])
         else if e.1 = "BBBP".toList then bbbpText k e.2.Body else []) := by
  unfold messageStep
  by_cases hA : e.1 = "AAA".toList
  · rw [if_pos hA, if_pos hA, readMessage_foldl_aaaStep]
  · rw [if_neg hA, if_neg hA]
    by_cases hB : e.1 = "BBBP".toList
    · rw [if_pos hB, if_pos hB, readMessage_foldl_bbbpStep]
    · rw [if_neg hB, if_neg hB]
      exact (List.append_nil _).symm

theorem readMessage_foldl_messageStep (k : Str) (secs : List (Str × Section))
    (m : List (Str × Str)) :
    readMessage k (secs.foldl messageStep m) =
      readMessage k m ++
        (secs.flatMap (fun e => if e.1 = "AAA".toList then
            (if "AAA".toList = k then aaaText e.2.Body else [])
          else if e.1 = "BBBP".toList then bbbpText k e.2.Body else [])) := by
  induction secs generalizing m with
  | nil => exact (List.append_nil _).symm
  | cons e rest ih =>
    rw [List.foldl_cons, ih, readMessage_messageStep, List.flatMap_cons, List.append_assoc]

theorem flatMap_key_of_nodup (k : Str) (f : Section → Str) (secs : List (Str × Section))
    (h : (secs.map Prod.fst).Nodup) :
    secs.flatMap (fun e => if e.1 = k then f e.2 else []) =
      match mapGet k secs with
      | some s => f s
      | none => [] := by
  induction secs with
  | nil => rfl
  | cons e rest ih =>
    obtain ⟨k1, v⟩ := e
    rw [List.map_cons, List.nodup_cons] at h
    rw [List.flatMap_cons, mapGet_cons]
    by_cases hk : k1 = k
    · rw [if_pos hk]
      simp only [hk, if_true]
      have hrest : rest.flatMap (fun e => if e.1 = k then f e.2 else []) = [] := by
        rw [ih h.2]
        have hnone : mapGet k rest = none := by
          rw [mapGet_eq_none]
          intro x hx hxk
          have hmem : x.1 ∈ rest.map Prod.fst := List.mem_map_of_mem Prod.fst hx
          rw [hxk, ← hk] at hmem
          exact h.1 hmem
        rw [hnone]
      rw [hrest, List.append_nil]
    · rw [if_neg hk]
      simp only [hk, if_false, List.nil_append]
      exact ih h.2

theorem foldl_message_keys {α : Type} (step : List (Str × Str) → α → List (Str × Str))
    (hstep : ∀ m a, ∀ x ∈ (step m a).map Prod.fst, x ∈ m.map Prod.fst ∨ MessageKey x)
    (l : List α) (m : List (Str × Str)) :
    ∀ x ∈ (l.foldl step m).map Prod.fst, x ∈ m.map Prod.fst ∨ MessageKey x := by
  induction l generalizing m with
  | nil => exact fun x hx => Or.inl hx
  | cons a rest ih =>
    intro x hx
    rw [List.foldl_cons] at hx
    rcases ih (step m a) x hx with h1 | h1
    · exact hstep m a x h1
    · exact Or.inr h1

theorem aaaStep_keys (m : List (Str × Str)) (row : List Str) :
    ∀ x ∈ (aaaStep m row).map Prod.fst, x ∈ m.map Prod.fst ∨ MessageKey x := by
  intro x hx
  rcases mapAppend_keys _ _ _ x hx with h | h
  · exact Or.inl h
  · exact Or.inr (Or.inl h)

theorem bbbpStep_keys (m : List (Str × Str)) (row : List Str) :
    ∀ x ∈ (bbbpStep m row).map Prod.fst, x ∈ m.map Prod.fst ∨ MessageKey x := by
  intro x hx
  unfold bbbpStep at hx
  match row, hx with
  | [], hx => exact Or.inl hx
  | [_], hx => exact Or.inl hx
  | [_, _], hx => exact Or.inl hx
  | _ :: source :: value :: _, hx =>
    rcases mapAppend_keys _ _ _ x hx with h | h
    · exact Or.inl h
    · exact Or.inr (Or.inr ⟨source, h⟩)

theorem messageStep_keys (m : List (Str × Str)) (e : Str × Section) :
    ∀ x ∈ (messageStep m e).map Prod.fst, x ∈ m.map Prod.fst ∨ MessageKey x := by
  unfold messageStep
  split
  · exact foldl_message_keys aaaStep aaaStep_keys _ _
  · split
    · exact foldl_message_keys bbbpStep bbbpStep_keys _ _
    · exact fun x hx => Or.inl hx

theorem bbbpLine_AAA (row : List Str) : bbbpLine "AAA".toList row = none := by
  unfold bbbpLine
  match row with
  | [] => rfl
  | [_] => rfl
  | [_, _] => rfl
  | _ :: source :: value :: _ =>
    show (if "BBBP_".toList ++ source = "AAA".toList then some (value ++ [newline])
      else none) = none
    rw [if_neg]
    intro h
    have h1 := congrArg List.head? h
    simp at h1

theorem bbbpText_AAA (rows : List (List Str)) : bbbpText "AAA".toList rows = [] := by
  unfold bbbpText
  have h : rows.filterMap (bbbpLine "AAA".toList) = [] := by
    rw [List.filterMap_eq_nil_iff]
    exact fun row _ => bbbpLine_AAA row
  rw [h]
  rfl

/-- C16: for a section set (one entry per name) `convertMessages` returns
messages such that `messages["AAA"]` is the concatenation, in row order, of
each `AAA` row joined by `": "` and followed by a newline; for every source
`s`, `messages["BBBP_" + s]` is the concatenation, in row order, of the third
cell and a newline over the `BBBP` rows with at least three cells and second
cell `s` (shorter rows add nothing); every message name is `AAA` or `BBBP_`
followed by a source; and the sections returned are the given ones without
`AAA` and `BBBP`. -/
theorem convertMessages_spec (secs : List (Str × Section))
    (h : (secs.map Prod.fst).Nodup) :
    readMessage "AAA".toList (convertMessages secs).1 =
        aaaText (sectionRows "AAA".toList secs) ∧
      (∀ s, readMessage ("BBBP_".toList ++ s) (convertMessages secs).1 =
        bbbpText ("BBBP_".toList ++ s) (sectionRows "BBBP".toList secs)) ∧
      (∀ s x source value rest, bbbpLine ("BBBP_".toList ++ s) (x :: source :: value :: rest) =
        if source = s then some (value ++ [newline]) else none) ∧
      (∀ k row, row.length < 3 → bbbpLine k row = none) ∧
      (∀ k, (∃ v, mapGet k (convertMessages secs).1 = some v) → MessageKey k) ∧
      (∀ e, e ∈ (convertMessages secs).2 ↔
        e ∈ secs ∧ e.1 ≠ "AAA".toList ∧ e.1 ≠ "BBBP".toList) := by
  have hread : ∀ k, readMessage k (convertMessages secs).1 =
      secs.flatMap (fun e => if e.1 = "AAA".toList then
          (if "AAA".toList = k then aaaText e.2.Body else [])
        else if e.1 = "BBBP".toList then bbbpText k e.2.Body else []) := by
    intro k
    show readMessage k (secs.foldl messageStep []) = _
    rw [readMessage_foldl_messageStep]
    rfl
  refine ⟨?_, ?_, ?_, ?_, ?_, ?_⟩
  · rw [hread]
    have hf : (fun e : Str × Section => if e.1 = "AAA".toList then
          (if "AAA".toList = "AAA".toList then aaaText e.2.Body else [])
        else if e.1 = "BBBP".toList then bbbpText "AAA".toList e.2.Body else []) =
        (fun e : Str × Section => if e.1 = "AAA".toList then aaaText e.2.Body else []) := by
      funext e
      by_cases hA : e.1 = "AAA".toList
      · rw [if_pos hA, if_pos hA, if_pos rfl]
      · rw [if_neg hA, if_neg hA, bbbpText_AAA]
        split <;> rfl
    rw [hf, flatMap_key_of_nodup "AAA".toList (fun s => aaaText s.Body) secs h]
    unfold sectionRows
    cases mapGet "AAA".toList secs <;> rfl
  · intro s
    rw [hread]
    have hne : "AAA".toList ≠ "BBBP_".toList ++ s := by
      intro hcon
      have h1 := congrArg List.head? hcon
      simp at h1
    have hf : (fun e : Str × Section => if e.1 = "AAA".toList then
          (if "AAA".toList = "BBBP_".toList ++ s then aaaText e.2.Body else [])
        else if e.1 = "BBBP".toList then bbbpText ("BBBP_".toList ++ s) e.2.Body else []) =
        (fun e : Str × Section =>
          if e.1 = "BBBP".toList then bbbpText ("BBBP_".toList ++ s) e.2.Body else []) := by
      funext e
      by_cases hA : e.1 = "AAA".toList
      · have hB : e.1 ≠ "BBBP".toList := by
          rw [hA]
          decide
        rw [if_pos hA, if_neg hne, if_neg hB]
      · rw [if_neg hA]
    rw [hf, flatMap_key_of_nodup "BBBP".toList
      (fun sec => bbbpText ("BBBP_".toList ++ s) sec.Body) secs h]
    unfold sectionRows
    cases mapGet "BBBP".toList secs <;> rfl
  · intro s x source value rest
    show (if "BBBP_".toList ++ source = "BBBP_".toList ++ s then some (value ++ [newline])
      else none) = _
    by_cases hs : source = s
    · rw [if_pos hs, if_pos (by rw [hs])]
    · rw [if_neg hs, if_neg (fun e => hs (List.append_cancel_left e))]
  · intro k row hlen
    unfold bbbpLine
    match row, hlen with
    | [], _ => rfl
    | [_], _ => rfl
    | [_, _], _ => rfl
    | _ :: _ :: _ :: _, hlen =>
      simp only [List.length_cons] at hlen
      omega
  · rintro k ⟨v, hv⟩
    obtain ⟨e, he, hk⟩ := (mapGet_exists_iff k _).mp ⟨v, hv⟩
    have hkeys := foldl_message_keys messageStep messageStep_keys secs [] e.1
      (List.mem_map_of_mem Prod.fst he)
    rcases hkeys with h1 | h1
    · cases h1
    · rw [← hk]
      exact h1
  · intro e
    show e ∈ mapDelete "BBBP".toList (mapDelete "AAA".toList secs) ↔ _
    rw [mem_mapDelete, mem_mapDelete]
    constructor
    · rintro ⟨⟨h1, h2⟩, h3⟩
      exact ⟨h1, h2, h3⟩
    · rintro ⟨h1, h2, h3⟩
      exact ⟨⟨h1, h2⟩, h3⟩

/-- Witness of `convertMessages_spec`: the messages of `messageSections`. -/
theorem convertMessages_spec_witness :
    (messageSections.map Prod.fst).Nodup ∧
      (convertMessages messageSections).1 =
        [("AAA".toList, "host: h".toList ++ [newline] ++ "OS: Linux".toList ++ [newline]),
         ("BBBP_lsconf".toList, "line one".toList ++ [newline] ++ "line two".toList ++ [newline]),
         ("BBBP_oslevel".toList, "7.2".toList ++ [newline])] ∧
      readMessage "AAA".toList (convertMessages messageSections).1 =
        aaaText (sectionRows "AAA".toList messageSections) :=
  ⟨by decide, by decide, (convertMessages_spec messageSections (by decide)).1⟩

/-! ## Sanitization -/

theorem replacePercent_clean (d : Str) : Clean (replacePercent d) := by
  unfold Clean
  induction d with
  | nil => simp [replacePercent]
  | cons c cs ih =>
    unfold replacePercent
    by_cases h : c = '%'
    · rw [if_pos h]
      intro hm
      rcases List.mem_append.mp hm with h1 | h1
      · exact absurd h1 (by decide)
      · exact ih h1
    · rw [if_neg h]
      intro hm
      rcases List.mem_cons.mp hm with h1 | h1
      · exact h h1.symm
      · exact ih h1

theorem replacePercent_of_clean (d : Str) (h : Clean d) : replacePercent d = d := by
  unfold Clean at h
  induction d with
  | nil => rfl
  | cons c cs ih =>
    have hc : c ≠ '%' := fun e => h (e ▸ List.mem_cons_self _ _)
    unfold replacePercent
    rw [if_neg hc, ih (fun e => h (List.mem_cons_of_mem _ e))]

theorem Clean_append (a b : Str) (ha : Clean a) (hb : Clean b) : Clean (a ++ b) := by
  unfold Clean at *
  intro h
  rcases List.mem_append.mp h with h1 | h1
  · exact ha h1
  · exact hb h1

theorem Clean_of_subset (a b : Str) (h : ∀ c ∈ a, c ∈ b) (hb : Clean b) : Clean a :=
  fun hm => hb (h _ hm)

theorem mem_of_mem_splitN (sep : Char) (n : Nat) (s : Str) :
    ∀ cell ∈ splitN sep n s, ∀ c ∈ cell, c ∈ s := by
  induction s generalizing n with
  | nil =>
    intro cell hcell c hc
    match n, hcell with
    | 0, hcell => simp [splitN] at hcell
    | 1, hcell =>
      rw [splitN_one, List.mem_singleton] at hcell
      rw [hcell] at hc
      exact hc
    | m + 2, hcell =>
      simp only [splitN, List.mem_singleton] at hcell
      rw [hcell] at hc
      exact hc
  | cons x xs ih =>
    intro cell hcell c hc
    match n, hcell with
    | 0, hcell => simp [splitN] at hcell
    | 1, hcell =>
      rw [splitN_one, List.mem_singleton] at hcell
      rw [hcell] at hc
      exact hc
    | m + 2, hcell =>
      by_cases hx : x = sep
      · subst hx
        rw [splitN_cons_sep] at hcell
        rcases List.mem_cons.mp hcell with h1 | h1
        · rw [h1] at hc
          cases hc
        · exact List.mem_cons_of_mem _ (ih (m + 1) cell h1 c hc)
      · rw [splitN_cons_ne _ _ _ _ hx] at hcell
        cases hs : splitN sep (m + 2) xs with
        | nil =>
          rw [hs] at hcell
          simp only [List.mem_singleton] at hcell
          rw [hcell] at hc
          simp only [List.mem_singleton] at hc
          rw [hc]
          exact List.mem_cons_self _ _
        | cons w ws =>
          rw [hs] at hcell
          simp only at hcell
          rcases List.mem_cons.mp hcell with h1 | h1
          · rw [h1] at hc
            rcases List.mem_cons.mp hc with h2 | h2
            · rw [h2]
              exact List.mem_cons_self _ _
            · exact List.mem_cons_of_mem _
                (ih (m + 2) w (by rw [hs]; exact List.mem_cons_self _ _) c h2)
          · exact List.mem_cons_of_mem _
              (ih (m + 2) cell (by rw [hs]; exact List.mem_cons_of_mem _ h1) c hc)

theorem readLine_clean (line name : Str) (cells : List Str) (h : Clean line)
    (hr : readLine line = .ok (name, cells)) :
    Clean name ∧ ∀ cell ∈ cells, Clean cell := by
  by_cases hc : ',' ∈ line
  · obtain ⟨a, b, h1, _, h3⟩ := splitN_two_of_mem ',' line hc
    have ha : Clean a := Clean_of_subset a line
      (fun c hc1 => by rw [← h3]; exact List.mem_append_left _ hc1) h
    have hb : Clean b := Clean_of_subset b line
      (fun c hc1 => by
        rw [← h3]
        exact List.mem_append_right _ (List.mem_cons_of_mem _ hc1)) h
    unfold readLine at hr
    rw [h1] at hr
    simp only at hr
    split at hr
    · cases hr
      exact ⟨ha, fun cell hcell => Clean_of_subset cell b (mem_of_mem_splitN _ _ _ cell hcell) hb⟩
    · split at hr
      · cases hr
        exact ⟨ha, fun cell hcell =>
          Clean_of_subset cell b (mem_of_mem_splitN _ _ _ cell hcell) hb⟩
      · cases hr
        exact ⟨ha, fun cell hcell =>
          Clean_of_subset cell b (mem_of_mem_split _ _ cell hcell) hb⟩
  · rw [readLine_of_no_comma line hc] at hr
    cases hr

theorem mapGet_mem {β : Type} (k : Str) (v : β) (m : List (Str × β))
    (h : mapGet k m = some v) : (k, v) ∈ m := by
  induction m with
  | nil => cases h
  | cons e rest ih =>
    obtain ⟨k1, v1⟩ := e
    rw [mapGet_cons] at h
    by_cases hk : k1 = k
    · rw [if_pos hk] at h
      cases h
      rw [hk]
      exact List.mem_cons_self _ _
    · rw [if_neg hk] at h
      exact List.mem_cons_of_mem _ (ih h)

theorem mem_mapModify {β : Type} (k : Str) (f : β → β) (m : List (Str × β))
    (e : Str × β) (h : e ∈ mapModify k f m) :
    e ∈ m ∨ ∃ v, (e.1, v) ∈ m ∧ e.2 = f v := by
  induction m with
  | nil => cases h
  | cons x rest ih =>
    obtain ⟨k1, v1⟩ := x
    rw [mapModify_cons] at h
    by_cases hk : k1 = k
    · rw [if_pos hk] at h
      rcases List.mem_cons.mp h with h1 | h1
      · rw [h1]
        exact Or.inr ⟨v1, List.mem_cons_self _ _, rfl⟩
      · exact Or.inl (List.mem_cons_of_mem _ h1)
    · rw [if_neg hk] at h
      rcases List.mem_cons.mp h with h1 | h1
      · rw [h1]
        exact Or.inl (List.mem_cons_self _ _)
      · rcases ih h1 with h2 | ⟨v, h2, h3⟩
        · exact Or.inl (List.mem_cons_of_mem _ h2)
        · exact Or.inr ⟨v, List.mem_cons_of_mem _ h2, h3⟩

theorem CleanSections_mapModify (k : Str) (f : Section → Section)
    (secs : List (Str × Section)) (h : CleanSections secs)
    (hf : ∀ s, CleanSection s → CleanSection (f s)) : CleanSections (mapModify k f secs) := by
  intro e he
  rcases mem_mapModify k f secs e he with h1 | ⟨v, h1, h2⟩
  · exact h e h1
  · exact ⟨(h _ h1).1, by rw [h2]; exact hf v (h _ h1).2⟩

theorem CleanSections_append (a b : List (Str × Section)) (ha : CleanSections a)
    (hb : CleanSections b) : CleanSections (a ++ b) := by
  intro e he
  rcases List.mem_append.mp he with h1 | h1
  · exact ha e h1
  · exact hb e h1

theorem CleanSection_appendRow (s : Section) (row : List Str) (hs : CleanSection s)
    (hrow : ∀ cell ∈ row, Clean cell) :
    CleanSection { s with Body := s.Body ++ [row] } := by
  refine ⟨hs.1, ?_⟩
  intro r hr
  rcases List.mem_append.mp hr with h1 | h1
  · exact hs.2 r h1
  · rw [List.mem_singleton.mp h1]
    exact hrow

theorem CleanSection_firstSection (name : Str) (row : List Str)
    (hrow : ∀ cell ∈ row, Clean cell) : CleanSection (firstSection name row) := by
  have hbody : ∀ r ∈ [row], ∀ cell ∈ r, Clean cell := by
    intro r hr
    rw [List.mem_singleton.mp hr]
    exact hrow
  unfold firstSection getHeader
  split
  · rename_i header body hh
    split at hh
    · cases hh
      exact ⟨by
          show ∀ f ∈ ["key".toList, "value".toList], '%' ∉ f
          decide, hbody⟩
    · split at hh
      · cases hh
        exact ⟨by
          show ∀ f ∈ ["line".toList, "source".toList, "value".toList], '%' ∉ f
          decide, hbody⟩
      · split at hh
        · cases hh
          exact ⟨by
          show ∀ f ∈ ["snapshot".toList, "time".toList], '%' ∉ f
          decide, hbody⟩
        · cases hh
  · rename_i header hh
    split at hh
    · cases hh
    · split at hh
      · cases hh
      · split at hh
        · cases hh
        · cases hh
          exact ⟨hrow, fun r hr => by cases hr⟩

theorem CleanSections_addLine (sec : List (Str × Section)) (line : Str)
    (h : CleanSections sec) (hl : Clean line) : CleanSections (addLine sec line) := by
  cases hr : readLine line with
  | err m => rw [addLine_rejected _ _ (by unfold parsedLine; rw [hr])]; exact h
  | panic q => rw [addLine_rejected _ _ (by unfold parsedLine; rw [hr])]; exact h
  | ok x =>
    obtain ⟨name, row⟩ := x
    obtain ⟨hn, hrow⟩ := readLine_clean line name row hl hr
    cases hg : mapGet name sec with
    | none =>
      rw [addLine_new _ _ _ _ hr hg]
      apply CleanSections_append _ _ h
      intro e he
      rw [List.mem_singleton.mp he]
      exact ⟨hn, CleanSection_firstSection name row hrow⟩
    | some old =>
      rw [addLine_old _ _ _ _ old hr hg]
      exact CleanSections_mapModify _ _ _ h (fun s hs => CleanSection_appendRow s row hs hrow)

theorem CleanSections_getSections (data : Str) (h : Clean data) :
    CleanSections (getSections data) := by
  unfold getSections
  have hlines : ∀ line ∈ split newline data, Clean line :=
    fun line hline => Clean_of_subset line data (mem_of_mem_split _ _ line hline) h
  generalize split newline data = lines at hlines
  have hgen : ∀ sec, CleanSections sec → CleanSections (lines.foldl addLine sec) := by
    induction lines with
    | nil => exact fun sec hsec => hsec
    | cons line rest ih =>
      intro sec hsec
      rw [List.foldl_cons]
      exact ih (fun l hl => hlines l (List.mem_cons_of_mem _ hl)) _
        (CleanSections_addLine sec line hsec (hlines line (List.mem_cons_self _ _)))
  exact hgen [] (fun e he => by cases he)

theorem CleanSection_of_mapGet (k : Str) (s : Section) (secs : List (Str × Section))
    (h : CleanSections secs) (hg : mapGet k secs = some s) : CleanSection s :=
  (h _ (mapGet_mem k s secs hg)).2

theorem Clean_getHostname (secs : List (Str × Section)) (hostname : Str)
    (h : CleanSections secs) (hg : getHostname secs = .ok hostname) : Clean hostname := by
  unfold getHostname at hg
  split at hg
  · cases hg
  · rename_i aaa haaa
    cases hg
    have hbody := (CleanSection_of_mapGet _ _ _ h haaa).2
    have hgen : ∀ (rows : List (List Str)) (acc : Str), Clean acc →
        (∀ row ∈ rows, ∀ cell ∈ row, Clean cell) → Clean (rows.foldl hostStep acc) := by
      intro rows
      induction rows with
      | nil => exact fun acc hacc _ => hacc
      | cons row rest ih =>
        intro acc hacc hrows
        rw [List.foldl_cons]
        apply ih _ _ (fun r hr => hrows r (List.mem_cons_of_mem _ hr))
        rw [hostStep_eq]
        cases hv : hostValue row with
        | none => exact hacc
        | some v =>
          have hmem : v ∈ row := by
            unfold hostValue at hv
            match row, hv with
            | k :: w :: _, hv =>
              have hv1 : (if k = "host".toList then some w else none) = some v := hv
              split at hv1
              · cases hv1
                exact List.mem_cons_of_mem _ (List.mem_cons_self _ _)
              · cases hv1
          exact hrows row (List.mem_cons_self _ _) v hmem
    exact hgen aaa.Body [] (by unfold Clean; simp) hbody

theorem CleanSections_mapDelete (k : Str) (secs : List (Str × Section))
    (h : CleanSections secs) : CleanSections (mapDelete k secs) :=
  fun e he => h e ((mem_mapDelete k secs e).mp he).1

theorem CleanSections_fixTop (secs secs1 : List (Str × Section)) (h : CleanSections secs)
    (hf : fixTop secs = .ok secs1) : CleanSections secs1 := by
  unfold fixTop at hf
  split at hf
  · cases hf
    exact h
  · rename_i top htop
    have htopc := CleanSection_of_mapGet _ _ _ h htop
    split at hf
    · cases hf
    · split at hf
      · split at hf
        · cases hf
          exact h
        · rename_i first rest hbody
          cases hf
          apply CleanSections_mapModify _ _ _ h
          intro _ _
          exact ⟨htopc.2 first (by rw [hbody]; exact List.mem_cons_self _ _),
            fun row hrow => htopc.2 row (by rw [hbody]; exact List.mem_cons_of_mem _ hrow)⟩
      · cases hf
        exact h

theorem removeAll_subset {α : Type} (items : List Nat) (s out : List α)
    (h : removeAll s items = .ok out) : ∀ x ∈ out, x ∈ s := by
  induction items generalizing s with
  | nil =>
    cases h
    exact fun x hx => hx
  | cons item rest ih =>
    unfold removeAll removeAt at h
    split at h
    · simp only [Outcome.bind] at h
      exact fun x hx => List.eraseIdx_subset _ _ (ih _ h x hx)
    · cases h

theorem remove_subset {α : Type} (items : List Nat) (s out : List α)
    (h : remove s items = .ok out) : ∀ x ∈ out, x ∈ s :=
  removeAll_subset _ s out h

theorem CleanSections_topRow (header : List Str) (p c : Nat)
    (secs secs1 : List (Str × Section)) (row : List Str) (h : CleanSections secs)
    (hh : ∀ f ∈ header, Clean f) (hrow : ∀ cell ∈ row, Clean cell)
    (ht : topRow header p c secs row = .ok secs1) : CleanSections secs1 := by
  unfold topRow at ht
  split at ht
  · cases ht
  · rename_i command hcmd
    have hname : Clean ("TOP.".toList ++ command) :=
      Clean_append _ _ (by unfold Clean; decide) (hrow command (List.get?_mem hcmd))
    cases hr : remove row [p, c] with
    | err m => rw [hr] at ht; cases ht
    | panic q => rw [hr] at ht; cases ht
    | ok r =>
      rw [hr] at ht
      simp only [Outcome.bind] at ht
      cases ht
      have hrc : ∀ cell ∈ r, Clean cell :=
        fun cell hcell => hrow cell (remove_subset _ _ _ hr cell hcell)
      unfold appendRow
      apply CleanSections_mapModify _ _ _ _ (fun s hs => CleanSection_appendRow s r hs hrc)
      split
      · apply CleanSections_append _ _ h
        intro e he
        rw [List.mem_singleton.mp he]
        exact ⟨hname, hh, fun x hx => by cases hx⟩
      · exact h

theorem CleanSections_topRows (header : List Str) (p c : Nat) (rows : List (List Str))
    (secs secs1 : List (Str × Section)) (h : CleanSections secs)
    (hh : ∀ f ∈ header, Clean f) (hrows : ∀ row ∈ rows, ∀ cell ∈ row, Clean cell)
    (ht : topRows header p c secs rows = .ok secs1) : CleanSections secs1 := by
  induction rows generalizing secs with
  | nil =>
    cases ht
    exact h
  | cons row rest ih =>
    unfold topRows at ht
    cases hr : topRow header p c secs row with
    | err m => rw [hr] at ht; cases ht
    | panic q => rw [hr] at ht; cases ht
    | ok secs2 =>
      rw [hr] at ht
      exact ih secs2
        (CleanSections_topRow header p c secs secs2 row h hh
          (hrows row (List.mem_cons_self _ _)) hr)
        (fun r hr1 => hrows r (List.mem_cons_of_mem _ hr1)) ht

theorem CleanSections_convertTop (secs secs1 : List (Str × Section))
    (h : CleanSections secs) (ht : convertTop secs = .ok secs1) : CleanSections secs1 := by
  unfold convertTop at ht
  cases hf : fixTop secs with
  | err m => rw [hf] at ht; cases ht
  | panic q => rw [hf] at ht; cases ht
  | ok secs2 =>
    rw [hf] at ht
    have h2 := CleanSections_fixTop secs secs2 h hf
    simp only [Outcome.bind] at ht
    split at ht
    · cases ht
      exact CleanSections_mapDelete _ _ h2
    · rename_i top htop
      have htopc := CleanSection_of_mapGet _ _ _ h2 htop
      cases hr : remove top.Header
          [(topPositions top.Header 0 0 0).1, (topPositions top.Header 0 0 0).2] with
      | err m => rw [hr] at ht; cases ht
      | panic q => rw [hr] at ht; cases ht
      | ok header =>
        rw [hr] at ht
        simp only at ht
        cases hrows : topRows header (topPositions top.Header 0 0 0).1
            (topPositions top.Header 0 0 0).2 secs2 top.Body with
        | err m => rw [hrows] at ht; cases ht
        | panic q => rw [hrows] at ht; cases ht
        | ok secs3 =>
          rw [hrows] at ht
          cases ht
          apply CleanSections_mapDelete
          exact CleanSections_topRows header _ _ top.Body secs2 secs3 h2
            (fun f hf1 => htopc.1 f (remove_subset _ _ _ hr f hf1)) htopc.2 hrows

theorem Clean_join (sep : Str) (l : List Str) (hsep : Clean sep) (hl : ∀ x ∈ l, Clean x) :
    Clean (join sep l) := by
  induction l with
  | nil => unfold Clean; simp [join]
  | cons a rest ih =>
    cases rest with
    | nil => exact hl a (List.mem_cons_self _ _)
    | cons b rest2 =>
      show Clean (a ++ sep ++ join sep (b :: rest2))
      exact Clean_append _ _ (Clean_append _ _ (hl a (List.mem_cons_self _ _)) hsep)
        (ih (fun x hx => hl x (List.mem_cons_of_mem _ hx)))

theorem CleanMessages_mapAppend (k s : Str) (m : List (Str × Str)) (h : CleanMessages m)
    (hk : Clean k) (hs : Clean s) : CleanMessages (mapAppend k s m) := by
  unfold mapAppend mapSet
  cases hg : mapGet k m with
  | none =>
    simp only [hg]
    intro e he
    rcases List.mem_append.mp he with h1 | h1
    · exact h e h1
    · rw [List.mem_singleton.mp h1]
      exact ⟨hk, hs⟩
  | some old =>
    simp only [hg]
    have hold : Clean old := (h _ (mapGet_mem k old m hg)).2
    intro e he
    rcases mem_mapModify k _ m e he with h1 | ⟨v, h1, h2⟩
    · exact h e h1
    · exact ⟨(h _ h1).1, by rw [h2]; exact Clean_append _ _ hold hs⟩

theorem Clean_newline : Clean [newline] := by
  unfold Clean
  decide

theorem CleanMessages_aaaStep (m : List (Str × Str)) (row : List Str) (h : CleanMessages m)
    (hrow : ∀ cell ∈ row, Clean cell) : CleanMessages (aaaStep m row) := by
  unfold aaaStep
  exact CleanMessages_mapAppend _ _ _ h (by unfold Clean; decide)
    (Clean_append _ _ (Clean_join _ _ (by unfold Clean; decide) hrow) Clean_newline)

theorem CleanMessages_bbbpStep (m : List (Str × Str)) (row : List Str) (h : CleanMessages m)
    (hrow : ∀ cell ∈ row, Clean cell) : CleanMessages (bbbpStep m row) := by
  unfold bbbpStep
  match row, hrow with
  | [], _ => exact h
  | [_], _ => exact h
  | [_, _], _ => exact h
  | x :: source :: value :: rest, hrow =>
    exact CleanMessages_mapAppend _ _ _ h
      (Clean_append _ _ (by unfold Clean; decide)
        (hrow source (List.mem_cons_of_mem _ (List.mem_cons_self _ _))))
      (Clean_append _ _
        (hrow value (List.mem_cons_of_mem _ (List.mem_cons_of_mem _ (List.mem_cons_self _ _))))
        Clean_newline)

theorem CleanMessages_foldl {α : Type} (step : List (Str × Str) → α → List (Str × Str))
    (good : α → Prop)
    (hstep : ∀ m a, CleanMessages m → good a → CleanMessages (step m a))
    (l : List α) (m : List (Str × Str)) (h : CleanMessages m) (hl : ∀ a ∈ l, good a) :
    CleanMessages (l.foldl step m) := by
  induction l generalizing m with
  | nil => exact h
  | cons a rest ih =>
    rw [List.foldl_cons]
    exact ih _ (hstep m a h (hl a (List.mem_cons_self _ _)))
      (fun x hx => hl x (List.mem_cons_of_mem _ hx))

theorem CleanMessages_messageStep (m : List (Str × Str)) (e : Str × Section)
    (h : CleanMessages m) (he : CleanSection e.2) : CleanMessages (messageStep m e) := by
  unfold messageStep
  split
  · exact CleanMessages_foldl aaaStep (fun row => ∀ cell ∈ row, Clean cell)
      CleanMessages_aaaStep _ _ h he.2
  · split
    · exact CleanMessages_foldl bbbpStep (fun row => ∀ cell ∈ row, Clean cell)
        CleanMessages_bbbpStep _ _ h he.2
    · exact h

theorem Clean_convertMessages (secs : List (Str × Section)) (h : CleanSections secs) :
    CleanMessages (convertMessages secs).1 ∧ CleanSections (convertMessages secs).2 :=
  ⟨CleanMessages_foldl messageStep (fun e => CleanSection e.2) CleanMessages_messageStep
      secs [] (fun e he => by cases he) (fun e he => (h e he).2),
    CleanSections_mapDelete _ _ (CleanSections_mapDelete _ _ h)⟩

/-- C12: `NewNmon` gives the same result on a text and on the text with every
`%` replaced by `Percent`; and when it succeeds, no section name, header
field, row cell, message name, message text and Hostname of the Report holds
the character `%`. -/
theorem NewNmon_percent (parseTime : Str → Option Time) (data : Str) :
    NewNmon parseTime (replacePercent data) = NewNmon parseTime data ∧
      ∀ r, NewNmon parseTime data = .ok r →
        CleanSections r.Sections ∧ CleanMessages r.Messages ∧ Clean r.Hostname := by
  constructor
  · unfold NewNmon
    rw [replacePercent_of_clean _ (replacePercent_clean data)]
  · intro r hr
    obtain ⟨hostname, snaps, secs1, secs2, h1, h2, h3, h4⟩ := NewNmon_ok _ _ _ hr
    have hc := CleanSections_getSections _ (replacePercent_clean data)
    have hc1 : CleanSections secs1 := by
      unfold convertSnapshots at h2
      split at h2
      · cases h2
      · cases h2
        exact CleanSections_mapDelete _ _ hc
    have hc2 := CleanSections_convertTop secs1 secs2 hc1 h3
    have hm := Clean_convertMessages secs2 hc2
    rw [h4]
    exact ⟨hm.2, hm.1, Clean_getHostname _ _ hc h1⟩

/-- Witness of `NewNmon_percent` on a report with `%` in names, fields, cells,
the host name and a message. -/
theorem NewNmon_percent_witness :
    NewNmon refParseTime percentInput = .ok percentReport ∧
      NewNmon refParseTime (replacePercent percentInput) = NewNmon refParseTime percentInput ∧
      CleanSections percentReport.Sections ∧ CleanMessages percentReport.Messages ∧
      Clean percentReport.Hostname :=
  ⟨by decide, (NewNmon_percent refParseTime percentInput).1,
    (NewNmon_percent refParseTime percentInput).2 percentReport (by decide)⟩

end Nmon2series
